import Mathlib

/-!
# Minimal hitting sets: the SHD substrate and the MMCS and RS engines

A shallow embedding of `src/src/shd-algorithm.cpp`, `src/src/mmcs.cpp` and
`src/src/rs.cpp`.

* A `bitset` of width `w` is a finite set of indices below `w`; the width is
  part of the type, so every binary operation is between sets of equal width.
* Mutable reference parameters become explicit state passing: a function
  returns the new values of what it mutates.
* `assert` becomes an explicit failure value of `Run`.
* The recursion of the two engines is driven by a fuel argument; `transversal`
  supplies `H.num_edges`, and the theorems below show that this is enough.
* The shared queue `hitting_sets` is modelled by the list of the sets a call
  enqueues, in the order of a sequential execution.
* The choice between running the recursive call in a new OpenMP task (on
  copies) or inline is made by a scheduling oracle `spawn`, a function of the
  position of the call in the recursion tree.
-/

namespace agdmhs

/-! ## Data model -/

/-- Modelled from the spec: `bitset` is declared in `hypergraph.hpp`, which is
not part of the sources at hand.  It is the fixed-width set of indices of
section 4.A; membership, union, intersection, difference, subset test and
population count are the operations of `Finset`. -/
abbrev bitset (w : Nat) := Finset (Fin w)

/-- Ascending iteration over the set bits: the list visited by the idiom
`w = b.find_first(); while (w != npos) { ...; w = b.find_next(w); }`. -/
def members {w : Nat} (b : bitset w) : List (Fin w) :=
  (List.finRange w).filter (fun i => i ∈ b)

/-- Modelled from the spec: `find_first` returns the smallest member, or the
sentinel `npos` (here `none`) when the set is empty. -/
def find_first {w : Nat} (b : bitset w) : Option (Fin w) :=
  (members b).head?

/-- Modelled from the spec: `Hypergraph` is declared in `hypergraph.hpp`, which
is not part of the sources at hand.  It is the ordered sequence of edges of
section 4.B, each edge a bitset over the `nv` vertices. -/
structure Hypergraph (nv : Nat) where
  edges : List (bitset nv)

instance {nv : Nat} : DecidableEq (Hypergraph nv) := fun a b =>
  decidable_of_iff (a.edges = b.edges)
    ⟨fun h => by cases a; cases b; cases h; rfl, fun h => by rw [h]⟩

/-- Number of edges, `H.num_edges()`. -/
abbrev Hypergraph.num_edges {nv : Nat} (H : Hypergraph nv) : Nat := H.edges.length

/-- Indexed access to the i-th edge, `H[i]`. -/
def Hypergraph.edge {nv : Nat} (H : Hypergraph nv) (i : Fin H.num_edges) : bitset nv :=
  H.edges.get i

/-- Modelled from the spec: `transpose()` is defined in the missing
`hypergraph.cpp`; row `v` of the transpose is the set of the edges of `H` that
contain vertex `v`.  A table with one row per vertex (`T`, `crit`) is a
function from the vertex index to the row. -/
def Hypergraph.transpose {nv : Nat} (H : Hypergraph nv) : Fin nv → bitset H.num_edges :=
  fun v => Finset.univ.filter (fun i => v ∈ H.edge i)

/-- The type `hsetmap` of `shd-algorithm.hpp`, a `std::map<hindex, bitset>`: a
finite map from vertex indices to edge sets; `none` is an absent key. -/
abbrev hsetmap (nv ne : Nat) := Fin nv → Option (bitset ne)

/-- Outcome of running a piece of the program. -/
inductive Run (α : Type) where
  | ok (a : α)
  | assertion_failed
  | out_of_fuel

instance {α : Type} [DecidableEq α] : DecidableEq (Run α) := fun x y =>
  match x, y with
  | .ok a, .ok b => decidable_of_iff (a = b) ⟨fun h => by rw [h], fun h => by cases h; rfl⟩
  | .ok _, .assertion_failed => isFalse (fun h => by cases h)
  | .ok _, .out_of_fuel => isFalse (fun h => by cases h)
  | .assertion_failed, .ok _ => isFalse (fun h => by cases h)
  | .assertion_failed, .assertion_failed => isTrue rfl
  | .assertion_failed, .out_of_fuel => isFalse (fun h => by cases h)
  | .out_of_fuel, .ok _ => isFalse (fun h => by cases h)
  | .out_of_fuel, .assertion_failed => isFalse (fun h => by cases h)
  | .out_of_fuel, .out_of_fuel => isTrue rfl

/-- Sequencing of two steps; a failure of the first step is the failure of the whole. -/
def Run.bind {α β : Type} (r : Run α) (f : α → Run β) : Run β :=
  match r with
  | .ok a => f a
  | .assertion_failed => .assertion_failed
  | .out_of_fuel => .out_of_fuel

/-! ## The SHD substrate (`shd-algorithm.cpp`) -/

section SHD

variable {nv : Nat}

/-- The function `SHDAlgorithm::vertex_would_violate` (its parameter `H` only fixes the
number of edges). -/
def vertex_would_violate (H : Hypergraph nv) (crit : Fin nv → bitset H.num_edges)
    (uncov : bitset H.num_edges) (T : Fin nv → bitset H.num_edges)
    (S : bitset nv) (v : Fin nv) : Run Bool :=
  if v ∈ S then .assertion_failed
  else if crit v ≠ ∅ then .assertion_failed
  else
    let test_edges := T v \ uncov
    .ok ((members S).any (fun w => decide (crit w ⊆ test_edges)))

/-- The function `SHDAlgorithm::update_crit_and_uncov`; returns the new `crit`, the new
`uncov` and `critmark`. -/
def update_crit_and_uncov (H : Hypergraph nv) (crit : Fin nv → bitset H.num_edges)
    (uncov : bitset H.num_edges) (T : Fin nv → bitset H.num_edges)
    (S : bitset nv) (v : Fin nv) :
    Run ((Fin nv → bitset H.num_edges) × bitset H.num_edges × hsetmap nv H.num_edges) :=
  if v ∈ S then .assertion_failed
  else if crit v ≠ ∅ then .assertion_failed
  else
    let v_edges := T v
    let crit1 := Function.update crit v (v_edges ∩ uncov)
    let uncov1 := uncov \ v_edges
    let r := (members S).foldl
      (fun (acc : (Fin nv → bitset H.num_edges) × hsetmap nv H.num_edges) w =>
        (Function.update acc.1 w (acc.1 w \ v_edges),
         Function.update acc.2 w (some (acc.1 w ∩ v_edges))))
      (crit1, fun _ => none)
    .ok (r.1, uncov1, r.2)

/-- The function `SHDAlgorithm::restore_crit_and_uncov`; returns the new `crit` and `uncov`. -/
def restore_crit_and_uncov {ne : Nat} (crit : Fin nv → bitset ne)
    (uncov : bitset ne) (S : bitset nv) (critmark : hsetmap nv ne) (v : Fin nv) :
    Run ((Fin nv → bitset ne) × bitset ne) :=
  if v ∈ S then .assertion_failed
  else if (uncov ∩ crit v).Nonempty then .assertion_failed
  else
    let uncov1 := uncov ∪ crit v
    let crit1 := Function.update crit v ∅
    let crit2 := (members S).foldl
      (fun (c : Fin nv → bitset ne) w =>
        match critmark w with
        | some marked => Function.update c w (c w ∪ marked)
        | none => c)
      crit1
    .ok (crit2, uncov1)

end SHD

/-! ## The MMCS engine (`mmcs.cpp`) -/

/-- The mutable state a call of `MMCSAlgorithm::extend_or_confirm_set` works on. -/
structure MMCSFrame (nv ne : Nat) where
  S : bitset nv
  CAND : bitset nv
  crit : Fin nv → bitset ne
  uncov : bitset ne

instance {nv ne : Nat} : DecidableEq (MMCSFrame nv ne) := fun a b =>
  decidable_of_iff (a.S = b.S ∧ a.CAND = b.CAND ∧ a.crit = b.crit ∧ a.uncov = b.uncov)
    ⟨fun h => by
      cases a; cases b
      obtain ⟨h1, h2, h3, h4⟩ := h
      cases h1; cases h2; cases h3; cases h4; rfl,
     fun h => by rw [h]; exact ⟨rfl, rfl, rfl, rfl⟩⟩

namespace MMCSAlgorithm

variable {nv : Nat}

/-- The asserted input specification of `extend_or_confirm_set`. -/
def input_specification {ne : Nat} (cutoff_size : Nat) (fr : MMCSFrame nv ne) : Bool :=
  decide (fr.uncov.Nonempty) && decide (fr.CAND.Nonempty) &&
    decide (cutoff_size = 0 ∨ fr.S.card < cutoff_size)

/-- The M+U edge selection: the scan over `uncov` that keeps the edge with the
smallest intersection with `CAND`, starting from `H[first]`. -/
def select_edge (H : Hypergraph nv) (CAND : bitset nv) (uncov : bitset H.num_edges)
    (first : Fin H.num_edges) : bitset nv :=
  (members uncov).foldl
    (fun e search_edge =>
      if (H.edge search_edge ∩ CAND).card < (e ∩ CAND).card then H.edge search_edge else e)
    (H.edge first)

/-- The processing of the new candidate `S` in the loop body of
`extend_or_confirm_set`: store it, or extend it by a recursive call (run as a
task on copies, or inline), or drop it.  The answer of `spawn` stands for the
test `counters.tasks_waiting < 4`, and `uncov.size()` is the number of edges.
Returns the frame state afterwards and the sets enqueued. -/
def process_candidate (cutoff_size : Nat) (spawn : List (Fin nv) → Bool) (H : Hypergraph nv)
    (recurse : List (Fin nv) → MMCSFrame nv H.num_edges →
      Run (MMCSFrame nv H.num_edges × List (bitset nv)))
    (path : List (Fin nv)) (fr1 : MMCSFrame nv H.num_edges) :
    Run (MMCSFrame nv H.num_edges × List (bitset nv)) :=
  if fr1.uncov = ∅ ∧ (cutoff_size = 0 ∨ fr1.S.card ≤ cutoff_size) then
    Run.ok (fr1, [fr1.S])
  else if 0 < fr1.CAND.card ∧ (cutoff_size = 0 ∨ fr1.S.card < cutoff_size) then
    if spawn path ∧ 2 < H.num_edges then
      (recurse path fr1).bind fun sub => Run.ok (fr1, sub.2)
    else
      recurse path fr1
  else Run.ok (fr1, [])

/-- The loop `for (auto& v: Cindices)` of `extend_or_confirm_set`, with the
recursive call abstracted as `recurse`.  Returns the frame state after the
loop, the set `violators` and the sets enqueued. -/
def test_vertices (cutoff_size : Nat) (spawn : List (Fin nv) → Bool) (H : Hypergraph nv)
    (T : Fin nv → bitset H.num_edges)
    (recurse : List (Fin nv) → MMCSFrame nv H.num_edges →
      Run (MMCSFrame nv H.num_edges × List (bitset nv)))
    (path : List (Fin nv)) :
    List (Fin nv) → MMCSFrame nv H.num_edges → bitset nv →
      Run (MMCSFrame nv H.num_edges × bitset nv × List (bitset nv))
  | [], fr, violators => .ok (fr, violators, [])
  | v :: rest, fr, violators =>
    (vertex_would_violate H fr.crit fr.uncov T fr.S v).bind fun violating =>
    if violating then
      test_vertices cutoff_size spawn H T recurse path rest fr (insert v violators)
    else
      (update_crit_and_uncov H fr.crit fr.uncov T fr.S v).bind fun upd =>
      let critmark := upd.2.2
      let fr1 : MMCSFrame nv H.num_edges := ⟨insert v fr.S, fr.CAND, upd.1, upd.2.1⟩
      (process_candidate cutoff_size spawn H recurse (v :: path) fr1).bind fun done =>
      let fr2 := done.1
      let S3 := fr2.S.erase v
      (restore_crit_and_uncov fr2.crit fr2.uncov S3 critmark v).bind fun res =>
      (test_vertices cutoff_size spawn H T recurse path rest
        ⟨S3, insert v fr2.CAND, res.1, res.2⟩ violators).bind fun tail =>
      Run.ok (tail.1, tail.2.1, done.2 ++ tail.2.2)

/-- The function `MMCSAlgorithm::extend_or_confirm_set`.  Returns the state of the frame at
return and the list of the sets enqueued by the call. -/
def extend_or_confirm_set (cutoff_size : Nat) (spawn : List (Fin nv) → Bool)
    (H : Hypergraph nv) (T : Fin nv → bitset H.num_edges) :
    Nat → List (Fin nv) → MMCSFrame nv H.num_edges →
      Run (MMCSFrame nv H.num_edges × List (bitset nv))
  | 0, _, fr =>
    if input_specification cutoff_size fr then .out_of_fuel else .assertion_failed
  | fuel + 1, path, fr =>
    if ¬ input_specification cutoff_size fr then .assertion_failed
    else
      match find_first fr.uncov with
      | none => .assertion_failed
      | some first =>
        let e := select_edge H fr.CAND fr.uncov first
        let C := fr.CAND ∩ e
        let Cindices := (members C).reverse
        (test_vertices cutoff_size spawn H T (extend_or_confirm_set cutoff_size spawn H T fuel)
          path Cindices ⟨fr.S, fr.CAND \ e, fr.crit, fr.uncov⟩ ∅).bind fun r =>
        Run.ok (⟨r.1.S, r.1.CAND ∪ r.2.1, r.1.crit, r.1.uncov⟩, r.2.2)

/-- The function `MMCSAlgorithm::transversal`; the oracle `spawn` stands for the
scheduling that `num_threads` allows. -/
def transversal (cutoff_size : Nat) (spawn : List (Fin nv) → Bool) (H : Hypergraph nv) :
    Run (Hypergraph nv) :=
  let T := H.transpose
  (extend_or_confirm_set cutoff_size spawn H T H.num_edges []
    ⟨∅, Finset.univ, fun _ => ∅, Finset.univ⟩).bind fun r =>
  Run.ok ⟨r.2⟩

end MMCSAlgorithm

/-! ## The RS engine (`rs.cpp`) -/

/-- The mutable state a call of `RSAlgorithm::extend_or_confirm_set` works on. -/
structure RSFrame (nv ne : Nat) where
  S : bitset nv
  crit : Fin nv → bitset ne
  uncov : bitset ne

instance {nv ne : Nat} : DecidableEq (RSFrame nv ne) := fun a b =>
  decidable_of_iff (a.S = b.S ∧ a.crit = b.crit ∧ a.uncov = b.uncov)
    ⟨fun h => by
      cases a; cases b
      obtain ⟨h1, h2, h3⟩ := h
      cases h1; cases h2; cases h3; rfl,
     fun h => by rw [h]; exact ⟨rfl, rfl, rfl⟩⟩

namespace RSAlgorithm

variable {nv : Nat}

/-- The function `RSAlgorithm::any_edge_critical_after_i`; the sentinel `npos` returned by
`find_first` on an empty set compares greater than every index. -/
def any_edge_critical_after_i {ne : Nat} (i : Fin ne) (S : bitset nv)
    (crit : Fin nv → bitset ne) : Bool :=
  (members S).any fun w =>
    match find_first (crit w) with
    | none => true
    | some first_crit_edge => decide (i ≤ first_crit_edge)

/-- The asserted input specification of `extend_or_confirm_set`. -/
def input_specification {ne : Nat} (cutoff_size : Nat) (fr : RSFrame nv ne) : Bool :=
  decide (fr.uncov.Nonempty) && decide (cutoff_size = 0 ∨ fr.S.card < cutoff_size)

/-- The loop over the vertices of the search edge that fills
`new_violating_vertices` and `search_indices` (by `push_front`). -/
def store_indices (H : Hypergraph nv) (T : Fin nv → bitset H.num_edges)
    (fr : RSFrame nv H.num_edges) (violating_vertices : bitset nv) :
    List (Fin nv) → bitset nv → List (Fin nv) → Run (bitset nv × List (Fin nv))
  | [], new_violating_vertices, search_indices => .ok (new_violating_vertices, search_indices)
  | v :: rest, new_violating_vertices, search_indices =>
    if v ∈ violating_vertices then
      store_indices H T fr violating_vertices rest new_violating_vertices search_indices
    else
      (vertex_would_violate H fr.crit fr.uncov T fr.S v).bind fun violating =>
      if violating then
        store_indices H T fr violating_vertices rest (insert v new_violating_vertices)
          search_indices
      else
        store_indices H T fr violating_vertices rest new_violating_vertices
          (v :: search_indices)

/-- The processing of the new candidate `S` in the loop body of
`extend_or_confirm_set`: store it, or extend it by a recursive call (run as a
task on copies, or inline), or drop it.  The answer of `spawn` stands for the
test `counters.tasks_waiting < 4`, and `uncov.size()` is the number of edges.
Returns the frame state afterwards and the sets enqueued. -/
def process_candidate (cutoff_size : Nat) (spawn : List (Fin nv) → Bool) (H : Hypergraph nv)
    (recurse : List (Fin nv) → RSFrame nv H.num_edges → bitset nv →
      Run (RSFrame nv H.num_edges × List (bitset nv)))
    (path : List (Fin nv)) (passed_down : bitset nv) (fr1 : RSFrame nv H.num_edges) :
    Run (RSFrame nv H.num_edges × List (bitset nv)) :=
  if fr1.uncov = ∅ then
    Run.ok (fr1, [fr1.S])
  else if cutoff_size = 0 ∨ fr1.S.card < cutoff_size then
    if spawn path ∧ 2 < H.num_edges then
      (recurse path fr1 passed_down).bind fun sub => Run.ok (fr1, sub.2)
    else
      recurse path fr1 passed_down
  else Run.ok (fr1, [])

/-- The loop `for (auto& v: search_indices)` of `extend_or_confirm_set`, with
the recursive call abstracted as `recurse`; `passed_down` is
`violating_vertices | new_violating_vertices`. -/
def search_loop (cutoff_size : Nat) (spawn : List (Fin nv) → Bool) (H : Hypergraph nv)
    (T : Fin nv → bitset H.num_edges)
    (recurse : List (Fin nv) → RSFrame nv H.num_edges → bitset nv →
      Run (RSFrame nv H.num_edges × List (bitset nv)))
    (path : List (Fin nv)) (search_edge : Fin H.num_edges) (passed_down : bitset nv) :
    List (Fin nv) → RSFrame nv H.num_edges →
      Run (RSFrame nv H.num_edges × List (bitset nv))
  | [], fr => .ok (fr, [])
  | v :: rest, fr =>
    (update_crit_and_uncov H fr.crit fr.uncov T fr.S v).bind fun upd =>
    let critmark := upd.2.2
    if any_edge_critical_after_i search_edge fr.S upd.1 then
      (restore_crit_and_uncov upd.1 upd.2.1 fr.S critmark v).bind fun res =>
      search_loop cutoff_size spawn H T recurse path search_edge passed_down rest
        ⟨fr.S, res.1, res.2⟩
    else
      let fr1 : RSFrame nv H.num_edges := ⟨insert v fr.S, upd.1, upd.2.1⟩
      (process_candidate cutoff_size spawn H recurse (v :: path) passed_down fr1).bind
        fun done =>
      let fr2 := done.1
      let S3 := fr2.S.erase v
      (restore_crit_and_uncov fr2.crit fr2.uncov S3 critmark v).bind fun res =>
      (search_loop cutoff_size spawn H T recurse path search_edge passed_down rest
        ⟨S3, res.1, res.2⟩).bind fun tail =>
      Run.ok (tail.1, done.2 ++ tail.2)

/-- The function `RSAlgorithm::extend_or_confirm_set`.  Returns the state of the frame at
return and the list of the sets enqueued by the call. -/
def extend_or_confirm_set (cutoff_size : Nat) (spawn : List (Fin nv) → Bool)
    (H : Hypergraph nv) (T : Fin nv → bitset H.num_edges) :
    Nat → List (Fin nv) → RSFrame nv H.num_edges → bitset nv →
      Run (RSFrame nv H.num_edges × List (bitset nv))
  | 0, _, fr, _ =>
    if input_specification cutoff_size fr then .out_of_fuel else .assertion_failed
  | fuel + 1, path, fr, violating_vertices =>
    if ¬ input_specification cutoff_size fr then .assertion_failed
    else
      match find_first fr.uncov with
      | none => .assertion_failed
      | some search_edge =>
        let e := H.edge search_edge
        (store_indices H T fr violating_vertices (members e) ∅ []).bind fun part =>
        search_loop cutoff_size spawn H T (extend_or_confirm_set cutoff_size spawn H T fuel)
          path search_edge (violating_vertices ∪ part.1) part.2 fr

/-- The function `RSAlgorithm::transversal`; the oracle `spawn` stands for the
scheduling that `num_threads` allows. -/
def transversal (cutoff_size : Nat) (spawn : List (Fin nv) → Bool) (H : Hypergraph nv) :
    Run (Hypergraph nv) :=
  let T := H.transpose
  (extend_or_confirm_set cutoff_size spawn H T H.num_edges []
    ⟨∅, fun _ => ∅, Finset.univ⟩ ∅).bind fun r =>
  Run.ok ⟨r.2⟩

end RSAlgorithm

/-- The scheduling oracle of a sequential search: no recursive call is run as a task. -/
def sequential {nv : Nat} : List (Fin nv) → Bool := fun _ => false

/-! ## Specification vocabulary -/

section Vocabulary

variable {nv : Nat}

/-- The vertex set `S` meets every edge of `H`: it is a hitting set. -/
def Hypergraph.hits (H : Hypergraph nv) (S : bitset nv) : Prop :=
  ∀ e ∈ H.edges, (e ∩ S).Nonempty

instance (H : Hypergraph nv) (S : bitset nv) : Decidable (H.hits S) :=
  inferInstanceAs (Decidable (∀ e ∈ H.edges, (e ∩ S).Nonempty))

/-- Membership in `MinHit(H)`: `S` is a hitting set and no proper subset of `S` is one. -/
def Hypergraph.MinHit (H : Hypergraph nv) (S : bitset nv) : Prop :=
  H.hits S ∧ ∀ S', S' ⊂ S → ¬ H.hits S'

/-- Minimality as the search maintains it: `S` is a hitting set and every vertex
of `S` is the only vertex of `S` in at least one edge. -/
def Hypergraph.hits_critically (H : Hypergraph nv) (S : bitset nv) : Prop :=
  H.hits S ∧ ∀ w ∈ S, ∃ e ∈ H.edges, e ∩ S = {w}

/-- The value `uncov` must have for the vertex set `S`: the edges `S` does not meet. -/
def uncov_of (H : Hypergraph nv) (S : bitset nv) : bitset H.num_edges :=
  Finset.univ.filter (fun i => H.edge i ∩ S = ∅)

/-- The value `crit[w]` must have for the vertex set `S`: the edges whose only
vertex in `S` is `w` (none when `w` is not in `S`). -/
def crit_of (H : Hypergraph nv) (S : bitset nv) (w : Fin nv) : bitset H.num_edges :=
  Finset.univ.filter (fun i => H.edge i ∩ S = {w})

/-- Every vertex of `S` has a critical edge: no vertex of `S` is redundant. -/
def irredundant (H : Hypergraph nv) (S : bitset nv) : Prop :=
  ∀ w ∈ S, (crit_of H S w).Nonempty

/-- The cutoff admits the set `M`: there is no cutoff, or `M` is not larger than it. -/
def within_cutoff (cutoff_size : Nat) (M : bitset nv) : Prop :=
  cutoff_size = 0 ∨ M.card ≤ cutoff_size

/-- The contract of a call of `MMCSAlgorithm::extend_or_confirm_set` made with
the bookkeeping values of `S`: the call returns, leaves the frame state as it
found it, and enqueues, each once, the minimal hitting sets between `S` and
`S ∪ CAND` that the cutoff admits. -/
def MMCSAlgorithm.call_contract (cutoff_size : Nat) (H : Hypergraph nv)
    (recurse : List (Fin nv) → MMCSFrame nv H.num_edges →
      Run (MMCSFrame nv H.num_edges × List (bitset nv)))
    (fuel : Nat) : Prop :=
  ∀ (path : List (Fin nv)) (S CAND : bitset nv),
    irredundant H S → (uncov_of H S).Nonempty → CAND.Nonempty →
    (cutoff_size = 0 ∨ S.card < cutoff_size) → (uncov_of H S).card ≤ fuel →
    ∃ out, recurse path ⟨S, CAND, crit_of H S, uncov_of H S⟩
        = .ok (⟨S, CAND, crit_of H S, uncov_of H S⟩, out) ∧
      out.Nodup ∧
      ∀ M, M ∈ out ↔
        (H.MinHit M ∧ S ⊆ M ∧ M ⊆ S ∪ CAND ∧ within_cutoff cutoff_size M)

/-- One step of the RS search: `X` is `S` with one more vertex `v`, the first
critical edge of `v` in `X` exists, and every vertex of `S` has its first
critical edge in `X` before that of `v`. -/
def RSAlgorithm.extends_to (H : Hypergraph nv) (S X : bitset nv) : Prop :=
  ∃ v, v ∉ S ∧ X = insert v S ∧
    ∃ i, find_first (crit_of H X v) = some i ∧
      ∀ w ∈ S, ∃ j, find_first (crit_of H X w) = some j ∧ j < i

/-- The set `M` is reached from `S` by steps of the RS search. -/
def RSAlgorithm.reaches (H : Hypergraph nv) (S M : bitset nv) : Prop :=
  Relation.ReflTransGen (RSAlgorithm.extends_to H) S M

/-- The vertex `u` is violating for `S`: some vertex of `S` would have no
critical edge left in `S ∪ {u}`. -/
def violating (H : Hypergraph nv) (S : bitset nv) (u : Fin nv) : Prop :=
  ∃ w ∈ S, crit_of H (insert u S) w = ∅

/-- The contract of a call of `RSAlgorithm::extend_or_confirm_set` made with the
bookkeeping values of `S` and a set of vertices that are violating for `S`: the
call returns, leaves the frame state as it found it, and enqueues, each once,
the minimal hitting sets reached from `S` that the cutoff admits. -/
def RSAlgorithm.call_contract (cutoff_size : Nat) (H : Hypergraph nv)
    (recurse : List (Fin nv) → RSFrame nv H.num_edges → bitset nv →
      Run (RSFrame nv H.num_edges × List (bitset nv)))
    (fuel : Nat) : Prop :=
  ∀ (path : List (Fin nv)) (S violating_vertices : bitset nv),
    irredundant H S → (uncov_of H S).Nonempty →
    (cutoff_size = 0 ∨ S.card < cutoff_size) → (uncov_of H S).card ≤ fuel →
    (∀ u ∈ violating_vertices, violating H S u) →
    ∃ out, recurse path ⟨S, crit_of H S, uncov_of H S⟩ violating_vertices
        = .ok (⟨S, crit_of H S, uncov_of H S⟩, out) ∧
      out.Nodup ∧
      ∀ M, M ∈ out ↔
        (H.MinHit M ∧ RSAlgorithm.reaches H S M ∧ within_cutoff cutoff_size M)

/-- The family is Sperner: no edge contains another (different) edge. -/
def Hypergraph.Sperner (H : Hypergraph nv) : Prop :=
  ∀ e ∈ H.edges, ∀ f ∈ H.edges, e ⊆ f → e = f

instance (H : Hypergraph nv) : Decidable H.Sperner :=
  inferInstanceAs (Decidable (∀ e ∈ H.edges, ∀ f ∈ H.edges, e ⊆ f → e = f))

/-- The chain of the end-to-end scenarios: the edges {0,1}, {1,2}, {2,3} on 4 vertices. -/
def chain : Hypergraph 4 := ⟨[{0, 1}, {1, 2}, {2, 3}]⟩

end Vocabulary

/-! ## Calls reachable from the root call

The calls of `extend_or_confirm_set` that a run of `transversal` makes are
described by a relation: the root call is entered with the frame that
`transversal` builds, and a call entered with frame `fr` makes the call with
frame `fr1` when the loop of `fr`, after the iterations for the vertices before
`v`, reaches the recursive call of the iteration for `v` with `fr1` as the
state (a task works on a copy of it, an inline call on the state itself).
The index counts the fuel left, and the list names the position of the call. -/

section Reachable

variable {nv : Nat}

/-- The test under which the loop body of `MMCSAlgorithm::extend_or_confirm_set`
makes the recursive call (as a task or inline): the first `if` fails and the
`else if` holds. -/
def MMCSAlgorithm.recursive_call {ne : Nat} (cutoff_size : Nat) (fr1 : MMCSFrame nv ne) :
    Prop :=
  ¬ (fr1.uncov = ∅ ∧ (cutoff_size = 0 ∨ fr1.S.card ≤ cutoff_size)) ∧
    (0 < fr1.CAND.card ∧ (cutoff_size = 0 ∨ fr1.S.card < cutoff_size))

/-- The branch of vertex `v` in the call entered with frame `fr`: the frame
passes its input specification, `e` is the edge selected, the loop over
`Cindices` has run through the vertices `pre` that come before `v`, `v` is not
violating, and `fr1` is the state after `update_crit_and_uncov` and
`S.set(v)`: the new candidate that the rest of the loop body processes. -/
def MMCSAlgorithm.branch (cutoff_size : Nat) (spawn : List (Fin nv) → Bool)
    (H : Hypergraph nv) (fuel : Nat) (path : List (Fin nv))
    (fr : MMCSFrame nv H.num_edges) (e : bitset nv) (v : Fin nv)
    (fr1 : MMCSFrame nv H.num_edges) : Prop :=
  MMCSAlgorithm.input_specification cutoff_size fr = true ∧
  (find_first fr.uncov).map (MMCSAlgorithm.select_edge H fr.CAND fr.uncov) = some e ∧
  ∃ (pre post : List (Fin nv)) (mid : MMCSFrame nv H.num_edges) (violators : bitset nv)
      (out : List (bitset nv)),
    (members (fr.CAND ∩ e)).reverse = pre ++ v :: post ∧
    MMCSAlgorithm.test_vertices cutoff_size spawn H H.transpose
        (MMCSAlgorithm.extend_or_confirm_set cutoff_size spawn H H.transpose fuel) path pre
        ⟨fr.S, fr.CAND \ e, fr.crit, fr.uncov⟩ ∅ = .ok (mid, violators, out) ∧
    vertex_would_violate H mid.crit mid.uncov H.transpose mid.S v = .ok false ∧
    (update_crit_and_uncov H mid.crit mid.uncov H.transpose mid.S v).bind
        (fun upd => .ok (⟨insert v mid.S, mid.CAND, upd.1, upd.2.1⟩ :
          MMCSFrame nv H.num_edges)) = .ok fr1

/-- The calls of `MMCSAlgorithm::extend_or_confirm_set` reachable from the root
call that `transversal` makes, with the frame state at their entry. -/
inductive MMCSAlgorithm.entered (cutoff_size : Nat) (spawn : List (Fin nv) → Bool)
    (H : Hypergraph nv) : Nat → List (Fin nv) → MMCSFrame nv H.num_edges → Prop where
  | root : MMCSAlgorithm.entered cutoff_size spawn H H.num_edges []
      ⟨∅, Finset.univ, fun _ => ∅, Finset.univ⟩
  | call {fuel : Nat} {path : List (Fin nv)} {fr : MMCSFrame nv H.num_edges} {e : bitset nv}
      {v : Fin nv} {fr1 : MMCSFrame nv H.num_edges} :
      MMCSAlgorithm.entered cutoff_size spawn H (fuel + 1) path fr →
      MMCSAlgorithm.branch cutoff_size spawn H fuel path fr e v fr1 →
      MMCSAlgorithm.recursive_call cutoff_size fr1 →
      MMCSAlgorithm.entered cutoff_size spawn H fuel (v :: path) fr1

/-- The test under which the loop body of `RSAlgorithm::extend_or_confirm_set`
makes the recursive call (as a task or inline): `uncov` is not empty and the
cutoff allows a larger set. -/
def RSAlgorithm.recursive_call {ne : Nat} (cutoff_size : Nat) (fr1 : RSFrame nv ne) : Prop :=
  fr1.uncov ≠ ∅ ∧ (cutoff_size = 0 ∨ fr1.S.card < cutoff_size)

/-- The branch of vertex `v` in the call entered with frame `fr` and the set
`violating_vertices`: the frame passes its input specification, `search_edge`
is the first uncovered edge, the loop over `search_indices` has run through the
vertices `pre` that come before `v`, the critical-edge test passes after
`update_crit_and_uncov`, and `fr1` is the state after `S.set(v)`;
`passed_down` is the violating set given to a recursive call. -/
def RSAlgorithm.branch (cutoff_size : Nat) (spawn : List (Fin nv) → Bool)
    (H : Hypergraph nv) (fuel : Nat) (path : List (Fin nv))
    (fr : RSFrame nv H.num_edges) (violating_vertices : bitset nv)
    (search_edge : Fin H.num_edges) (v : Fin nv) (fr1 : RSFrame nv H.num_edges)
    (passed_down : bitset nv) : Prop :=
  RSAlgorithm.input_specification cutoff_size fr = true ∧
  find_first fr.uncov = some search_edge ∧
  ∃ (part : bitset nv × List (Fin nv)) (pre post : List (Fin nv))
      (mid : RSFrame nv H.num_edges) (out : List (bitset nv)),
    RSAlgorithm.store_indices H H.transpose fr violating_vertices
        (members (H.edge search_edge)) ∅ [] = .ok part ∧
    passed_down = violating_vertices ∪ part.1 ∧
    part.2 = pre ++ v :: post ∧
    RSAlgorithm.search_loop cutoff_size spawn H H.transpose
        (RSAlgorithm.extend_or_confirm_set cutoff_size spawn H H.transpose fuel) path
        search_edge passed_down pre fr = .ok (mid, out) ∧
    (update_crit_and_uncov H mid.crit mid.uncov H.transpose mid.S v).bind
        (fun upd => .ok (⟨insert v mid.S, upd.1, upd.2.1⟩ : RSFrame nv H.num_edges))
      = .ok fr1 ∧
    RSAlgorithm.any_edge_critical_after_i search_edge mid.S fr1.crit = false

/-- The calls of `RSAlgorithm::extend_or_confirm_set` reachable from the root
call that `transversal` makes, with the frame state and the set
`violating_vertices` at their entry. -/
inductive RSAlgorithm.entered (cutoff_size : Nat) (spawn : List (Fin nv) → Bool)
    (H : Hypergraph nv) :
    Nat → List (Fin nv) → RSFrame nv H.num_edges → bitset nv → Prop where
  | root : RSAlgorithm.entered cutoff_size spawn H H.num_edges []
      ⟨∅, fun _ => ∅, Finset.univ⟩ ∅
  | call {fuel : Nat} {path : List (Fin nv)} {fr : RSFrame nv H.num_edges}
      {violating_vertices : bitset nv} {search_edge : Fin H.num_edges} {v : Fin nv}
      {fr1 : RSFrame nv H.num_edges} {passed_down : bitset nv} :
      RSAlgorithm.entered cutoff_size spawn H (fuel + 1) path fr violating_vertices →
      RSAlgorithm.branch cutoff_size spawn H fuel path fr violating_vertices search_edge v
        fr1 passed_down →
      RSAlgorithm.recursive_call cutoff_size fr1 →
      RSAlgorithm.entered cutoff_size spawn H fuel (v :: path) fr1 passed_down

/-- The bookkeeping is correct for `S` (invariants 1 and 2 of the
specification): `uncov` holds the edges that `S` does not meet, `crit[v]` the
edges whose only vertex in `S` is `v`, and `crit[v]` is empty outside `S`. -/
def bookkeeping_correct (H : Hypergraph nv) (S : bitset nv)
    (crit : Fin nv → bitset H.num_edges) (uncov : bitset H.num_edges) : Prop :=
  (∀ i, i ∈ uncov ↔ H.edge i ∩ S = ∅) ∧
  (∀ v ∈ S, ∀ i, i ∈ crit v ↔ H.edge i ∩ S = {v}) ∧
  (∀ v, v ∉ S → crit v = ∅)

/-- The hypergraph {{0,1},{0,2},{1,3}} on 4 vertices. -/
def fork : Hypergraph 4 := ⟨[{0, 1}, {0, 2}, {1, 3}]⟩

/-- The hypergraph {{0},{1},{2},{0,1}} on 3 vertices. -/
def overlap : Hypergraph 3 := ⟨[{0}, {1}, {2}, {0, 1}]⟩

/-- The disjoint pair of the end-to-end scenarios: the edges {0,1}, {2,3} on 4 vertices. -/
def disjoint_pair : Hypergraph 4 := ⟨[{0, 1}, {2, 3}]⟩

/-- The hypergraph {{1,2},{0,2}} on 3 vertices. -/
def wedge : Hypergraph 3 := ⟨[{1, 2}, {0, 2}]⟩

/-- The iteration for vertex `v` in the loop of the MMCS call entered with frame
`fr`: the frame passes its input specification, `e` is the edge selected, and
the loop over `Cindices` has run through the vertices before `v`, which leaves
the state `mid` and the set `violators`.  The iteration starts with the call of
`vertex_would_violate` for `v` in the state `mid`. -/
def MMCSAlgorithm.iteration (cutoff_size : Nat) (spawn : List (Fin nv) → Bool)
    (H : Hypergraph nv) (fuel : Nat) (path : List (Fin nv))
    (fr : MMCSFrame nv H.num_edges) (e : bitset nv) (v : Fin nv)
    (mid : MMCSFrame nv H.num_edges) (violators : bitset nv) : Prop :=
  MMCSAlgorithm.input_specification cutoff_size fr = true ∧
  (find_first fr.uncov).map (MMCSAlgorithm.select_edge H fr.CAND fr.uncov) = some e ∧
  ∃ (pre post : List (Fin nv)) (out : List (bitset nv)),
    (members (fr.CAND ∩ e)).reverse = pre ++ v :: post ∧
    MMCSAlgorithm.test_vertices cutoff_size spawn H H.transpose
        (MMCSAlgorithm.extend_or_confirm_set cutoff_size spawn H H.transpose fuel) path pre
        ⟨fr.S, fr.CAND \ e, fr.crit, fr.uncov⟩ ∅ = .ok (mid, violators, out)

/-- The iteration for vertex `v` in the loop over `search_indices` of the RS
call entered with frame `fr` and the set `violating_vertices`: the frame passes
its input specification, `search_edge` is the first uncovered edge, and the
loop has run through the vertices before `v`, which leaves the state `mid`.
The iteration starts with the call of `update_crit_and_uncov` for `v` in the
state `mid`. -/
def RSAlgorithm.iteration (cutoff_size : Nat) (spawn : List (Fin nv) → Bool)
    (H : Hypergraph nv) (fuel : Nat) (path : List (Fin nv))
    (fr : RSFrame nv H.num_edges) (violating_vertices : bitset nv)
    (search_edge : Fin H.num_edges) (v : Fin nv) (mid : RSFrame nv H.num_edges)
    (passed_down : bitset nv) : Prop :=
  RSAlgorithm.input_specification cutoff_size fr = true ∧
  find_first fr.uncov = some search_edge ∧
  ∃ (part : bitset nv × List (Fin nv)) (pre post : List (Fin nv)) (out : List (bitset nv)),
    RSAlgorithm.store_indices H H.transpose fr violating_vertices
        (members (H.edge search_edge)) ∅ [] = .ok part ∧
    passed_down = violating_vertices ∪ part.1 ∧
    part.2 = pre ++ v :: post ∧
    RSAlgorithm.search_loop cutoff_size spawn H H.transpose
        (RSAlgorithm.extend_or_confirm_set cutoff_size spawn H H.transpose fuel) path
        search_edge passed_down pre fr = .ok (mid, out)

/-- One recursive call of MMCS: the call `a` (fuel, position, frame at entry)
makes the call `b` in one of its branches. -/
def MMCSAlgorithm.calls (cutoff_size : Nat) (spawn : List (Fin nv) → Bool)
    (H : Hypergraph nv) (a b : Nat × List (Fin nv) × MMCSFrame nv H.num_edges) : Prop :=
  ∃ (e : bitset nv) (v : Fin nv), a.1 = b.1 + 1 ∧ b.2.1 = v :: a.2.1 ∧
    MMCSAlgorithm.branch cutoff_size spawn H b.1 a.2.1 a.2.2 e v b.2.2 ∧
    MMCSAlgorithm.recursive_call cutoff_size b.2.2

/-- One recursive call of RS: the call `a` (fuel, position, frame and violating
set at entry) makes the call `b` in one of its branches. -/
def RSAlgorithm.calls (cutoff_size : Nat) (spawn : List (Fin nv) → Bool)
    (H : Hypergraph nv)
    (a b : Nat × List (Fin nv) × RSFrame nv H.num_edges × bitset nv) : Prop :=
  ∃ (search_edge : Fin H.num_edges) (v : Fin nv), a.1 = b.1 + 1 ∧ b.2.1 = v :: a.2.1 ∧
    RSAlgorithm.branch cutoff_size spawn H b.1 a.2.1 a.2.2.1 a.2.2.2 search_edge v b.2.2.1
      b.2.2.2 ∧
    RSAlgorithm.recursive_call cutoff_size b.2.2.1

end Reachable

/-! ## Theorems -/

/-! ### Runs -/

@[simp] theorem Run.ok_bind {α β : Type} (a : α) (f : α → Run β) : (Run.ok a).bind f = f a := rfl

@[simp] theorem Run.assertion_failed_bind {α β : Type} (f : α → Run β) :
    (Run.assertion_failed : Run α).bind f = .assertion_failed := rfl

@[simp] theorem Run.out_of_fuel_bind {α β : Type} (f : α → Run β) :
    (Run.out_of_fuel : Run α).bind f = .out_of_fuel := rfl

theorem Run.bind_eq_ok {α β : Type} {r : Run α} {f : α → Run β} {b : β}
    (h : r.bind f = .ok b) : ∃ a, r = .ok a ∧ f a = .ok b := by
  cases r with
  | ok a => exact ⟨a, rfl, h⟩
  | assertion_failed => cases h
  | out_of_fuel => cases h

/-! ### Iteration over a bitset -/

section Members

variable {w : Nat}

@[simp] theorem mem_members (b : bitset w) (x : Fin w) : x ∈ members b ↔ x ∈ b := by
  simp [members, List.mem_filter, List.mem_finRange]

theorem members_nodup (b : bitset w) : (members b).Nodup :=
  (List.nodup_finRange w).filter _

theorem members_sorted (b : bitset w) : (members b).Pairwise (· < ·) :=
  (List.pairwise_lt_finRange w).filter _

theorem find_first_eq_none {b : bitset w} : find_first b = none ↔ b = ∅ := by
  unfold find_first
  rw [List.head?_eq_none_iff]
  constructor
  · intro h
    ext x
    have := mem_members b x
    rw [h] at this
    simpa using this.symm
  · intro h
    apply List.eq_nil_iff_forall_not_mem.mpr
    intro x hx
    rw [mem_members, h] at hx
    simp at hx

theorem find_first_eq_some {b : bitset w} {i : Fin w} :
    find_first b = some i ↔ i ∈ b ∧ ∀ j ∈ b, i ≤ j := by
  unfold find_first
  have hs := members_sorted b
  have hm := mem_members b
  have hn := members_nodup b
  cases hl : members b with
  | nil =>
    rw [hl] at hm
    constructor
    · intro h
      cases h
    · intro h
      exact absurd ((hm i).mpr h.1) (by simp)
  | cons a l =>
    rw [hl] at hm hs
    rw [List.pairwise_cons] at hs
    simp only [List.head?_cons, Option.some.injEq]
    constructor
    · rintro rfl
      refine ⟨(hm a).mp (by simp), fun j hj => ?_⟩
      rcases List.mem_cons.mp ((hm j).mpr hj) with h | h
      · exact le_of_eq h.symm
      · exact le_of_lt (hs.1 j h)
    · rintro ⟨hi, hmin⟩
      rcases List.mem_cons.mp ((hm i).mpr hi) with h | h
      · exact h.symm
      · have h1 := hs.1 i h
        have h2 := hmin a ((hm a).mp (by simp))
        exact absurd h1 (not_lt.mpr h2)

end Members

/-! ### Closed forms of the loops of the SHD primitives -/

section Folds

variable {nv ne : Nat}

theorem update_fold (t : bitset ne) (l : List (Fin nv)) (hl : l.Nodup)
    (c0 : Fin nv → bitset ne) (m0 : hsetmap nv ne) :
    l.foldl
      (fun (acc : (Fin nv → bitset ne) × hsetmap nv ne) w =>
        (Function.update acc.1 w (acc.1 w \ t), Function.update acc.2 w (some (acc.1 w ∩ t))))
      (c0, m0)
    = (fun u => if u ∈ l then c0 u \ t else c0 u,
       fun u => if u ∈ l then some (c0 u ∩ t) else m0 u) := by
  induction l generalizing c0 m0 with
  | nil => simp
  | cons a l ih =>
    rw [List.nodup_cons] at hl
    rw [List.foldl_cons, ih hl.2]
    refine Prod.ext ?_ ?_
    · funext u
      by_cases hua : u = a
      · subst hua
        simp [hl.1]
      · by_cases hul : u ∈ l <;> simp [hua, hul, Function.update_noteq]
    · funext u
      by_cases hua : u = a
      · subst hua
        simp [hl.1]
      · by_cases hul : u ∈ l <;> simp [hua, hul, Function.update_noteq]

theorem restore_fold (cm : hsetmap nv ne) (l : List (Fin nv)) (hl : l.Nodup)
    (c0 : Fin nv → bitset ne) :
    l.foldl
      (fun (c : Fin nv → bitset ne) w =>
        match cm w with
        | some marked => Function.update c w (c w ∪ marked)
        | none => c)
      c0
    = fun u => if u ∈ l then c0 u ∪ (cm u).getD ∅ else c0 u := by
  induction l generalizing c0 with
  | nil => simp
  | cons a l ih =>
    rw [List.nodup_cons] at hl
    rw [List.foldl_cons, ih hl.2]
    funext u
    by_cases hua : u = a
    · subst hua
      cases hc : cm u <;> simp [hl.1]
    · by_cases hul : u ∈ l
      · cases hc : cm a <;> simp [hua, hul, Function.update_noteq]
      · cases hc : cm a <;> simp [hua, hul, Function.update_noteq]

end Folds

/-! ### The bookkeeping values `uncov_of` and `crit_of` -/

section Bookkeeping

variable {nv : Nat} (H : Hypergraph nv)

theorem mem_transpose {v : Fin nv} {i : Fin H.num_edges} :
    i ∈ H.transpose v ↔ v ∈ H.edge i := by
  simp [Hypergraph.transpose]

theorem mem_uncov_of {S : bitset nv} {i : Fin H.num_edges} :
    i ∈ uncov_of H S ↔ ∀ x ∈ H.edge i, x ∉ S := by
  simp [uncov_of, Finset.eq_empty_iff_forall_not_mem]

theorem mem_crit_of {S : bitset nv} {w : Fin nv} {i : Fin H.num_edges} :
    i ∈ crit_of H S w ↔ (w ∈ H.edge i ∧ w ∈ S) ∧ ∀ x ∈ H.edge i, x ∈ S → x = w := by
  simp only [crit_of, Finset.mem_filter, Finset.mem_univ, true_and,
    Finset.eq_singleton_iff_unique_mem, Finset.mem_inter]
  constructor
  · rintro ⟨h1, h2⟩
    exact ⟨h1, fun x hx hs => h2 x ⟨hx, hs⟩⟩
  · rintro ⟨h1, h2⟩
    exact ⟨h1, fun x hx => h2 x hx.1 hx.2⟩

theorem crit_of_eq_empty_of_not_mem {S : bitset nv} {w : Fin nv} (hw : w ∉ S) :
    crit_of H S w = ∅ := by
  ext i
  simp [mem_crit_of, hw]

theorem crit_of_inter_uncov_of (S : bitset nv) (w : Fin nv) :
    uncov_of H S ∩ crit_of H S w = ∅ := by
  rw [Finset.eq_empty_iff_forall_not_mem]
  intro i hi
  rw [Finset.mem_inter, mem_uncov_of, mem_crit_of] at hi
  exact hi.1 w hi.2.1.1 hi.2.1.2

theorem crit_of_disjoint {S : bitset nv} {w w' : Fin nv} (h : w ≠ w') :
    Disjoint (crit_of H S w) (crit_of H S w') := by
  rw [Finset.disjoint_left]
  intro i h1 h2
  rw [mem_crit_of] at h1 h2
  exact h (h2.2 w h1.1.1 h1.1.2)

theorem crit_of_insert_self {S : bitset nv} {v : Fin nv} (hv : v ∉ S) :
    crit_of H (insert v S) v = H.transpose v ∩ uncov_of H S := by
  ext i
  rw [mem_crit_of, Finset.mem_inter, mem_transpose, mem_uncov_of]
  constructor
  · rintro ⟨⟨h1, -⟩, h2⟩
    refine ⟨h1, fun x hx hs => ?_⟩
    have := h2 x hx (Finset.mem_insert_of_mem hs)
    exact hv (this ▸ hs)
  · rintro ⟨h1, h2⟩
    refine ⟨⟨h1, Finset.mem_insert_self v S⟩, fun x hx hs => ?_⟩
    rcases Finset.mem_insert.mp hs with hs | hs
    · exact hs
    · exact absurd hs (h2 x hx)

theorem crit_of_insert_of_ne {S : bitset nv} {v u : Fin nv} (hu : u ≠ v) :
    crit_of H (insert v S) u = crit_of H S u \ H.transpose v := by
  ext i
  rw [mem_crit_of, Finset.mem_sdiff, mem_transpose, mem_crit_of]
  constructor
  · rintro ⟨⟨h1, h2⟩, h3⟩
    rcases Finset.mem_insert.mp h2 with h2 | h2
    · exact absurd h2 hu
    · refine ⟨⟨⟨h1, h2⟩, fun x hx hs => h3 x hx (Finset.mem_insert_of_mem hs)⟩,
        fun hve => ?_⟩
      exact hu (h3 v hve (Finset.mem_insert_self v S)).symm
  · rintro ⟨⟨⟨h1, h2⟩, h3⟩, h4⟩
    refine ⟨⟨h1, Finset.mem_insert_of_mem h2⟩, fun x hx hs => ?_⟩
    rcases Finset.mem_insert.mp hs with hs | hs
    · exact absurd (hs ▸ hx) h4
    · exact h3 x hx hs

theorem uncov_of_insert (S : bitset nv) (v : Fin nv) :
    uncov_of H (insert v S) = uncov_of H S \ H.transpose v := by
  ext i
  rw [mem_uncov_of, Finset.mem_sdiff, mem_transpose, mem_uncov_of]
  constructor
  · intro h
    exact ⟨fun x hx hs => h x hx (Finset.mem_insert_of_mem hs),
      fun hv => h v hv (Finset.mem_insert_self v S)⟩
  · rintro ⟨h1, h2⟩ x hx hs
    rcases Finset.mem_insert.mp hs with hs | hs
    · exact h2 (hs ▸ hx)
    · exact h1 x hx hs

theorem uncov_of_empty : uncov_of H ∅ = Finset.univ := by
  ext i
  simp [mem_uncov_of]

theorem crit_of_empty : crit_of H ∅ = fun _ => ∅ := by
  funext w
  exact crit_of_eq_empty_of_not_mem H (Finset.not_mem_empty w)

theorem uncov_of_insert_subset (S : bitset nv) (v : Fin nv) :
    uncov_of H (insert v S) ⊆ uncov_of H S := by
  rw [uncov_of_insert]
  exact Finset.sdiff_subset

end Bookkeeping

/-! ### Closed forms of the SHD primitives -/

section Primitives

variable {nv : Nat} (H : Hypergraph nv)

theorem vertex_would_violate_eq (crit : Fin nv → bitset H.num_edges)
    (uncov : bitset H.num_edges) (T : Fin nv → bitset H.num_edges) (S : bitset nv)
    (v : Fin nv) (hv : v ∉ S) (hc : crit v = ∅) :
    vertex_would_violate H crit uncov T S v
      = .ok (decide (∃ w ∈ S, crit w ⊆ T v \ uncov)) := by
  unfold vertex_would_violate
  rw [if_neg hv, if_neg (not_not.mpr hc)]
  show Run.ok _ = Run.ok _
  congr 1
  rw [Bool.eq_iff_iff]
  simp [List.any_eq_true]

theorem update_crit_and_uncov_eq (crit : Fin nv → bitset H.num_edges)
    (uncov : bitset H.num_edges) (T : Fin nv → bitset H.num_edges) (S : bitset nv)
    (v : Fin nv) (hv : v ∉ S) (hc : crit v = ∅) :
    update_crit_and_uncov H crit uncov T S v
      = .ok (fun u => if u = v then T v ∩ uncov else if u ∈ S then crit u \ T v else crit u,
          uncov \ T v,
          fun u => if u ∈ S then some (crit u ∩ T v) else none) := by
  unfold update_crit_and_uncov
  rw [if_neg hv, if_neg (not_not.mpr hc)]
  simp only
  rw [update_fold (T v) (members S) (members_nodup S)]
  congr 1
  refine Prod.ext ?_ (Prod.ext rfl ?_)
  · funext u
    by_cases huv : u = v
    · subst huv
      simp [hv]
    · by_cases hus : u ∈ S <;> simp [huv, hus, Function.update_noteq]
  · funext u
    by_cases hus : u ∈ S
    · have huv : u ≠ v := fun h => hv (h ▸ hus)
      simp [hus, huv, Function.update_noteq]
    · simp [hus]

theorem restore_crit_and_uncov_eq {ne : Nat} (crit : Fin nv → bitset ne) (uncov : bitset ne)
    (S : bitset nv) (critmark : hsetmap nv ne) (v : Fin nv) (hv : v ∉ S)
    (hd : uncov ∩ crit v = ∅) :
    restore_crit_and_uncov crit uncov S critmark v
      = .ok (fun u => if u ∈ S then crit u ∪ (critmark u).getD ∅
            else if u = v then ∅ else crit u,
          uncov ∪ crit v) := by
  unfold restore_crit_and_uncov
  rw [if_neg hv, if_neg (by rw [hd]; simp)]
  simp only
  rw [restore_fold critmark (members S) (members_nodup S)]
  congr 1
  refine Prod.ext ?_ rfl
  funext u
  by_cases hus : u ∈ S
  · have huv : u ≠ v := fun h => hv (h ▸ hus)
    simp only [mem_members, hus, if_true, Function.update_noteq huv]
  · by_cases huv : u = v
    · subst huv
      simp [hus]
    · simp [hus, huv, Function.update_noteq]

/-- Undoing an update: `restore_crit_and_uncov` applied to the results of
`update_crit_and_uncov` gives back `crit` and `uncov`. -/
theorem update_then_restore (crit : Fin nv → bitset H.num_edges)
    (uncov : bitset H.num_edges) (T : Fin nv → bitset H.num_edges) (S : bitset nv)
    (v : Fin nv) (hv : v ∉ S) (hc : crit v = ∅) :
    ∃ r, update_crit_and_uncov H crit uncov T S v = .ok r ∧
      restore_crit_and_uncov r.1 r.2.1 S r.2.2 v = .ok (crit, uncov) := by
  refine ⟨_, update_crit_and_uncov_eq H crit uncov T S v hv hc, ?_⟩
  rw [restore_crit_and_uncov_eq _ _ _ _ _ hv]
  · congr 1
    refine Prod.ext ?_ ?_
    · funext u
      by_cases hus : u ∈ S
      · have huv : u ≠ v := fun h => hv (h ▸ hus)
        simp only [hus, huv, if_true, if_false, Option.getD_some]
        exact Finset.sdiff_union_inter _ _
      · by_cases huv : u = v
        · subst huv
          simp [hus, hc]
        · simp [hus, huv]
    · simp only [if_true]
      rw [Finset.inter_comm]
      exact Finset.sdiff_union_inter _ _
  · simp only [if_true]
    ext i
    simp only [Finset.mem_inter, Finset.mem_sdiff, Finset.not_mem_empty, iff_false]
    tauto

/-- At the bookkeeping values of `S`, the update gives the bookkeeping values
of `S ∪ {v}`, and restoring afterwards gives back those of `S`. -/
theorem update_crit_and_uncov_correct (S : bitset nv) (v : Fin nv) (hv : v ∉ S) :
    ∃ critmark,
      update_crit_and_uncov H (crit_of H S) (uncov_of H S) H.transpose S v
        = .ok (crit_of H (insert v S), uncov_of H (insert v S), critmark) ∧
      restore_crit_and_uncov (crit_of H (insert v S)) (uncov_of H (insert v S)) S critmark v
        = .ok (crit_of H S, uncov_of H S) := by
  have hc := crit_of_eq_empty_of_not_mem H hv
  obtain ⟨r, h1, h2⟩ := update_then_restore H (crit_of H S) (uncov_of H S) H.transpose S v hv hc
  have h3 := update_crit_and_uncov_eq H (crit_of H S) (uncov_of H S) H.transpose S v hv hc
  rw [h3] at h1
  have h4 := Run.ok.inj h1
  subst h4
  have hr1 : (fun u => if u = v then H.transpose v ∩ uncov_of H S
      else if u ∈ S then crit_of H S u \ H.transpose v else crit_of H S u)
      = crit_of H (insert v S) := by
    funext u
    by_cases huv : u = v
    · subst huv
      simp [crit_of_insert_self H hv]
    · by_cases hus : u ∈ S
      · simp [huv, hus, crit_of_insert_of_ne H huv]
      · simp only [huv, hus, if_false]
        rw [crit_of_eq_empty_of_not_mem H hus, crit_of_eq_empty_of_not_mem H]
        simp [huv, hus]
  have hr2 : uncov_of H S \ H.transpose v = uncov_of H (insert v S) :=
    (uncov_of_insert H S v).symm
  refine ⟨fun u => if u ∈ S then some (crit_of H S u ∩ H.transpose v) else none, ?_, ?_⟩
  · rw [h3, hr1, hr2]
  · simp only [hr1, hr2] at h2
    exact h2

/-- At the bookkeeping values of `S`, the test answers whether some vertex of
`S` has no critical edge left once `v` has joined. -/
theorem vertex_would_violate_correct (S : bitset nv) (v : Fin nv) (hv : v ∉ S) :
    vertex_would_violate H (crit_of H S) (uncov_of H S) H.transpose S v
      = .ok (decide (∃ w ∈ S, crit_of H (insert v S) w = ∅)) := by
  rw [vertex_would_violate_eq H _ _ _ _ _ hv (crit_of_eq_empty_of_not_mem H hv)]
  congr 1
  rw [decide_eq_decide]
  refine exists_congr fun w => and_congr_right fun hw => ?_
  have hwv : w ≠ v := fun h => hv (h ▸ hw)
  rw [crit_of_insert_of_ne H hwv, Finset.sdiff_eq_empty_iff_subset]
  constructor
  · intro h
    exact h.trans Finset.sdiff_subset
  · intro h i hi
    rw [Finset.mem_sdiff]
    refine ⟨h hi, fun hu => ?_⟩
    have := crit_of_inter_uncov_of H S w
    rw [Finset.eq_empty_iff_forall_not_mem] at this
    exact this i (Finset.mem_inter.mpr ⟨hu, hi⟩)

end Primitives

/-! ### Hitting sets -/

section HittingSets

variable {nv : Nat} (H : Hypergraph nv)

theorem edge_mem (i : Fin H.num_edges) : H.edge i ∈ H.edges :=
  List.get_mem H.edges i.1 i.2

theorem exists_edge_eq {e : bitset nv} (h : e ∈ H.edges) : ∃ i, H.edge i = e :=
  List.mem_iff_get.mp h

theorem hits_iff_uncov_of {S : bitset nv} : H.hits S ↔ uncov_of H S = ∅ := by
  rw [Finset.eq_empty_iff_forall_not_mem]
  constructor
  · intro h i hi
    rw [mem_uncov_of] at hi
    obtain ⟨x, hx⟩ := h (H.edge i) (edge_mem H i)
    rw [Finset.mem_inter] at hx
    exact hi x hx.1 hx.2
  · intro h e he
    obtain ⟨i, rfl⟩ := exists_edge_eq H he
    by_contra hne
    rw [Finset.not_nonempty_iff_eq_empty, Finset.eq_empty_iff_forall_not_mem] at hne
    refine h i ((mem_uncov_of H).mpr fun x hx hs => hne x (Finset.mem_inter.mpr ⟨hx, hs⟩))

theorem hits_mono {S S' : bitset nv} (h : S ⊆ S') (hS : H.hits S) : H.hits S' := by
  intro e he
  obtain ⟨x, hx⟩ := hS e he
  rw [Finset.mem_inter] at hx
  exact ⟨x, Finset.mem_inter.mpr ⟨hx.1, h hx.2⟩⟩

theorem crit_of_nonempty_iff {S : bitset nv} {w : Fin nv} :
    (crit_of H S w).Nonempty ↔ ∃ e ∈ H.edges, e ∩ S = {w} := by
  constructor
  · rintro ⟨i, hi⟩
    refine ⟨H.edge i, edge_mem H i, ?_⟩
    simpa [crit_of] using hi
  · rintro ⟨e, he, hew⟩
    obtain ⟨i, rfl⟩ := exists_edge_eq H he
    exact ⟨i, by simpa [crit_of] using hew⟩

theorem crit_of_antitone {S S' : bitset nv} {w : Fin nv} (h : S ⊆ S') (hw : w ∈ S) :
    crit_of H S' w ⊆ crit_of H S w := by
  intro i hi
  rw [mem_crit_of] at hi ⊢
  exact ⟨⟨hi.1.1, hw⟩, fun x hx hs => hi.2 x hx (h hs)⟩

theorem MinHit_iff_hits_critically {S : bitset nv} : H.MinHit S ↔ H.hits_critically S := by
  unfold Hypergraph.MinHit Hypergraph.hits_critically
  refine and_congr_right fun hS => ?_
  constructor
  · intro hmin w hw
    have hlt : S.erase w ⊂ S := Finset.erase_ssubset hw
    have hno := hmin _ hlt
    unfold Hypergraph.hits at hno
    push_neg at hno
    obtain ⟨e, he, hee⟩ := hno
    rw [Finset.not_nonempty_iff_eq_empty, Finset.eq_empty_iff_forall_not_mem] at hee
    refine ⟨e, he, ?_⟩
    obtain ⟨x, hx⟩ := hS e he
    have key : ∀ y ∈ e ∩ S, y = w := by
      intro y hy
      by_contra hyw
      rw [Finset.mem_inter] at hy
      exact hee y (Finset.mem_inter.mpr ⟨hy.1, Finset.mem_erase.mpr ⟨hyw, hy.2⟩⟩)
    rw [Finset.eq_singleton_iff_unique_mem]
    exact ⟨key x hx ▸ hx, key⟩
  · intro hcrit S' hlt hS'
    obtain ⟨hsub, hns⟩ := Finset.ssubset_iff_subset_ne.mp hlt
    have : ∃ w ∈ S, w ∉ S' := by
      by_contra hcon
      push_neg at hcon
      exact hns (Finset.Subset.antisymm hsub hcon)
    obtain ⟨w, hw, hw'⟩ := this
    obtain ⟨e, he, hew⟩ := hcrit w hw
    obtain ⟨x, hx⟩ := hS' e he
    rw [Finset.mem_inter] at hx
    have : x ∈ e ∩ S := Finset.mem_inter.mpr ⟨hx.1, hsub hx.2⟩
    rw [hew, Finset.mem_singleton] at this
    exact hw' (this ▸ hx.2)

/-- Every vertex of `S` has a critical edge. -/
theorem MinHit_iff {S : bitset nv} :
    H.MinHit S ↔ uncov_of H S = ∅ ∧ ∀ w ∈ S, (crit_of H S w).Nonempty := by
  rw [MinHit_iff_hits_critically, Hypergraph.hits_critically, hits_iff_uncov_of]
  refine and_congr_right fun _ => ?_
  refine forall_congr' fun w => imp_congr_right fun _ => ?_
  rw [crit_of_nonempty_iff]

theorem MinHit.eq_of_subset {S M : bitset nv} (hM : H.MinHit M) (hS : H.hits S)
    (hsub : S ⊆ M) : M = S := by
  by_contra hne
  exact hM.2 S (Finset.ssubset_iff_subset_ne.mpr ⟨hsub, fun h => hne h.symm⟩) hS

theorem MinHit.crit_nonempty {S M : bitset nv} (hM : H.MinHit M) (hsub : S ⊆ M)
    {w : Fin nv} (hw : w ∈ S) : (crit_of H S w).Nonempty :=
  ((MinHit_iff H).mp hM).2 w (hsub hw) |>.mono (crit_of_antitone H hsub hw)

/-- Every hitting set contains a minimal hitting set. -/
theorem exists_MinHit_subset (X : bitset nv) (hX : H.hits X) :
    ∃ M, M ⊆ X ∧ H.MinHit M := by
  induction X using Finset.strongInduction with
  | H X ih =>
    by_cases hmin : ∀ S', S' ⊂ X → ¬ H.hits S'
    · exact ⟨X, Finset.Subset.refl X, hX, hmin⟩
    · push_neg at hmin
      obtain ⟨S', hlt, hS'⟩ := hmin
      obtain ⟨M, hM, hMmin⟩ := ih S' hlt hS'
      exact ⟨M, hM.trans hlt.subset, hMmin⟩

end HittingSets

/-! ### The MMCS search -/

section MMCS

variable {nv : Nat} (cutoff_size : Nat) (spawn : List (Fin nv) → Bool) (H : Hypergraph nv)

theorem irredundant_empty : irredundant H ∅ := fun w hw => absurd hw (Finset.not_mem_empty w)

theorem irredundant_insert {S : bitset nv} {v : Fin nv} (hv : v ∉ S)
    (hnv : ¬ ∃ w ∈ S, crit_of H (insert v S) w = ∅)
    (hne : (H.transpose v ∩ uncov_of H S).Nonempty) : irredundant H (insert v S) := by
  intro w hw
  rcases Finset.mem_insert.mp hw with rfl | hw
  · rw [crit_of_insert_self H hv]
    exact hne
  · rw [Finset.nonempty_iff_ne_empty]
    exact fun h => hnv ⟨w, hw, h⟩

theorem MinHit.not_violating {S M : bitset nv} {v : Fin nv} (hM : H.MinHit M)
    (hsub : insert v S ⊆ M) : ¬ ∃ w ∈ S, crit_of H (insert v S) w = ∅ := by
  rintro ⟨w, hw, hc⟩
  have := MinHit.crit_nonempty H hM hsub (Finset.mem_insert_of_mem hw)
  rw [hc] at this
  exact Finset.not_nonempty_empty this

theorem uncov_of_insert_card_lt {S : bitset nv} {v : Fin nv}
    (hne : (H.transpose v ∩ uncov_of H S).Nonempty) :
    (uncov_of H (insert v S)).card < (uncov_of H S).card := by
  apply Finset.card_lt_card
  rw [Finset.ssubset_iff_of_subset (uncov_of_insert_subset H S v)]
  obtain ⟨i, hi⟩ := hne
  rw [Finset.mem_inter] at hi
  refine ⟨i, hi.2, ?_⟩
  rw [uncov_of_insert, Finset.mem_sdiff]
  exact fun h => h.2 hi.1

theorem MMCSAlgorithm.mmcs_process_candidate_spec
    (recurse : List (Fin nv) → MMCSFrame nv H.num_edges →
      Run (MMCSFrame nv H.num_edges × List (bitset nv)))
    (fuel : Nat) (hrec : MMCSAlgorithm.call_contract cutoff_size H recurse fuel)
    (path : List (Fin nv)) (S1 CANDc : bitset nv) (hS1 : irredundant H S1)
    (hcut : cutoff_size = 0 ∨ S1.card ≤ cutoff_size) (hfuel : (uncov_of H S1).card ≤ fuel) :
    ∃ out, MMCSAlgorithm.process_candidate cutoff_size spawn H recurse path
          ⟨S1, CANDc, crit_of H S1, uncov_of H S1⟩
        = .ok (⟨S1, CANDc, crit_of H S1, uncov_of H S1⟩, out) ∧
      out.Nodup ∧
      ∀ M, M ∈ out ↔
        (H.MinHit M ∧ S1 ⊆ M ∧ M ⊆ S1 ∪ CANDc ∧ within_cutoff cutoff_size M) := by
  unfold MMCSAlgorithm.process_candidate
  simp only
  by_cases hu : uncov_of H S1 = ∅
  · rw [if_pos ⟨hu, hcut⟩]
    refine ⟨[S1], rfl, List.nodup_singleton S1, fun M => ?_⟩
    rw [List.mem_singleton]
    constructor
    · rintro rfl
      exact ⟨(MinHit_iff H).mpr ⟨hu, hS1⟩, Finset.Subset.refl _, Finset.subset_union_left, hcut⟩
    · rintro ⟨hM, hsub, -, -⟩
      exact MinHit.eq_of_subset H hM ((hits_iff_uncov_of H).mpr hu) hsub
  · rw [if_neg (fun h => hu h.1)]
    have hnohit : ¬ H.hits S1 := fun h => hu ((hits_iff_uncov_of H).mp h)
    by_cases hc2 : 0 < CANDc.card ∧ (cutoff_size = 0 ∨ S1.card < cutoff_size)
    · rw [if_pos hc2]
      obtain ⟨out, heq, hnd, hchar⟩ := hrec path S1 CANDc hS1
        (Finset.nonempty_iff_ne_empty.mpr hu) (Finset.card_pos.mp hc2.1) hc2.2 hfuel
      refine ⟨out, ?_, hnd, hchar⟩
      by_cases hsp : spawn path = true ∧ 2 < H.num_edges
      · rw [if_pos hsp, heq]
        rfl
      · rw [if_neg hsp, heq]
    · rw [if_neg hc2]
      refine ⟨[], rfl, List.nodup_nil, fun M => ?_⟩
      simp only [List.not_mem_nil, false_iff]
      rintro ⟨hM, hsub, hsup, hwc⟩
      apply hnohit
      have : S1 = M := by
        rw [not_and_or] at hc2
        rcases hc2 with hc2 | hc2
        · have hce : CANDc = ∅ := by
            rw [← Finset.card_eq_zero]
            omega
          rw [hce, Finset.union_empty] at hsup
          exact Finset.Subset.antisymm hsub hsup
        · apply Finset.eq_of_subset_of_card_le hsub
          unfold within_cutoff at hwc
          omega
      rw [this]
      exact hM.1

set_option maxHeartbeats 1000000 in
theorem MMCSAlgorithm.test_vertices_spec
    (recurse : List (Fin nv) → MMCSFrame nv H.num_edges →
      Run (MMCSFrame nv H.num_edges × List (bitset nv)))
    (fuel : Nat) (hrec : MMCSAlgorithm.call_contract cutoff_size H recurse fuel)
    (S : bitset nv) (hcut : cutoff_size = 0 ∨ S.card < cutoff_size)
    (hfuel : (uncov_of H S).card ≤ fuel + 1) (path : List (Fin nv)) :
    ∀ (l : List (Fin nv)) (CANDc violators : bitset nv), l.Nodup →
      (∀ v ∈ l, v ∉ S ∧ v ∉ CANDc ∧ (H.transpose v ∩ uncov_of H S).Nonempty) →
      ∃ CAND' violators' out,
        MMCSAlgorithm.test_vertices cutoff_size spawn H H.transpose recurse path l
            ⟨S, CANDc, crit_of H S, uncov_of H S⟩ violators
          = .ok (⟨S, CAND', crit_of H S, uncov_of H S⟩, violators', out) ∧
        CAND' ∪ violators' = CANDc ∪ violators ∪ l.toFinset ∧
        out.Nodup ∧
        ∀ M, M ∈ out ↔
          (H.MinHit M ∧ S ⊆ M ∧ M ⊆ S ∪ CANDc ∪ l.toFinset ∧ (∃ v ∈ l, v ∈ M) ∧
            within_cutoff cutoff_size M) := by
  intro l
  induction l with
  | nil =>
    intro CANDc violators _ _
    refine ⟨CANDc, violators, [], rfl, by simp, List.nodup_nil, fun M => ?_⟩
    simp
  | cons v rest ih =>
    intro CANDc violators hnd hl
    rw [List.nodup_cons] at hnd
    obtain ⟨hvS, hvC, hvne⟩ := hl v (List.mem_cons_self v rest)
    have hl' : ∀ u ∈ rest, u ∉ S ∧ u ∉ CANDc ∧ (H.transpose u ∩ uncov_of H S).Nonempty :=
      fun u hu => hl u (List.mem_cons_of_mem v hu)
    unfold MMCSAlgorithm.test_vertices
    simp only
    rw [vertex_would_violate_correct H S v hvS, Run.ok_bind]
    by_cases hviol : ∃ w ∈ S, crit_of H (insert v S) w = ∅
    · -- v is violating: it is recorded and skipped
      rw [if_pos (by simpa using hviol)]
      obtain ⟨CAND', violators', out, heq, hun, hnd', hchar⟩ :=
        ih CANDc (insert v violators) hnd.2 hl'
      refine ⟨CAND', violators', out, heq, ?_, hnd', fun M => ?_⟩
      · rw [hun, List.toFinset_cons]
        ext x
        simp only [Finset.mem_union, Finset.mem_insert]
        tauto
      · rw [hchar M]
        constructor
        · rintro ⟨hM, hsub, hsup, ⟨u, hu, huM⟩, hwc⟩
          refine ⟨hM, hsub, ?_, ⟨u, List.mem_cons_of_mem v hu, huM⟩, hwc⟩
          intro x hx
          have := hsup hx
          rw [List.toFinset_cons]
          simp only [Finset.mem_union, Finset.mem_insert] at this ⊢
          tauto
        · rintro ⟨hM, hsub, hsup, ⟨u, hu, huM⟩, hwc⟩
          have hvM : v ∉ M := fun hvM =>
            MinHit.not_violating H hM (Finset.insert_subset hvM hsub) hviol
          refine ⟨hM, hsub, ?_, ?_, hwc⟩
          · intro x hx
            have := hsup hx
            rw [List.toFinset_cons] at this
            simp only [Finset.mem_union, Finset.mem_insert] at this ⊢
            rcases this with (h | h) | h | h
            · exact Or.inl (Or.inl h)
            · exact Or.inl (Or.inr h)
            · exact absurd (h ▸ hx) hvM
            · exact Or.inr h
          · rcases List.mem_cons.mp hu with rfl | hu
            · exact absurd huM hvM
            · exact ⟨u, hu, huM⟩
    · -- v is not violating: S ∪ {v} is processed, then the state is restored
      rw [if_neg (by simpa using hviol)]
      obtain ⟨critmark, hupd, hres⟩ := update_crit_and_uncov_correct H S v hvS
      rw [hupd, Run.ok_bind]
      simp only
      have hS1 := irredundant_insert H hvS hviol hvne
      have hlt := uncov_of_insert_card_lt H hvne
      have hcut1 : cutoff_size = 0 ∨ (insert v S).card ≤ cutoff_size := by
        rw [Finset.card_insert_of_not_mem hvS]
        omega
      obtain ⟨outv, heqv, hndv, hcharv⟩ := MMCSAlgorithm.mmcs_process_candidate_spec cutoff_size
        spawn H recurse fuel hrec (v :: path) (insert v S) CANDc hS1 hcut1 (by omega)
      rw [heqv, Run.ok_bind]
      simp only [Finset.erase_insert hvS]
      rw [hres, Run.ok_bind]
      simp only
      have hl2 : ∀ u ∈ rest,
          u ∉ S ∧ u ∉ insert v CANDc ∧ (H.transpose u ∩ uncov_of H S).Nonempty := by
        intro u hu
        obtain ⟨h1, h2, h3⟩ := hl' u hu
        refine ⟨h1, ?_, h3⟩
        rw [Finset.mem_insert, not_or]
        exact ⟨fun h => hnd.1 (h ▸ hu), h2⟩
      obtain ⟨CAND', violators', outr, heqr, hun, hndr, hcharr⟩ :=
        ih (insert v CANDc) violators hnd.2 hl2
      rw [heqr, Run.ok_bind]
      refine ⟨CAND', violators', outv ++ outr, rfl, ?_, ?_, fun M => ?_⟩
      · rw [hun, List.toFinset_cons]
        ext x
        simp only [Finset.mem_union, Finset.mem_insert]
        tauto
      · rw [List.nodup_append]
        refine ⟨hndv, hndr, fun M h1 h2 => ?_⟩
        obtain ⟨-, -, hsup, -⟩ := (hcharv M).mp h1
        obtain ⟨-, -, -, ⟨u, hu, huM⟩, -⟩ := (hcharr M).mp h2
        obtain ⟨h1, h2, -⟩ := hl' u hu
        have := hsup huM
        simp only [Finset.mem_union, Finset.mem_insert] at this
        rcases this with (h | h) | h
        · exact hnd.1 (h ▸ hu)
        · exact h1 h
        · exact h2 h
      · rw [List.mem_append, hcharv M, hcharr M]
        constructor
        · rintro (⟨hM, hsub, hsup, hwc⟩ | ⟨hM, hsub, hsup, ⟨u, hu, huM⟩, hwc⟩)
          · refine ⟨hM, (Finset.subset_insert v S).trans hsub, ?_,
              ⟨v, List.mem_cons_self v rest, hsub (Finset.mem_insert_self v S)⟩, hwc⟩
            intro x hx
            have := hsup hx
            rw [List.toFinset_cons]
            simp only [Finset.mem_union, Finset.mem_insert] at this ⊢
            tauto
          · refine ⟨hM, hsub, ?_, ⟨u, List.mem_cons_of_mem v hu, huM⟩, hwc⟩
            intro x hx
            have := hsup hx
            rw [List.toFinset_cons]
            simp only [Finset.mem_union, Finset.mem_insert] at this ⊢
            tauto
        · rintro ⟨hM, hsub, hsup, ⟨u, hu, huM⟩, hwc⟩
          by_cases hex : ∃ u' ∈ rest, u' ∈ M
          · right
            refine ⟨hM, hsub, ?_, hex, hwc⟩
            intro x hx
            have := hsup hx
            rw [List.toFinset_cons] at this
            simp only [Finset.mem_union, Finset.mem_insert] at this ⊢
            tauto
          · left
            push_neg at hex
            have hvM : v ∈ M := by
              rcases List.mem_cons.mp hu with rfl | hu
              · exact huM
              · exact absurd huM (hex u hu)
            refine ⟨hM, Finset.insert_subset hvM hsub, ?_, hwc⟩
            intro x hx
            have := hsup hx
            rw [List.toFinset_cons] at this
            simp only [Finset.mem_union, Finset.mem_insert, List.mem_toFinset] at this ⊢
            rcases this with (h | h) | h | h
            · exact Or.inl (Or.inr h)
            · exact Or.inr h
            · exact Or.inl (Or.inl h)
            · exact absurd hx (hex x h)

theorem MMCSAlgorithm.select_edge_spec (CAND : bitset nv) (uncov : bitset H.num_edges)
    (first : Fin H.num_edges) (hf : first ∈ uncov) :
    ∃ j ∈ uncov, MMCSAlgorithm.select_edge H CAND uncov first = H.edge j := by
  unfold MMCSAlgorithm.select_edge
  have key : ∀ (l : List (Fin H.num_edges)) (e0 : bitset nv), (∀ x ∈ l, x ∈ uncov) →
      (∃ j ∈ uncov, e0 = H.edge j) →
      ∃ j ∈ uncov, l.foldl
        (fun e search_edge =>
          if (H.edge search_edge ∩ CAND).card < (e ∩ CAND).card then H.edge search_edge else e)
        e0 = H.edge j := by
    intro l
    induction l with
    | nil => intro e0 _ h; exact h
    | cons a l ih =>
      intro e0 hl h0
      rw [List.foldl_cons]
      apply ih _ (fun x hx => hl x (List.mem_cons_of_mem a hx))
      by_cases hlt : (H.edge a ∩ CAND).card < (e0 ∩ CAND).card
      · rw [if_pos hlt]
        exact ⟨a, hl a (List.mem_cons_self a l), rfl⟩
      · rw [if_neg hlt]
        exact h0
  exact key _ _ (fun x hx => (mem_members uncov x).mp hx) ⟨first, hf, rfl⟩

set_option maxHeartbeats 1000000 in
theorem MMCSAlgorithm.mmcs_frame_spec :
    ∀ fuel : Nat, MMCSAlgorithm.call_contract cutoff_size H
      (MMCSAlgorithm.extend_or_confirm_set cutoff_size spawn H H.transpose fuel) fuel := by
  intro fuel
  induction fuel with
  | zero =>
    intro path S CAND _ hune _ _ hfuel
    rw [Nat.le_zero, Finset.card_eq_zero] at hfuel
    rw [hfuel] at hune
    exact absurd hune Finset.not_nonempty_empty
  | succ fuel ih =>
    intro path S CAND hS hune hCne hcut hfuel
    have hin : MMCSAlgorithm.input_specification cutoff_size
        (⟨S, CAND, crit_of H S, uncov_of H S⟩ : MMCSFrame nv H.num_edges) = true := by
      simp [MMCSAlgorithm.input_specification, hune, hCne, hcut]
    obtain ⟨first, hfirst⟩ : ∃ first, find_first (uncov_of H S) = some first := by
      cases h : find_first (uncov_of H S) with
      | none =>
        rw [find_first_eq_none] at h
        rw [h] at hune
        exact absurd hune Finset.not_nonempty_empty
      | some first => exact ⟨first, rfl⟩
    obtain ⟨j, hj, hej⟩ := MMCSAlgorithm.select_edge_spec H CAND (uncov_of H S) first
      (find_first_eq_some.mp hfirst).1
    have hjS : ∀ x ∈ H.edge j, x ∉ S := (mem_uncov_of H).mp hj
    have hlist : ∀ v ∈ (members (CAND ∩ H.edge j)).reverse,
        v ∉ S ∧ v ∉ CAND \ H.edge j ∧ (H.transpose v ∩ uncov_of H S).Nonempty := by
      intro v hv
      rw [List.mem_reverse, mem_members, Finset.mem_inter] at hv
      refine ⟨hjS v hv.2, ?_, ⟨j, ?_⟩⟩
      · rw [Finset.mem_sdiff]
        exact fun h => h.2 hv.2
      · rw [Finset.mem_inter, mem_transpose]
        exact ⟨hv.2, hj⟩
    obtain ⟨CAND', violators', out, heq, hun, hnd, hchar⟩ :=
      MMCSAlgorithm.test_vertices_spec cutoff_size spawn H
        (MMCSAlgorithm.extend_or_confirm_set cutoff_size spawn H H.transpose fuel) fuel ih
        S hcut hfuel path (members (CAND ∩ H.edge j)).reverse (CAND \ H.edge j) ∅
        (List.nodup_reverse.mpr (members_nodup _)) hlist
    have hCAND : CAND' ∪ violators' = CAND := by
      rw [hun]
      ext x
      simp only [Finset.mem_union, Finset.mem_sdiff, Finset.not_mem_empty, or_false,
        List.mem_toFinset, List.mem_reverse, mem_members, Finset.mem_inter]
      tauto
    refine ⟨out, ?_, hnd, fun M => ?_⟩
    · unfold MMCSAlgorithm.extend_or_confirm_set
      simp only [hin, hfirst, hej, not_true_eq_false, if_false]
      rw [heq, Run.ok_bind]
      simp only [hCAND]
    · rw [hchar M]
      have hsets : S ∪ CAND \ H.edge j ∪ (members (CAND ∩ H.edge j)).reverse.toFinset
          = S ∪ CAND := by
        ext x
        simp only [Finset.mem_union, Finset.mem_sdiff, List.mem_toFinset, List.mem_reverse,
          mem_members, Finset.mem_inter]
        tauto
      rw [hsets]
      constructor
      · rintro ⟨hM, hsub, hsup, -, hwc⟩
        exact ⟨hM, hsub, hsup, hwc⟩
      · rintro ⟨hM, hsub, hsup, hwc⟩
        refine ⟨hM, hsub, hsup, ?_, hwc⟩
        obtain ⟨x, hx⟩ := hM.1 (H.edge j) (edge_mem H j)
        rw [Finset.mem_inter] at hx
        refine ⟨x, ?_, hx.2⟩
        rw [List.mem_reverse, mem_members, Finset.mem_inter]
        refine ⟨?_, hx.1⟩
        rcases Finset.mem_union.mp (hsup hx.2) with h | h
        · exact absurd h (hjS x hx.1)
        · exact h

/-- The result of the MMCS search, for every cutoff and every scheduling of the
recursive calls: the run completes, no set is stored twice, and the sets stored
are the minimal hitting sets that the cutoff admits. -/
theorem MMCSAlgorithm.mmcs_transversal_spec (hne : H.edges ≠ []) (hnv : 0 < nv) :
    ∃ R, MMCSAlgorithm.transversal cutoff_size spawn H = .ok R ∧ R.edges.Nodup ∧
      ∀ M, M ∈ R.edges ↔ (H.MinHit M ∧ within_cutoff cutoff_size M) := by
  have hpos : 0 < H.num_edges := List.length_pos.mpr hne
  have hcut : cutoff_size = 0 ∨ (∅ : bitset nv).card < cutoff_size := by
    rw [Finset.card_empty]
    omega
  have hune : (uncov_of H ∅).Nonempty := by
    rw [uncov_of_empty]
    exact ⟨⟨0, hpos⟩, Finset.mem_univ _⟩
  obtain ⟨out, heq, hnd, hchar⟩ :=
    MMCSAlgorithm.mmcs_frame_spec cutoff_size spawn H H.num_edges [] ∅ Finset.univ
      (irredundant_empty H) hune ⟨⟨0, hnv⟩, Finset.mem_univ _⟩ hcut
      (by rw [uncov_of_empty, Finset.card_univ, Fintype.card_fin])
  rw [uncov_of_empty, crit_of_empty] at heq
  refine ⟨⟨out⟩, ?_, hnd, fun M => ?_⟩
  · unfold MMCSAlgorithm.transversal
    simp only
    rw [heq]
    rfl
  · rw [hchar M]
    constructor
    · rintro ⟨hM, -, -, hwc⟩
      exact ⟨hM, hwc⟩
    · rintro ⟨hM, hwc⟩
      exact ⟨hM, Finset.empty_subset M, by simp, hwc⟩

end MMCS

/-! ### The search tree of RS -/

section RSTree

variable {nv : Nat} (H : Hypergraph nv)

theorem RSAlgorithm.any_edge_critical_after_i_eq_false {ne : Nat} (i : Fin ne)
    (S : bitset nv) (crit : Fin nv → bitset ne) :
    RSAlgorithm.any_edge_critical_after_i i S crit = false ↔
      ∀ w ∈ S, ∃ j, find_first (crit w) = some j ∧ j < i := by
  unfold RSAlgorithm.any_edge_critical_after_i
  rw [List.any_eq_false]
  constructor
  · intro h w hw
    have hw' := h w ((mem_members S w).mpr hw)
    cases hf : find_first (crit w) with
    | none => simp [hf] at hw'
    | some j =>
      simp only [hf, decide_eq_true_eq, not_le] at hw'
      exact ⟨j, rfl, hw'⟩
  · intro h w hw
    obtain ⟨j, hj, hlt⟩ := h w ((mem_members S w).mp hw)
    simp only [hj, decide_eq_true_eq, not_le]
    exact hlt

theorem find_first_isSome {w : Nat} {b : bitset w} (hb : b.Nonempty) :
    ∃ i, find_first b = some i := by
  cases h : find_first b with
  | none =>
    rw [find_first_eq_none] at h
    rw [h] at hb
    exact absurd hb Finset.not_nonempty_empty
  | some i => exact ⟨i, rfl⟩

theorem RSAlgorithm.extends_to.step_subset {S X : bitset nv} (h : RSAlgorithm.extends_to H S X) :
    S ⊆ X := by
  obtain ⟨v, -, rfl, -⟩ := h
  exact Finset.subset_insert v S

theorem RSAlgorithm.extends_to.step_card {S X : bitset nv} (h : RSAlgorithm.extends_to H S X) :
    X.card = S.card + 1 := by
  obtain ⟨v, hv, rfl, -⟩ := h
  exact Finset.card_insert_of_not_mem hv

theorem RSAlgorithm.extends_to.step_unique {S1 S2 X : bitset nv}
    (h1 : RSAlgorithm.extends_to H S1 X) (h2 : RSAlgorithm.extends_to H S2 X) : S1 = S2 := by
  obtain ⟨v1, hv1, hX1, i1, hi1, hw1⟩ := h1
  obtain ⟨v2, hv2, hX2, i2, hi2, hw2⟩ := h2
  have e1 : S1 = X.erase v1 := by rw [hX1, Finset.erase_insert hv1]
  have e2 : S2 = X.erase v2 := by rw [hX2, Finset.erase_insert hv2]
  by_cases hv : v1 = v2
  · rw [e1, e2, hv]
  · exfalso
    have m2 : v2 ∈ S1 := by
      rw [e1, Finset.mem_erase]
      exact ⟨fun h => hv h.symm, by rw [hX2]; exact Finset.mem_insert_self v2 S2⟩
    have m1 : v1 ∈ S2 := by
      rw [e2, Finset.mem_erase]
      exact ⟨hv, by rw [hX1]; exact Finset.mem_insert_self v1 S1⟩
    obtain ⟨j2, hj2, hlt2⟩ := hw1 v2 m2
    obtain ⟨j1, hj1, hlt1⟩ := hw2 v1 m1
    rw [hi2] at hj2
    rw [hi1] at hj1
    cases hj2
    cases hj1
    exact absurd hlt1 (not_lt.mpr (le_of_lt hlt2))

theorem RSAlgorithm.reaches.reach_subset {S M : bitset nv} (h : RSAlgorithm.reaches H S M) :
    S ⊆ M := by
  induction h with
  | refl => exact Finset.Subset.refl S
  | tail _ hstep ih => exact ih.trans (RSAlgorithm.extends_to.step_subset H hstep)

theorem RSAlgorithm.reaches.reach_unique {S1 S2 M : bitset nv} (h1 : RSAlgorithm.reaches H S1 M)
    (h2 : RSAlgorithm.reaches H S2 M) (hc : S1.card = S2.card) : S1 = S2 := by
  unfold RSAlgorithm.reaches at h1
  induction h1 using Relation.ReflTransGen.head_induction_on generalizing S2 with
  | refl =>
    exact (Finset.eq_of_subset_of_card_le (RSAlgorithm.reaches.reach_subset H h2) (le_of_eq hc)).symm
  | head hstep hrest ih =>
    rename_i a c
    rcases Relation.ReflTransGen.cases_head h2 with rfl | ⟨c2, hstep2, hrest2⟩
    · exfalso
      have h3 := RSAlgorithm.extends_to.step_card H hstep
      have h4 := Finset.card_le_card (RSAlgorithm.reaches.reach_subset H hrest)
      omega
    · have h3 := RSAlgorithm.extends_to.step_card H hstep
      have h4 := RSAlgorithm.extends_to.step_card H hstep2
      have hcc : c = c2 := ih hrest2 (by omega)
      subst hcc
      exact RSAlgorithm.extends_to.step_unique H hstep hstep2

/-- Along the way to a minimal hitting set, every uncovered edge comes after a
critical edge of each vertex chosen so far. -/
theorem RSAlgorithm.reaches.reach_gap {X M : bitset nv} (h : RSAlgorithm.reaches H X M)
    (hM : H.MinHit M) :
    ∀ w ∈ X, ∀ j ∈ uncov_of H X, ∃ k ∈ crit_of H X w, k < j := by
  unfold RSAlgorithm.reaches at h
  induction h using Relation.ReflTransGen.head_induction_on with
  | refl =>
    intro w _ j hj
    rw [((MinHit_iff H).mp hM).1] at hj
    exact absurd hj (Finset.not_mem_empty j)
  | head hstep hrest ih =>
    rename_i a c
    intro w hw j hj
    obtain ⟨v, hv, hc, i, hi, hlow⟩ := hstep
    have hsub : a ⊆ c := by rw [hc]; exact Finset.subset_insert v a
    by_cases hjv : j ∈ H.transpose v
    · obtain ⟨j', hj', hlt⟩ := hlow w hw
      have hij : i ≤ j := by
        refine (find_first_eq_some.mp hi).2 j ?_
        rw [hc, crit_of_insert_self H hv, Finset.mem_inter]
        exact ⟨hjv, hj⟩
      exact ⟨j', crit_of_antitone H hsub hw (find_first_eq_some.mp hj').1,
        lt_of_lt_of_le hlt hij⟩
    · have hjc : j ∈ uncov_of H c := by
        rw [hc, uncov_of_insert, Finset.mem_sdiff]
        exact ⟨hj, hjv⟩
      obtain ⟨k, hk, hlt⟩ := ih w (hsub hw) j hjc
      exact ⟨k, crit_of_antitone H hsub hw hk, hlt⟩

theorem RSAlgorithm.exists_extends_to {X : bitset nv} (hX : irredundant H X)
    (hne : X.Nonempty) : ∃ S, RSAlgorithm.extends_to H S X ∧ irredundant H S := by
  obtain ⟨v, hv, hmax⟩ := Finset.exists_max_image X
    (fun w => (find_first (crit_of H X w)).elim 0 Fin.val) hne
  obtain ⟨i, hi⟩ := find_first_isSome (hX v hv)
  refine ⟨X.erase v, ⟨v, Finset.not_mem_erase v X, (Finset.insert_erase hv).symm, i, hi,
    fun w hw => ?_⟩, fun w hw => ?_⟩
  · rw [Finset.mem_erase] at hw
    obtain ⟨j, hj⟩ := find_first_isSome (hX w hw.2)
    refine ⟨j, hj, ?_⟩
    have hle := hmax w hw.2
    simp only [hi, hj, Option.elim_some] at hle
    have hne' : j ≠ i := by
      intro hji
      have h1 := (find_first_eq_some.mp hj).1
      have h2 := (find_first_eq_some.mp hi).1
      rw [hji] at h1
      exact Finset.disjoint_left.mp (crit_of_disjoint H hw.1) h1 h2
    exact lt_of_le_of_ne hle hne'
  · exact (hX w (Finset.mem_of_mem_erase hw)).mono
      (crit_of_antitone H (Finset.erase_subset v X) hw)

theorem RSAlgorithm.reaches_of_irredundant :
    ∀ (n : Nat) (X : bitset nv), X.card = n → irredundant H X → RSAlgorithm.reaches H ∅ X := by
  intro n
  induction n with
  | zero =>
    intro X hc _
    rw [Finset.card_eq_zero] at hc
    rw [hc]
    exact Relation.ReflTransGen.refl
  | succ n ih =>
    intro X hc hX
    have hne : X.Nonempty := by
      rw [← Finset.card_pos]
      omega
    obtain ⟨S, hstep, hS⟩ := RSAlgorithm.exists_extends_to H hX hne
    have hcard := RSAlgorithm.extends_to.step_card H hstep
    exact Relation.ReflTransGen.tail (ih S (by omega) hS) hstep

theorem violating.mono {S : bitset nv} {u v : Fin nv} (h : violating H S u) :
    violating H (insert v S) u := by
  obtain ⟨w, hw, hc⟩ := h
  refine ⟨w, Finset.mem_insert_of_mem hw, ?_⟩
  rw [← Finset.subset_empty, ← hc]
  apply crit_of_antitone H _ (Finset.mem_insert_of_mem hw)
  intro x hx
  simp only [Finset.mem_insert] at hx ⊢
  tauto

end RSTree

/-! ### The RS search -/

section RS

variable {nv : Nat} (cutoff_size : Nat) (spawn : List (Fin nv) → Bool) (H : Hypergraph nv)

theorem RSAlgorithm.store_indices_spec (S violating_vertices : bitset nv) :
    ∀ (l : List (Fin nv)) (new_violating_vertices : bitset nv) (search_indices : List (Fin nv)),
      l.Nodup → (∀ v ∈ l, v ∉ S) → (∀ v ∈ l, v ∉ search_indices) → search_indices.Nodup →
      (∀ u ∈ new_violating_vertices, violating H S u) →
      ∃ nvv idx,
        RSAlgorithm.store_indices H H.transpose ⟨S, crit_of H S, uncov_of H S⟩
            violating_vertices l new_violating_vertices search_indices = .ok (nvv, idx) ∧
        idx.Nodup ∧
        (∀ v, v ∈ idx ↔
          v ∈ search_indices ∨ (v ∈ l ∧ v ∉ violating_vertices ∧ ¬ violating H S v)) ∧
        ∀ u ∈ nvv, violating H S u := by
  intro l
  induction l with
  | nil =>
    intro nvv idx _ _ _ hnd hv
    exact ⟨nvv, idx, rfl, hnd, fun v => by simp, hv⟩
  | cons a l ih =>
    intro nvv idx hl hS hidx hnd hv
    rw [List.nodup_cons] at hl
    have hS' : ∀ v ∈ l, v ∉ S := fun v hv => hS v (List.mem_cons_of_mem a hv)
    have hidx' : ∀ v ∈ l, v ∉ idx := fun v hv => hidx v (List.mem_cons_of_mem a hv)
    unfold RSAlgorithm.store_indices
    by_cases hk : a ∈ violating_vertices
    · rw [if_pos hk]
      obtain ⟨nvv', idx', heq, hnd', hmem, hv'⟩ := ih nvv idx hl.2 hS' hidx' hnd hv
      refine ⟨nvv', idx', heq, hnd', fun v => ?_, hv'⟩
      rw [hmem v, List.mem_cons]
      constructor
      · rintro (h | ⟨h1, h2, h3⟩)
        · exact Or.inl h
        · exact Or.inr ⟨Or.inr h1, h2, h3⟩
      · rintro (h | ⟨h1 | h1, h2, h3⟩)
        · exact Or.inl h
        · exact absurd (h1 ▸ hk) h2
        · exact Or.inr ⟨h1, h2, h3⟩
    · rw [if_neg hk]
      simp only
      rw [vertex_would_violate_correct H S a (hS a (List.mem_cons_self a l)), Run.ok_bind]
      by_cases hviol : violating H S a
      · rw [if_pos (by simpa [violating] using hviol)]
        obtain ⟨nvv', idx', heq, hnd', hmem, hv'⟩ := ih (insert a nvv) idx hl.2 hS' hidx' hnd
          (fun u hu => by
            rcases Finset.mem_insert.mp hu with rfl | hu
            · exact hviol
            · exact hv u hu)
        refine ⟨nvv', idx', heq, hnd', fun v => ?_, hv'⟩
        rw [hmem v, List.mem_cons]
        constructor
        · rintro (h | ⟨h1, h2, h3⟩)
          · exact Or.inl h
          · exact Or.inr ⟨Or.inr h1, h2, h3⟩
        · rintro (h | ⟨h1 | h1, h2, h3⟩)
          · exact Or.inl h
          · exact absurd (h1 ▸ hviol) h3
          · exact Or.inr ⟨h1, h2, h3⟩
      · rw [if_neg (by simpa [violating] using hviol)]
        obtain ⟨nvv', idx', heq, hnd', hmem, hv'⟩ := ih nvv (a :: idx) hl.2 hS'
          (fun v hv => by
            rw [List.mem_cons, not_or]
            exact ⟨fun h => hl.1 (h ▸ hv), hidx' v hv⟩)
          (List.nodup_cons.mpr ⟨hidx a (List.mem_cons_self a l), hnd⟩) hv
        refine ⟨nvv', idx', heq, hnd', fun v => ?_, hv'⟩
        rw [hmem v, List.mem_cons, List.mem_cons]
        constructor
        · rintro ((h | h) | ⟨h1, h2, h3⟩)
          · exact Or.inr ⟨Or.inl h, h ▸ hk, h ▸ hviol⟩
          · exact Or.inl h
          · exact Or.inr ⟨Or.inr h1, h2, h3⟩
        · rintro (h | ⟨h1 | h1, h2, h3⟩)
          · exact Or.inl (Or.inr h)
          · exact Or.inl (Or.inl h1)
          · exact Or.inr ⟨h1, h2, h3⟩

theorem RSAlgorithm.rs_process_candidate_spec
    (recurse : List (Fin nv) → RSFrame nv H.num_edges → bitset nv →
      Run (RSFrame nv H.num_edges × List (bitset nv)))
    (fuel : Nat) (hrec : RSAlgorithm.call_contract cutoff_size H recurse fuel)
    (path : List (Fin nv)) (passed_down S1 : bitset nv) (hS1 : irredundant H S1)
    (hcut : cutoff_size = 0 ∨ S1.card ≤ cutoff_size) (hfuel : (uncov_of H S1).card ≤ fuel)
    (hpd : ∀ u ∈ passed_down, violating H S1 u) :
    ∃ out, RSAlgorithm.process_candidate cutoff_size spawn H recurse path passed_down
          ⟨S1, crit_of H S1, uncov_of H S1⟩
        = .ok (⟨S1, crit_of H S1, uncov_of H S1⟩, out) ∧
      out.Nodup ∧
      ∀ M, M ∈ out ↔
        (H.MinHit M ∧ RSAlgorithm.reaches H S1 M ∧ within_cutoff cutoff_size M) := by
  unfold RSAlgorithm.process_candidate
  simp only
  by_cases hu : uncov_of H S1 = ∅
  · rw [if_pos hu]
    refine ⟨[S1], rfl, List.nodup_singleton S1, fun M => ?_⟩
    rw [List.mem_singleton]
    constructor
    · rintro rfl
      exact ⟨(MinHit_iff H).mpr ⟨hu, hS1⟩, Relation.ReflTransGen.refl, hcut⟩
    · rintro ⟨hM, hreach, -⟩
      exact MinHit.eq_of_subset H hM ((hits_iff_uncov_of H).mpr hu)
        (RSAlgorithm.reaches.reach_subset H hreach)
  · rw [if_neg hu]
    have hnohit : ¬ H.hits S1 := fun h => hu ((hits_iff_uncov_of H).mp h)
    by_cases hc2 : cutoff_size = 0 ∨ S1.card < cutoff_size
    · rw [if_pos hc2]
      obtain ⟨out, heq, hnd, hchar⟩ := hrec path S1 passed_down hS1
        (Finset.nonempty_iff_ne_empty.mpr hu) hc2 hfuel hpd
      refine ⟨out, ?_, hnd, hchar⟩
      by_cases hsp : spawn path = true ∧ 2 < H.num_edges
      · rw [if_pos hsp, heq]
        rfl
      · rw [if_neg hsp, heq]
    · rw [if_neg hc2]
      refine ⟨[], rfl, List.nodup_nil, fun M => ?_⟩
      simp only [List.not_mem_nil, false_iff]
      rintro ⟨hM, hreach, hwc⟩
      apply hnohit
      have : S1 = M := by
        apply Finset.eq_of_subset_of_card_le (RSAlgorithm.reaches.reach_subset H hreach)
        unfold within_cutoff at hwc
        omega
      rw [this]
      exact hM.1

/-- After the update for `v`, the critical-edge test of RS passes exactly when
`S ∪ {v}` is a step of the search tree from `S`. -/
theorem RSAlgorithm.critical_test_iff {S : bitset nv} {v : Fin nv}
    {search_edge : Fin H.num_edges} (hse : find_first (uncov_of H S) = some search_edge)
    (hv : v ∈ H.edge search_edge) :
    RSAlgorithm.any_edge_critical_after_i search_edge S (crit_of H (insert v S)) = false ↔
      RSAlgorithm.extends_to H S (insert v S) := by
  have hmin := find_first_eq_some.mp hse
  have hvS : v ∉ S := (mem_uncov_of H).mp hmin.1 v hv
  have hfirst : find_first (crit_of H (insert v S) v) = some search_edge := by
    rw [find_first_eq_some, crit_of_insert_self H hvS]
    refine ⟨Finset.mem_inter.mpr ⟨(mem_transpose H).mpr hv, hmin.1⟩, fun j hj => ?_⟩
    exact hmin.2 j (Finset.mem_inter.mp hj).2
  rw [RSAlgorithm.any_edge_critical_after_i_eq_false]
  constructor
  · intro h
    exact ⟨v, hvS, rfl, search_edge, hfirst, h⟩
  · rintro ⟨v', hv', hX, i, hi, h⟩
    have hvv : v = v' := by
      have : v ∈ insert v' S := hX ▸ Finset.mem_insert_self v S
      rcases Finset.mem_insert.mp this with h | h
      · exact h
      · exact absurd h hvS
    subst hvv
    rw [hfirst] at hi
    cases hi
    exact h

set_option maxHeartbeats 1000000 in
theorem RSAlgorithm.search_loop_spec
    (recurse : List (Fin nv) → RSFrame nv H.num_edges → bitset nv →
      Run (RSFrame nv H.num_edges × List (bitset nv)))
    (fuel : Nat) (hrec : RSAlgorithm.call_contract cutoff_size H recurse fuel)
    (S : bitset nv) (hcut : cutoff_size = 0 ∨ S.card < cutoff_size)
    (hfuel : (uncov_of H S).card ≤ fuel + 1) (path : List (Fin nv))
    (search_edge : Fin H.num_edges) (hse : find_first (uncov_of H S) = some search_edge)
    (passed_down : bitset nv) (hpd : ∀ u ∈ passed_down, violating H S u) :
    ∀ l : List (Fin nv), l.Nodup →
      (∀ v ∈ l, v ∈ H.edge search_edge ∧ ¬ violating H S v) →
      ∃ out,
        RSAlgorithm.search_loop cutoff_size spawn H H.transpose recurse path search_edge
            passed_down l ⟨S, crit_of H S, uncov_of H S⟩
          = .ok (⟨S, crit_of H S, uncov_of H S⟩, out) ∧
        out.Nodup ∧
        ∀ M, M ∈ out ↔
          ∃ v ∈ l, RSAlgorithm.extends_to H S (insert v S) ∧ H.MinHit M ∧
            RSAlgorithm.reaches H (insert v S) M ∧ within_cutoff cutoff_size M := by
  have hmin := find_first_eq_some.mp hse
  intro l
  induction l with
  | nil =>
    intro _ _
    exact ⟨[], rfl, List.nodup_nil, fun M => by simp⟩
  | cons v rest ih =>
    intro hnd hl
    rw [List.nodup_cons] at hnd
    obtain ⟨hve, hnviol⟩ := hl v (List.mem_cons_self v rest)
    have hvS : v ∉ S := (mem_uncov_of H).mp hmin.1 v hve
    have hvne : (H.transpose v ∩ uncov_of H S).Nonempty :=
      ⟨search_edge, Finset.mem_inter.mpr ⟨(mem_transpose H).mpr hve, hmin.1⟩⟩
    obtain ⟨outr, heqr, hndr, hcharr⟩ :=
      ih hnd.2 (fun u hu => hl u (List.mem_cons_of_mem v hu))
    obtain ⟨critmark, hupd, hres⟩ := update_crit_and_uncov_correct H S v hvS
    unfold RSAlgorithm.search_loop
    rw [hupd, Run.ok_bind]
    simp only
    by_cases htest : RSAlgorithm.any_edge_critical_after_i search_edge S
        (crit_of H (insert v S)) = true
    · -- the critical-edge rule fires: v is abandoned
      rw [if_pos htest, hres, Run.ok_bind]
      simp only
      refine ⟨outr, heqr, hndr, fun M => ?_⟩
      rw [hcharr M]
      have hnstep : ¬ RSAlgorithm.extends_to H S (insert v S) := by
        rw [← RSAlgorithm.critical_test_iff H hse hve, htest]
        simp
      constructor
      · rintro ⟨u, hu, h⟩
        exact ⟨u, List.mem_cons_of_mem v hu, h⟩
      · rintro ⟨u, hu, h⟩
        rcases List.mem_cons.mp hu with rfl | hu
        · exact absurd h.1 hnstep
        · exact ⟨u, hu, h⟩
    · rw [if_neg htest]
      rw [Bool.not_eq_true] at htest
      have hstep := (RSAlgorithm.critical_test_iff H hse hve).mp htest
      have hS1 : irredundant H (insert v S) := irredundant_insert H hvS hnviol hvne
      have hlt := uncov_of_insert_card_lt H hvne
      have hcut1 : cutoff_size = 0 ∨ (insert v S).card ≤ cutoff_size := by
        rw [Finset.card_insert_of_not_mem hvS]
        omega
      obtain ⟨outv, heqv, hndv, hcharv⟩ := RSAlgorithm.rs_process_candidate_spec cutoff_size
        spawn H recurse fuel hrec (v :: path) passed_down (insert v S) hS1 hcut1 (by omega)
        (fun u hu => violating.mono H (hpd u hu))
      rw [heqv, Run.ok_bind]
      simp only [Finset.erase_insert hvS]
      rw [hres, Run.ok_bind]
      simp only
      rw [heqr, Run.ok_bind]
      refine ⟨outv ++ outr, rfl, ?_, fun M => ?_⟩
      · rw [List.nodup_append]
        refine ⟨hndv, hndr, fun M h1 h2 => ?_⟩
        obtain ⟨-, hr1, -⟩ := (hcharv M).mp h1
        obtain ⟨u, hu, hstepu, -, hr2, -⟩ := (hcharr M).mp h2
        have hcu := RSAlgorithm.extends_to.step_card H hstepu
        have hcv := RSAlgorithm.extends_to.step_card H hstep
        have heq := RSAlgorithm.reaches.reach_unique H hr1 hr2 (by omega)
        have : v ∈ insert u S := heq ▸ Finset.mem_insert_self v S
        rcases Finset.mem_insert.mp this with h | h
        · exact hnd.1 (h ▸ hu)
        · exact hvS h
      · rw [List.mem_append, hcharv M, hcharr M]
        constructor
        · rintro (⟨hM, hr, hwc⟩ | ⟨u, hu, h⟩)
          · exact ⟨v, List.mem_cons_self v rest, hstep, hM, hr, hwc⟩
          · exact ⟨u, List.mem_cons_of_mem v hu, h⟩
        · rintro ⟨u, hu, h⟩
          rcases List.mem_cons.mp hu with rfl | hu
          · exact Or.inl h.2
          · exact Or.inr ⟨u, hu, h⟩

set_option maxHeartbeats 1000000 in
theorem RSAlgorithm.rs_frame_spec :
    ∀ fuel : Nat, RSAlgorithm.call_contract cutoff_size H
      (RSAlgorithm.extend_or_confirm_set cutoff_size spawn H H.transpose fuel) fuel := by
  intro fuel
  induction fuel with
  | zero =>
    intro path S vv _ hune _ hfuel _
    rw [Nat.le_zero, Finset.card_eq_zero] at hfuel
    rw [hfuel] at hune
    exact absurd hune Finset.not_nonempty_empty
  | succ fuel ih =>
    intro path S vv hS hune hcut hfuel hvv
    have hin : RSAlgorithm.input_specification cutoff_size
        (⟨S, crit_of H S, uncov_of H S⟩ : RSFrame nv H.num_edges) = true := by
      simp [RSAlgorithm.input_specification, hune, hcut]
    obtain ⟨search_edge, hse⟩ := find_first_isSome hune
    have hmin := find_first_eq_some.mp hse
    have heS : ∀ x ∈ H.edge search_edge, x ∉ S := (mem_uncov_of H).mp hmin.1
    obtain ⟨nvv, idx, heqs, hndi, hmemi, hnvv⟩ := RSAlgorithm.store_indices_spec H S vv
      (members (H.edge search_edge)) ∅ [] (members_nodup _)
      (fun v hv => heS v ((mem_members _ v).mp hv)) (fun v _ => List.not_mem_nil v)
      List.nodup_nil (fun u hu => absurd hu (Finset.not_mem_empty u))
    have hidx : ∀ v, v ∈ idx ↔ v ∈ H.edge search_edge ∧ v ∉ vv ∧ ¬ violating H S v := by
      intro v
      rw [hmemi v, mem_members]
      simp
    obtain ⟨out, heq, hnd, hchar⟩ := RSAlgorithm.search_loop_spec cutoff_size spawn H
      (RSAlgorithm.extend_or_confirm_set cutoff_size spawn H H.transpose fuel) fuel ih
      S hcut hfuel path search_edge hse (vv ∪ nvv)
      (fun u hu => by
        rcases Finset.mem_union.mp hu with h | h
        · exact hvv u h
        · exact hnvv u h)
      idx hndi (fun v hv => ⟨((hidx v).mp hv).1, ((hidx v).mp hv).2.2⟩)
    refine ⟨out, ?_, hnd, fun M => ?_⟩
    · unfold RSAlgorithm.extend_or_confirm_set
      simp only [hin, hse, not_true_eq_false, if_false]
      rw [heqs, Run.ok_bind]
      exact heq
    · rw [hchar M]
      constructor
      · rintro ⟨v, -, hstep, hM, hr, hwc⟩
        exact ⟨hM, Relation.ReflTransGen.head hstep hr, hwc⟩
      · rintro ⟨hM, hr, hwc⟩
        rcases Relation.ReflTransGen.cases_head hr with rfl | ⟨c, hstep, hrc⟩
        · exfalso
          rw [((MinHit_iff H).mp hM).1] at hune
          exact Finset.not_nonempty_empty hune
        · have hgap := RSAlgorithm.reaches.reach_gap H hrc hM
          obtain ⟨v, hvS, hc, i, hi, hlow⟩ := hstep
          subst hc
          have hnviol : ¬ violating H S v := by
            rintro ⟨w, hw, hcw⟩
            obtain ⟨j, hj, -⟩ := hlow w hw
            rw [hcw] at hj
            have := (find_first_eq_some.mp hj).1
            exact Finset.not_mem_empty j this
          have himem := (find_first_eq_some.mp hi).1
          rw [crit_of_insert_self H hvS, Finset.mem_inter] at himem
          have hfirst : find_first (uncov_of H S) = some i := by
            rw [find_first_eq_some]
            refine ⟨himem.2, fun j hj => ?_⟩
            by_cases hjv : j ∈ H.transpose v
            · refine (find_first_eq_some.mp hi).2 j ?_
              rw [crit_of_insert_self H hvS, Finset.mem_inter]
              exact ⟨hjv, hj⟩
            · have hjc : j ∈ uncov_of H (insert v S) := by
                rw [uncov_of_insert, Finset.mem_sdiff]
                exact ⟨hj, hjv⟩
              obtain ⟨k, hk, hlt⟩ := hgap v (Finset.mem_insert_self v S) j hjc
              exact le_of_lt (lt_of_le_of_lt ((find_first_eq_some.mp hi).2 k hk) hlt)
          rw [hse] at hfirst
          cases hfirst
          refine ⟨v, (hidx v).mpr ⟨(mem_transpose H).mp himem.1, fun hvv' => ?_, hnviol⟩,
            ⟨v, hvS, rfl, search_edge, hi, hlow⟩, hM, hrc, hwc⟩
          exact hnviol (hvv v hvv')

/-- The result of the RS search, for every cutoff and every scheduling of the
recursive calls: the run completes, no set is stored twice, and the sets stored
are the minimal hitting sets that the cutoff admits. -/
theorem RSAlgorithm.rs_transversal_spec (hne : H.edges ≠ []) :
    ∃ R, RSAlgorithm.transversal cutoff_size spawn H = .ok R ∧ R.edges.Nodup ∧
      ∀ M, M ∈ R.edges ↔ (H.MinHit M ∧ within_cutoff cutoff_size M) := by
  have hpos : 0 < H.num_edges := List.length_pos.mpr hne
  have hcut : cutoff_size = 0 ∨ (∅ : bitset nv).card < cutoff_size := by
    rw [Finset.card_empty]
    omega
  have hune : (uncov_of H ∅).Nonempty := by
    rw [uncov_of_empty]
    exact ⟨⟨0, hpos⟩, Finset.mem_univ _⟩
  obtain ⟨out, heq, hnd, hchar⟩ :=
    RSAlgorithm.rs_frame_spec cutoff_size spawn H H.num_edges [] ∅ ∅
      (irredundant_empty H) hune hcut
      (by rw [uncov_of_empty, Finset.card_univ, Fintype.card_fin])
      (fun u hu => absurd hu (Finset.not_mem_empty u))
  rw [uncov_of_empty, crit_of_empty] at heq
  refine ⟨⟨out⟩, ?_, hnd, fun M => ?_⟩
  · unfold RSAlgorithm.transversal
    simp only
    rw [heq]
    rfl
  · rw [hchar M]
    constructor
    · rintro ⟨hM, -, hwc⟩
      exact ⟨hM, hwc⟩
    · rintro ⟨hM, hwc⟩
      exact ⟨hM, RSAlgorithm.reaches_of_irredundant H M.card M rfl ((MinHit_iff H).mp hM).2, hwc⟩

end RS

/-! ### Consequences for `transversal` -/

section Transversal

variable {nv : Nat}

theorem pos_of_nonempty_edge (H : Hypergraph nv) (h1 : H.edges ≠ [])
    (h2 : ∀ e ∈ H.edges, e ≠ ∅) : 0 < nv := by
  obtain ⟨e, he⟩ := List.exists_mem_of_ne_nil H.edges h1
  obtain ⟨x, -⟩ := Finset.nonempty_iff_ne_empty.mpr (h2 e he)
  exact Nat.lt_of_le_of_lt (Nat.zero_le _) x.2

theorem within_cutoff_zero (M : bitset nv) : within_cutoff 0 M := Or.inl rfl

theorem within_cutoff_iff {k : Nat} (hk : 1 ≤ k) (M : bitset nv) :
    within_cutoff k M ↔ M.card ≤ k := by
  unfold within_cutoff
  constructor
  · rintro (h | h)
    · omega
    · exact h
  · exact Or.inr

/-- Without vertices the root call of MMCS fails its input specification:
`CAND` is empty. -/
theorem MMCSAlgorithm.transversal_no_vertices (cutoff_size : Nat)
    (spawn : List (Fin 0) → Bool) (H : Hypergraph 0) (h1 : H.edges ≠ []) :
    MMCSAlgorithm.transversal cutoff_size spawn H = .assertion_failed := by
  obtain ⟨es⟩ := H
  cases es with
  | nil => exact absurd rfl h1
  | cons e es =>
    unfold MMCSAlgorithm.transversal
    simp only [Hypergraph.num_edges, List.length_cons]
    unfold MMCSAlgorithm.extend_or_confirm_set
    simp [MMCSAlgorithm.input_specification]

/-- Without vertices the frame that `transversal` builds for the root call of
MMCS does not meet the input specification. -/
theorem MMCSAlgorithm.root_input_specification_no_vertices (cutoff_size : Nat)
    (H : Hypergraph 0) :
    MMCSAlgorithm.input_specification cutoff_size
      (⟨∅, Finset.univ, fun _ => ∅, Finset.univ⟩ : MMCSFrame 0 H.num_edges) = false := by
  simp [MMCSAlgorithm.input_specification]

/-- The minimal hitting sets of the family of all minimal hitting sets of a
Sperner family are its edges. -/
theorem MinHit_MinHit (H G : Hypergraph nv) (hS : H.Sperner)
    (hG : ∀ M, M ∈ G.edges ↔ H.MinHit M) (X : bitset nv) :
    G.MinHit X ↔ X ∈ H.edges := by
  have hedge : ∀ e ∈ H.edges, G.hits e := by
    intro e he M hM
    obtain ⟨x, hx⟩ := ((hG M).mp hM).1 e he
    rw [Finset.mem_inter] at hx
    exact ⟨x, Finset.mem_inter.mpr ⟨hx.2, hx.1⟩⟩
  constructor
  · intro hX
    have hex : ∃ e ∈ H.edges, e ⊆ X := by
      by_contra hcon
      push_neg at hcon
      have hcompl : H.hits Xᶜ := by
        intro e he
        obtain ⟨x, hxe, hxX⟩ := Finset.not_subset.mp (hcon e he)
        exact ⟨x, Finset.mem_inter.mpr ⟨hxe, Finset.mem_compl.mpr hxX⟩⟩
      obtain ⟨M, hMsub, hM⟩ := exists_MinHit_subset H Xᶜ hcompl
      obtain ⟨x, hx⟩ := hX.1 M ((hG M).mpr hM)
      rw [Finset.mem_inter] at hx
      exact Finset.mem_compl.mp (hMsub hx.1) hx.2
    obtain ⟨e, he, hsub⟩ := hex
    rw [MinHit.eq_of_subset G hX (hedge e he) hsub]
    exact he
  · intro hX
    rw [MinHit_iff_hits_critically]
    refine ⟨hedge X hX, fun v hv => ?_⟩
    have hY : H.hits (insert v Xᶜ) := by
      intro f hf
      by_cases hfe : f ⊆ X
      · have := hS f hf X hX hfe
        subst this
        exact ⟨v, Finset.mem_inter.mpr ⟨hv, Finset.mem_insert_self v _⟩⟩
      · obtain ⟨x, hxf, hxX⟩ := Finset.not_subset.mp hfe
        exact ⟨x, Finset.mem_inter.mpr
          ⟨hxf, Finset.mem_insert_of_mem (Finset.mem_compl.mpr hxX)⟩⟩
    obtain ⟨M, hMsub, hM⟩ := exists_MinHit_subset H _ hY
    refine ⟨M, (hG M).mpr hM, ?_⟩
    obtain ⟨x, hx⟩ := hM.1 X hX
    rw [Finset.mem_inter] at hx
    have key : ∀ y ∈ M ∩ X, y = v := by
      intro y hy
      rw [Finset.mem_inter] at hy
      rcases Finset.mem_insert.mp (hMsub hy.1) with h | h
      · exact h
      · exact absurd hy.2 (Finset.mem_compl.mp h)
    rw [Finset.eq_singleton_iff_unique_mem]
    have hxv := key x (Finset.mem_inter.mpr ⟨hx.2, hx.1⟩)
    exact ⟨hxv ▸ Finset.mem_inter.mpr ⟨hx.2, hx.1⟩, key⟩

/-- A family without an empty edge has a minimal hitting set, and no minimal
hitting set of a family with an edge is empty. -/
theorem MinHit_family (H G : Hypergraph nv) (h1 : H.edges ≠ []) (h2 : ∀ e ∈ H.edges, e ≠ ∅)
    (hG : ∀ M, M ∈ G.edges ↔ H.MinHit M) :
    G.edges ≠ [] ∧ ∀ e ∈ G.edges, e ≠ ∅ := by
  constructor
  · have huniv : H.hits Finset.univ := by
      intro e he
      obtain ⟨x, hx⟩ := Finset.nonempty_iff_ne_empty.mpr (h2 e he)
      exact ⟨x, Finset.mem_inter.mpr ⟨hx, Finset.mem_univ x⟩⟩
    obtain ⟨M, -, hM⟩ := exists_MinHit_subset H _ huniv
    exact List.ne_nil_of_mem ((hG M).mpr hM)
  · intro M hM hempty
    obtain ⟨e, he⟩ := List.exists_mem_of_ne_nil H.edges h1
    obtain ⟨x, hx⟩ := ((hG M).mp hM).1 e he
    rw [hempty, Finset.inter_empty] at hx
    exact Finset.not_mem_empty x hx

end Transversal

/-! ## The claims -/

section Claims

variable {nv : Nat}

/-- C1. MMCS correctness: for a hypergraph with at least one edge and no empty
edge, the sequential MMCS search without cutoff returns a hypergraph whose edges
are exactly the sets that meet every edge of `H` and have no proper subset that
meets every edge of `H`. -/
theorem C1_MMCS_transversal_correct (H : Hypergraph nv) (h1 : H.edges ≠ [])
    (h2 : ∀ e ∈ H.edges, e ≠ ∅) :
    ∃ R, MMCSAlgorithm.transversal 0 sequential H = .ok R ∧
      ∀ S, S ∈ R.edges ↔ (H.hits S ∧ ∀ S', S' ⊂ S → ¬ H.hits S') := by
  obtain ⟨R, hR, -, hchar⟩ :=
    MMCSAlgorithm.mmcs_transversal_spec 0 sequential H h1 (pos_of_nonempty_edge H h1 h2)
  refine ⟨R, hR, fun S => ?_⟩
  rw [hchar S]
  exact ⟨fun h => h.1, fun h => ⟨h, within_cutoff_zero S⟩⟩

theorem C1_MMCS_transversal_correct_witness :
    (chain.edges ≠ [] ∧ ∀ e ∈ chain.edges, e ≠ ∅) ∧
    ∃ R, MMCSAlgorithm.transversal 0 sequential chain = .ok R ∧
      ∀ S, S ∈ R.edges ↔ (chain.hits S ∧ ∀ S', S' ⊂ S → ¬ chain.hits S') :=
  ⟨⟨by decide, by decide⟩, C1_MMCS_transversal_correct chain (by decide) (by decide)⟩

/-- C2. RS correctness: for a hypergraph with at least one edge and no empty
edge, the sequential RS search without cutoff returns a hypergraph whose edges
are exactly the sets that meet every edge of `H` and have no proper subset that
meets every edge of `H`. -/
theorem C2_RS_transversal_correct (H : Hypergraph nv) (h1 : H.edges ≠ [])
    (_h2 : ∀ e ∈ H.edges, e ≠ ∅) :
    ∃ R, RSAlgorithm.transversal 0 sequential H = .ok R ∧
      ∀ S, S ∈ R.edges ↔ (H.hits S ∧ ∀ S', S' ⊂ S → ¬ H.hits S') := by
  obtain ⟨R, hR, -, hchar⟩ := RSAlgorithm.rs_transversal_spec 0 sequential H h1
  refine ⟨R, hR, fun S => ?_⟩
  rw [hchar S]
  exact ⟨fun h => h.1, fun h => ⟨h, within_cutoff_zero S⟩⟩

theorem C2_RS_transversal_correct_witness :
    (chain.edges ≠ [] ∧ ∀ e ∈ chain.edges, e ≠ ∅) ∧
    ∃ R, RSAlgorithm.transversal 0 sequential chain = .ok R ∧
      ∀ S, S ∈ R.edges ↔ (chain.hits S ∧ ∀ S', S' ⊂ S → ¬ chain.hits S') :=
  ⟨⟨by decide, by decide⟩, C2_RS_transversal_correct chain (by decide) (by decide)⟩

/-- C3. Soundness of emission: for a hypergraph with at least one edge, every
cutoff and every scheduling of the recursive calls, every set enqueued by RS and
by MMCS meets every edge of `H` and each of its vertices is the only one of the
set in some edge of `H`.  Both searches run to completion, except MMCS on a
hypergraph without vertices: the frame of its root call does not meet the
input specification (`CAND` is empty), so the run stops at the entry of the
root call, before anything is enqueued. -/
theorem C3_enqueued_sets_hit_critically (H : Hypergraph nv) (h1 : H.edges ≠ [])
    (cutoff_size : Nat) (spawn : List (Fin nv) → Bool) :
    (∃ R, RSAlgorithm.transversal cutoff_size spawn H = .ok R ∧
      ∀ S ∈ R.edges, H.hits S ∧ ∀ w ∈ S, ∃ e ∈ H.edges, e ∩ S = {w}) ∧
    (0 < nv → ∃ R, MMCSAlgorithm.transversal cutoff_size spawn H = .ok R ∧
      ∀ S ∈ R.edges, H.hits S ∧ ∀ w ∈ S, ∃ e ∈ H.edges, e ∩ S = {w}) ∧
    (nv = 0 → MMCSAlgorithm.transversal cutoff_size spawn H = .assertion_failed ∧
      MMCSAlgorithm.input_specification cutoff_size
        (⟨∅, Finset.univ, fun _ => ∅, Finset.univ⟩ : MMCSFrame nv H.num_edges) = false) := by
  refine ⟨?_, fun hnv => ?_, fun hnv => ?_⟩
  · obtain ⟨R, hR, -, hchar⟩ := RSAlgorithm.rs_transversal_spec cutoff_size spawn H h1
    exact ⟨R, hR, fun S hS => (MinHit_iff_hits_critically H).mp ((hchar S).mp hS).1⟩
  · obtain ⟨R, hR, -, hchar⟩ := MMCSAlgorithm.mmcs_transversal_spec cutoff_size spawn H h1 hnv
    exact ⟨R, hR, fun S hS => (MinHit_iff_hits_critically H).mp ((hchar S).mp hS).1⟩
  · subst hnv
    exact ⟨MMCSAlgorithm.transversal_no_vertices cutoff_size spawn H h1,
      MMCSAlgorithm.root_input_specification_no_vertices cutoff_size H⟩

theorem C3_enqueued_sets_hit_critically_witness :
    chain.edges ≠ [] ∧
    ((∃ R, RSAlgorithm.transversal 2 (fun _ => true) chain = .ok R ∧
      ∀ S ∈ R.edges, chain.hits S ∧ ∀ w ∈ S, ∃ e ∈ chain.edges, e ∩ S = {w}) ∧
    (0 < 4 → ∃ R, MMCSAlgorithm.transversal 2 (fun _ => true) chain = .ok R ∧
      ∀ S ∈ R.edges, chain.hits S ∧ ∀ w ∈ S, ∃ e ∈ chain.edges, e ∩ S = {w}) ∧
    (4 = 0 → MMCSAlgorithm.transversal 2 (fun _ => true) chain = .assertion_failed ∧
      MMCSAlgorithm.input_specification 2
        (⟨∅, Finset.univ, fun _ => ∅, Finset.univ⟩ : MMCSFrame 4 chain.num_edges) = false)) :=
  ⟨by decide, C3_enqueued_sets_hit_critically chain (by decide) 2 (fun _ => true)⟩

/-- C4. No duplicates: for a hypergraph with at least one edge, every cutoff and
every scheduling of the recursive calls, the list of the sets enqueued by RS and
by MMCS has no repetition, so the returned hypergraph has as many edges as there
are different sets enqueued.  (MMCS on a hypergraph without vertices stops at
the entry of its root call, whose frame does not meet the input specification,
and enqueues nothing.) -/
theorem C4_no_set_enqueued_twice (H : Hypergraph nv) (h1 : H.edges ≠ [])
    (cutoff_size : Nat) (spawn : List (Fin nv) → Bool) :
    (∃ R, RSAlgorithm.transversal cutoff_size spawn H = .ok R ∧
      R.edges.Nodup ∧ R.num_edges = R.edges.toFinset.card) ∧
    (0 < nv → ∃ R, MMCSAlgorithm.transversal cutoff_size spawn H = .ok R ∧
      R.edges.Nodup ∧ R.num_edges = R.edges.toFinset.card) ∧
    (nv = 0 → MMCSAlgorithm.transversal cutoff_size spawn H = .assertion_failed ∧
      MMCSAlgorithm.input_specification cutoff_size
        (⟨∅, Finset.univ, fun _ => ∅, Finset.univ⟩ : MMCSFrame nv H.num_edges) = false) := by
  refine ⟨?_, fun hnv => ?_, fun hnv => ?_⟩
  · obtain ⟨R, hR, hnd, -⟩ := RSAlgorithm.rs_transversal_spec cutoff_size spawn H h1
    exact ⟨R, hR, hnd, (List.toFinset_card_of_nodup hnd).symm⟩
  · obtain ⟨R, hR, hnd, -⟩ := MMCSAlgorithm.mmcs_transversal_spec cutoff_size spawn H h1 hnv
    exact ⟨R, hR, hnd, (List.toFinset_card_of_nodup hnd).symm⟩
  · subst hnv
    exact ⟨MMCSAlgorithm.transversal_no_vertices cutoff_size spawn H h1,
      MMCSAlgorithm.root_input_specification_no_vertices cutoff_size H⟩

theorem C4_no_set_enqueued_twice_witness :
    chain.edges ≠ [] ∧
    ((∃ R, RSAlgorithm.transversal 0 (fun _ => true) chain = .ok R ∧
      R.edges.Nodup ∧ R.num_edges = R.edges.toFinset.card) ∧
    (0 < 4 → ∃ R, MMCSAlgorithm.transversal 0 (fun _ => true) chain = .ok R ∧
      R.edges.Nodup ∧ R.num_edges = R.edges.toFinset.card) ∧
    (4 = 0 → MMCSAlgorithm.transversal 0 (fun _ => true) chain = .assertion_failed ∧
      MMCSAlgorithm.input_specification 0
        (⟨∅, Finset.univ, fun _ => ∅, Finset.univ⟩ : MMCSFrame 4 chain.num_edges) = false)) :=
  ⟨by decide, C4_no_set_enqueued_twice chain (by decide) 0 (fun _ => true)⟩

/-- C5. Cutoff law: for a hypergraph with at least one edge and no empty edge
and a cutoff `k ≥ 1`, MMCS and RS (under every scheduling of the recursive
calls) return exactly the minimal hitting sets of `H` of size at most `k`. -/
theorem C5_cutoff_law (H : Hypergraph nv) (h1 : H.edges ≠ []) (h2 : ∀ e ∈ H.edges, e ≠ ∅)
    (k : Nat) (hk : 1 ≤ k) (spawn : List (Fin nv) → Bool) :
    (∃ R, MMCSAlgorithm.transversal k spawn H = .ok R ∧
      ∀ S, S ∈ R.edges ↔ (H.MinHit S ∧ S.card ≤ k)) ∧
    (∃ R, RSAlgorithm.transversal k spawn H = .ok R ∧
      ∀ S, S ∈ R.edges ↔ (H.MinHit S ∧ S.card ≤ k)) := by
  constructor
  · obtain ⟨R, hR, -, hchar⟩ :=
      MMCSAlgorithm.mmcs_transversal_spec k spawn H h1 (pos_of_nonempty_edge H h1 h2)
    refine ⟨R, hR, fun S => ?_⟩
    rw [hchar S, within_cutoff_iff hk]
  · obtain ⟨R, hR, -, hchar⟩ := RSAlgorithm.rs_transversal_spec k spawn H h1
    refine ⟨R, hR, fun S => ?_⟩
    rw [hchar S, within_cutoff_iff hk]

theorem C5_cutoff_law_witness :
    (chain.edges ≠ [] ∧ (∀ e ∈ chain.edges, e ≠ ∅) ∧ 1 ≤ 2) ∧
    ((∃ R, MMCSAlgorithm.transversal 2 sequential chain = .ok R ∧
      ∀ S, S ∈ R.edges ↔ (chain.MinHit S ∧ S.card ≤ 2)) ∧
    (∃ R, RSAlgorithm.transversal 2 sequential chain = .ok R ∧
      ∀ S, S ∈ R.edges ↔ (chain.MinHit S ∧ S.card ≤ 2))) :=
  ⟨⟨by decide, by decide, by decide⟩,
    C5_cutoff_law chain (by decide) (by decide) 2 (by decide) sequential⟩

/-- C6. Round trip of the SHD primitives: when `v` is not in `S` and `crit[v]`
is empty, `update_crit_and_uncov` succeeds, and `restore_crit_and_uncov` called
with the `critmark` it returned succeeds and leaves every `crit[u]` and `uncov`
equal to their values before the update. -/
theorem C6_update_restore_round_trip (H : Hypergraph nv)
    (crit : Fin nv → bitset H.num_edges) (uncov : bitset H.num_edges)
    (T : Fin nv → bitset H.num_edges) (S : bitset nv) (v : Fin nv)
    (hv : v ∉ S) (hc : crit v = ∅) :
    ∃ crit1 uncov1 critmark,
      update_crit_and_uncov H crit uncov T S v = .ok (crit1, uncov1, critmark) ∧
      ∃ crit2 uncov2,
        restore_crit_and_uncov crit1 uncov1 S critmark v = .ok (crit2, uncov2) ∧
        (∀ u, crit2 u = crit u) ∧ uncov2 = uncov := by
  obtain ⟨r, h1, h2⟩ := update_then_restore H crit uncov T S v hv hc
  exact ⟨r.1, r.2.1, r.2.2, h1, crit, uncov, h2, fun _ => rfl, rfl⟩

theorem C6_update_restore_round_trip_witness :
    ((1 : Fin 4) ∉ ({0} : bitset 4) ∧ crit_of chain {0} 1 = ∅) ∧
    ∃ crit1 uncov1 critmark,
      update_crit_and_uncov chain (crit_of chain {0}) (uncov_of chain {0}) chain.transpose
          {0} 1 = .ok (crit1, uncov1, critmark) ∧
      ∃ crit2 uncov2,
        restore_crit_and_uncov crit1 uncov1 {0} critmark 1 = .ok (crit2, uncov2) ∧
        (∀ u, crit2 u = crit_of chain {0} u) ∧ uncov2 = uncov_of chain {0} :=
  ⟨⟨by decide, by decide⟩,
    C6_update_restore_round_trip chain (crit_of chain {0}) (uncov_of chain {0})
      chain.transpose {0} 1 (by decide) (by decide)⟩

/-- C7. On the hypergraph with 3 vertices and no edge, both engines call
`extend_or_confirm_set` with `uncov` empty: the assertion `uncov.any()` of the
root call fails, for every cutoff and every scheduling, so no hypergraph is
returned (the claim expects the single edge `∅`). -/
theorem C7_no_edges_assertion_fails (cutoff_size : Nat) (spawn : List (Fin 3) → Bool) :
    MMCSAlgorithm.transversal cutoff_size spawn (⟨[]⟩ : Hypergraph 3) = .assertion_failed ∧
    RSAlgorithm.transversal cutoff_size spawn (⟨[]⟩ : Hypergraph 3) = .assertion_failed := by
  constructor
  · unfold MMCSAlgorithm.transversal
    simp only [Hypergraph.num_edges, List.length_nil]
    unfold MMCSAlgorithm.extend_or_confirm_set
    simp [MMCSAlgorithm.input_specification]
  · unfold RSAlgorithm.transversal
    simp only [Hypergraph.num_edges, List.length_nil]
    unfold RSAlgorithm.extend_or_confirm_set
    simp [RSAlgorithm.input_specification]

/-- C8. Engine equivalence: for a hypergraph with at least one edge and no empty
edge, MMCS and RS without cutoff return hypergraphs with the same set of edges
(whatever the scheduling of the recursive calls of either). -/
theorem C8_MMCS_RS_same_edges (H : Hypergraph nv) (h1 : H.edges ≠ [])
    (h2 : ∀ e ∈ H.edges, e ≠ ∅) (spawn spawn' : List (Fin nv) → Bool) :
    ∃ R R', MMCSAlgorithm.transversal 0 spawn H = .ok R ∧
      RSAlgorithm.transversal 0 spawn' H = .ok R' ∧
      ∀ S, S ∈ R.edges ↔ S ∈ R'.edges := by
  obtain ⟨R, hR, -, hchar⟩ :=
    MMCSAlgorithm.mmcs_transversal_spec 0 spawn H h1 (pos_of_nonempty_edge H h1 h2)
  obtain ⟨R', hR', -, hchar'⟩ := RSAlgorithm.rs_transversal_spec 0 spawn' H h1
  exact ⟨R, R', hR, hR', fun S => by rw [hchar S, hchar' S]⟩

theorem C8_MMCS_RS_same_edges_witness :
    (chain.edges ≠ [] ∧ ∀ e ∈ chain.edges, e ≠ ∅) ∧
    ∃ R R', MMCSAlgorithm.transversal 0 sequential chain = .ok R ∧
      RSAlgorithm.transversal 0 sequential chain = .ok R' ∧
      ∀ S, S ∈ R.edges ↔ S ∈ R'.edges :=
  ⟨⟨by decide, by decide⟩,
    C8_MMCS_RS_same_edges chain (by decide) (by decide) sequential sequential⟩

/-- C9. Spawn-policy independence: for a hypergraph with at least one edge and
every cutoff, whatever choice `spawn` makes at each recursion point between a
task on copies and an inline call, each engine enqueues the same set of sets as
the always-inline search.  (MMCS on a hypergraph without vertices stops at the
assertion of its root call under every policy.) -/
theorem C9_spawn_policy_independence (H : Hypergraph nv) (h1 : H.edges ≠ [])
    (cutoff_size : Nat) (spawn : List (Fin nv) → Bool) :
    (∃ R R', RSAlgorithm.transversal cutoff_size spawn H = .ok R ∧
      RSAlgorithm.transversal cutoff_size sequential H = .ok R' ∧
      ∀ S, S ∈ R.edges ↔ S ∈ R'.edges) ∧
    (0 < nv → ∃ R R', MMCSAlgorithm.transversal cutoff_size spawn H = .ok R ∧
      MMCSAlgorithm.transversal cutoff_size sequential H = .ok R' ∧
      ∀ S, S ∈ R.edges ↔ S ∈ R'.edges) ∧
    (nv = 0 → MMCSAlgorithm.transversal cutoff_size spawn H = .assertion_failed ∧
      MMCSAlgorithm.transversal cutoff_size sequential H = .assertion_failed) := by
  refine ⟨?_, fun hnv => ?_, fun hnv => ?_⟩
  · obtain ⟨R, hR, -, hchar⟩ := RSAlgorithm.rs_transversal_spec cutoff_size spawn H h1
    obtain ⟨R', hR', -, hchar'⟩ := RSAlgorithm.rs_transversal_spec cutoff_size sequential H h1
    exact ⟨R, R', hR, hR', fun S => by rw [hchar S, hchar' S]⟩
  · obtain ⟨R, hR, -, hchar⟩ := MMCSAlgorithm.mmcs_transversal_spec cutoff_size spawn H h1 hnv
    obtain ⟨R', hR', -, hchar'⟩ :=
      MMCSAlgorithm.mmcs_transversal_spec cutoff_size sequential H h1 hnv
    exact ⟨R, R', hR, hR', fun S => by rw [hchar S, hchar' S]⟩
  · subst hnv
    exact ⟨MMCSAlgorithm.transversal_no_vertices cutoff_size spawn H h1,
      MMCSAlgorithm.transversal_no_vertices cutoff_size sequential H h1⟩

theorem C9_spawn_policy_independence_witness :
    chain.edges ≠ [] ∧
    ((∃ R R', RSAlgorithm.transversal 0 (fun path => decide (path.length = 1)) chain = .ok R ∧
      RSAlgorithm.transversal 0 sequential chain = .ok R' ∧
      ∀ S, S ∈ R.edges ↔ S ∈ R'.edges) ∧
    (0 < 4 → ∃ R R',
      MMCSAlgorithm.transversal 0 (fun path => decide (path.length = 1)) chain = .ok R ∧
      MMCSAlgorithm.transversal 0 sequential chain = .ok R' ∧
      ∀ S, S ∈ R.edges ↔ S ∈ R'.edges) ∧
    (4 = 0 →
      MMCSAlgorithm.transversal 0 (fun path => decide (path.length = 1)) chain
        = .assertion_failed ∧
      MMCSAlgorithm.transversal 0 sequential chain = .assertion_failed)) :=
  ⟨by decide,
    C9_spawn_policy_independence chain (by decide) 0 (fun path => decide (path.length = 1))⟩

end Claims

/-! ### Reachable calls of MMCS -/

section MMCSReachable

variable {nv : Nat} (cutoff_size : Nat) (spawn : List (Fin nv) → Bool) (H : Hypergraph nv)

theorem members_reverse_sorted {w : Nat} (b : bitset w) :
    (members b).reverse.Pairwise (fun x y => y < x) :=
  List.pairwise_reverse.mpr (members_sorted b)

theorem MMCSAlgorithm.input_specification_iff {ne : Nat} (fr : MMCSFrame nv ne) :
    MMCSAlgorithm.input_specification cutoff_size fr = true ↔
      fr.uncov.Nonempty ∧ fr.CAND.Nonempty ∧ (cutoff_size = 0 ∨ fr.S.card < cutoff_size) := by
  simp [MMCSAlgorithm.input_specification, and_assoc]

/-- What a branch of a frame with correct bookkeeping looks like. -/
theorem MMCSAlgorithm.branch_spec (fuel : Nat) (path : List (Fin nv)) (S CAND : bitset nv)
    (e : bitset nv) (v : Fin nv) (fr1 : MMCSFrame nv H.num_edges)
    (hfuel : (uncov_of H S).card ≤ fuel + 1)
    (hb : MMCSAlgorithm.branch cutoff_size spawn H fuel path
      ⟨S, CAND, crit_of H S, uncov_of H S⟩ e v fr1) :
    ∃ j CAND1, j ∈ uncov_of H S ∧ e = H.edge j ∧ v ∈ CAND ∧ v ∈ e ∧ v ∉ S ∧
      ¬ violating H S v ∧ (cutoff_size = 0 ∨ S.card < cutoff_size) ∧
      fr1 = ⟨insert v S, CAND1, crit_of H (insert v S), uncov_of H (insert v S)⟩ ∧
      CAND1 ⊆ CAND ∧ ∀ u ∈ CAND1, u ∈ e → v < u := by
  obtain ⟨hin, hsel, pre, post, mid, violators, out, hC, hrun, hvwv, hupd⟩ := hb
  rw [MMCSAlgorithm.input_specification_iff] at hin
  obtain ⟨-, -, hcut⟩ := hin
  simp only at hcut hsel hC hrun
  obtain ⟨first, hfirst, hsel⟩ := Option.map_eq_some'.mp hsel
  obtain ⟨j, hj, hej⟩ := MMCSAlgorithm.select_edge_spec H CAND (uncov_of H S) first
    (find_first_eq_some.mp hfirst).1
  rw [hsel] at hej
  have hjS : ∀ x ∈ H.edge j, x ∉ S := (mem_uncov_of H).mp hj
  have hmemC : ∀ u, u ∈ pre ++ v :: post → u ∈ CAND ∧ u ∈ e := by
    intro u hu
    rw [← hC, List.mem_reverse, mem_members, Finset.mem_inter] at hu
    exact hu
  have hnd : (pre ++ v :: post).Nodup := by
    rw [← hC]
    exact List.nodup_reverse.mpr (members_nodup _)
  have hsort : (pre ++ v :: post).Pairwise (fun x y => y < x) := by
    rw [← hC]
    exact members_reverse_sorted _
  have hvC := hmemC v (by simp)
  have hvS : v ∉ S := hjS v (hej ▸ hvC.2)
  have hpre : ∀ u ∈ pre,
      u ∉ S ∧ u ∉ CAND \ e ∧ (H.transpose u ∩ uncov_of H S).Nonempty := by
    intro u hu
    have huC := hmemC u (List.mem_append_left _ hu)
    refine ⟨hjS u (hej ▸ huC.2), ?_, ⟨j, ?_⟩⟩
    · rw [Finset.mem_sdiff]
      exact fun h => h.2 huC.2
    · rw [Finset.mem_inter, mem_transpose]
      exact ⟨hej ▸ huC.2, hj⟩
  obtain ⟨CAND1, violators1, out1, heq, hun, -, -⟩ :=
    MMCSAlgorithm.test_vertices_spec cutoff_size spawn H
      (MMCSAlgorithm.extend_or_confirm_set cutoff_size spawn H H.transpose fuel) fuel
      (MMCSAlgorithm.mmcs_frame_spec cutoff_size spawn H fuel)
      S hcut hfuel path pre (CAND \ e) ∅ (List.Nodup.of_append_left hnd) hpre
  rw [heq] at hrun
  have hmid := (Prod.mk.inj (Run.ok.inj hrun)).1
  subst hmid
  simp only at hvwv hupd
  rw [vertex_would_violate_correct H S v hvS] at hvwv
  have hnviol : ¬ violating H S v := by
    have := Run.ok.inj hvwv
    simpa [violating] using this
  obtain ⟨critmark, hu, -⟩ := update_crit_and_uncov_correct H S v hvS
  rw [hu, Run.ok_bind] at hupd
  have hfr1 := (Run.ok.inj hupd).symm
  have hsubC : CAND1 ⊆ CAND \ e ∪ pre.toFinset := by
    intro u hu1
    have : u ∈ CAND1 ∪ violators1 := Finset.mem_union_left _ hu1
    rw [hun] at this
    simpa using this
  refine ⟨j, CAND1, hj, hej, hvC.1, hvC.2, hvS, hnviol, hcut, hfr1, fun u hu1 => ?_,
    fun u hu1 hue => ?_⟩
  · rcases Finset.mem_union.mp (hsubC hu1) with h | h
    · exact (Finset.mem_sdiff.mp h).1
    · exact (hmemC u (List.mem_append_left _ (List.mem_toFinset.mp h))).1
  · rcases Finset.mem_union.mp (hsubC hu1) with h | h
    · exact absurd hue (Finset.mem_sdiff.mp h).2
    · exact (List.pairwise_append.mp hsort).2.2 u (List.mem_toFinset.mp h) v
        (List.mem_cons_self v post)

/-- The state at the entry of every reachable call of MMCS: the bookkeeping
values of `S`, no vertex of `S` redundant, and enough fuel. -/
theorem MMCSAlgorithm.entered_spec {fuel : Nat} {path : List (Fin nv)}
    {fr : MMCSFrame nv H.num_edges}
    (h : MMCSAlgorithm.entered cutoff_size spawn H fuel path fr) :
    fr.crit = crit_of H fr.S ∧ fr.uncov = uncov_of H fr.S ∧ irredundant H fr.S ∧
      (uncov_of H fr.S).card ≤ fuel := by
  induction h with
  | root =>
    refine ⟨(crit_of_empty H).symm, (uncov_of_empty H).symm, irredundant_empty H, ?_⟩
    rw [uncov_of_empty, Finset.card_univ, Fintype.card_fin]
  | call hent hb hrc ih =>
    rename_i fuel path fr e v fr1
    obtain ⟨S, CAND, crit, uncov⟩ := fr
    obtain ⟨hcrit, huncov, -, hfuel⟩ := ih
    simp only at hcrit huncov hfuel
    subst hcrit huncov
    obtain ⟨j, CAND1, hj, hej, -, hve, hvS, hnviol, -, hfr1, -, -⟩ :=
      MMCSAlgorithm.branch_spec cutoff_size spawn H fuel path S CAND e v fr1 hfuel hb
    subst hfr1
    have hvne : (H.transpose v ∩ uncov_of H S).Nonempty :=
      ⟨j, Finset.mem_inter.mpr ⟨(mem_transpose H).mpr (hej ▸ hve), hj⟩⟩
    have hlt := uncov_of_insert_card_lt H hvne
    refine ⟨rfl, rfl, irredundant_insert H hvS hnviol hvne, ?_⟩
    show (uncov_of H (insert v S)).card ≤ fuel
    omega

end MMCSReachable

/-! ### Reachable calls of RS -/

section RSReachable

variable {nv : Nat} (cutoff_size : Nat) (spawn : List (Fin nv) → Bool) (H : Hypergraph nv)

theorem RSAlgorithm.rs_input_specification_iff {ne : Nat} (fr : RSFrame nv ne) :
    RSAlgorithm.input_specification cutoff_size fr = true ↔
      fr.uncov.Nonempty ∧ (cutoff_size = 0 ∨ fr.S.card < cutoff_size) := by
  simp [RSAlgorithm.input_specification]

/-- What a branch of a frame with correct bookkeeping looks like. -/
theorem RSAlgorithm.rs_branch_spec (fuel : Nat) (path : List (Fin nv))
    (S violating_vertices : bitset nv) (search_edge : Fin H.num_edges) (v : Fin nv)
    (fr1 : RSFrame nv H.num_edges) (passed_down : bitset nv)
    (hfuel : (uncov_of H S).card ≤ fuel + 1)
    (hvv : ∀ u ∈ violating_vertices, violating H S u)
    (hb : RSAlgorithm.branch cutoff_size spawn H fuel path ⟨S, crit_of H S, uncov_of H S⟩
      violating_vertices search_edge v fr1 passed_down) :
    find_first (uncov_of H S) = some search_edge ∧ v ∈ H.edge search_edge ∧ v ∉ S ∧
      v ∉ violating_vertices ∧ ¬ violating H S v ∧
      (cutoff_size = 0 ∨ S.card < cutoff_size) ∧
      fr1 = ⟨insert v S, crit_of H (insert v S), uncov_of H (insert v S)⟩ ∧
      (∀ u ∈ passed_down, violating H S u) ∧ RSAlgorithm.extends_to H S (insert v S) := by
  obtain ⟨hin, hse, part, pre, post, mid, out, hstore, hpd, hidx, hrun, hupd, htest⟩ := hb
  rw [RSAlgorithm.rs_input_specification_iff] at hin
  obtain ⟨-, hcut⟩ := hin
  simp only at hcut hse hstore hrun
  have hmin := find_first_eq_some.mp hse
  have heS : ∀ x ∈ H.edge search_edge, x ∉ S := (mem_uncov_of H).mp hmin.1
  obtain ⟨nvv, idx, heqs, hndi, hmemi, hnvv⟩ := RSAlgorithm.store_indices_spec H S
    violating_vertices (members (H.edge search_edge)) ∅ [] (members_nodup _)
    (fun u hu => heS u ((mem_members _ u).mp hu)) (fun u _ => List.not_mem_nil u)
    List.nodup_nil (fun u hu => absurd hu (Finset.not_mem_empty u))
  rw [heqs] at hstore
  have hpart := Run.ok.inj hstore
  subst hpart
  simp only at hpd hidx
  have hmem : ∀ u, u ∈ pre ++ v :: post →
      u ∈ H.edge search_edge ∧ u ∉ violating_vertices ∧ ¬ violating H S u := by
    intro u hu
    rw [← hidx, hmemi u, mem_members] at hu
    simpa using hu
  have hpdv : ∀ u ∈ passed_down, violating H S u := by
    intro u hu
    rw [hpd] at hu
    rcases Finset.mem_union.mp hu with h | h
    · exact hvv u h
    · exact hnvv u h
  rw [hidx] at hndi
  obtain ⟨out1, heq, -, -⟩ := RSAlgorithm.search_loop_spec cutoff_size spawn H
    (RSAlgorithm.extend_or_confirm_set cutoff_size spawn H H.transpose fuel) fuel
    (RSAlgorithm.rs_frame_spec cutoff_size spawn H fuel) S hcut hfuel path search_edge hse
    passed_down hpdv pre (List.Nodup.of_append_left hndi)
    (fun u hu => ⟨(hmem u (List.mem_append_left _ hu)).1,
      (hmem u (List.mem_append_left _ hu)).2.2⟩)
  rw [heq] at hrun
  have hmid := (Prod.mk.inj (Run.ok.inj hrun)).1
  subst hmid
  simp only at hupd htest
  have hv := hmem v (by simp)
  have hvS : v ∉ S := heS v hv.1
  obtain ⟨critmark, hu, -⟩ := update_crit_and_uncov_correct H S v hvS
  rw [hu, Run.ok_bind] at hupd
  have hfr1 := (Run.ok.inj hupd).symm
  subst hfr1
  simp only at htest
  exact ⟨hse, hv.1, hvS, hv.2.1, hv.2.2, hcut, rfl, hpdv,
    (RSAlgorithm.critical_test_iff H hse hv.1).mp htest⟩

/-- The state at the entry of every reachable call of RS: the bookkeeping
values of `S`, no vertex of `S` redundant, enough fuel, and only violating
vertices in `violating_vertices`. -/
theorem RSAlgorithm.rs_entered_spec {fuel : Nat} {path : List (Fin nv)}
    {fr : RSFrame nv H.num_edges} {violating_vertices : bitset nv}
    (h : RSAlgorithm.entered cutoff_size spawn H fuel path fr violating_vertices) :
    fr.crit = crit_of H fr.S ∧ fr.uncov = uncov_of H fr.S ∧ irredundant H fr.S ∧
      (uncov_of H fr.S).card ≤ fuel ∧ ∀ u ∈ violating_vertices, violating H fr.S u := by
  induction h with
  | root =>
    refine ⟨(crit_of_empty H).symm, (uncov_of_empty H).symm, irredundant_empty H, ?_,
      fun u hu => absurd hu (Finset.not_mem_empty u)⟩
    rw [uncov_of_empty, Finset.card_univ, Fintype.card_fin]
  | call hent hb hrc ih =>
    rename_i fuel path fr vv search_edge v fr1 pd
    obtain ⟨S, crit, uncov⟩ := fr
    obtain ⟨hcrit, huncov, -, hfuel, hvv⟩ := ih
    simp only at hcrit huncov hfuel hvv
    subst hcrit huncov
    obtain ⟨hse, hve, hvS, -, hnviol, -, hfr1, hpd, -⟩ :=
      RSAlgorithm.rs_branch_spec cutoff_size spawn H fuel path S vv search_edge v fr1 pd
        hfuel hvv hb
    subst hfr1
    have hvne : (H.transpose v ∩ uncov_of H S).Nonempty :=
      ⟨search_edge, Finset.mem_inter.mpr
        ⟨(mem_transpose H).mpr hve, (find_first_eq_some.mp hse).1⟩⟩
    have hlt := uncov_of_insert_card_lt H hvne
    refine ⟨rfl, rfl, irredundant_insert H hvS hnviol hvne, ?_,
      fun u hu => violating.mono H (hpd u hu)⟩
    show (uncov_of H (insert v S)).card ≤ fuel
    omega

end RSReachable

/-! ### The loops run vertex by vertex -/

section Loops

variable {nv : Nat} (cutoff_size : Nat) (spawn : List (Fin nv) → Bool) (H : Hypergraph nv)

theorem Run.bind_assoc {α β γ : Type} (r : Run α) (f : α → Run β) (g : β → Run γ) :
    (r.bind f).bind g = r.bind (fun a => (f a).bind g) := by
  cases r <;> rfl

theorem Run.bind_ok_id {α : Type} (r : Run α) : r.bind Run.ok = r := by
  cases r <;> rfl

/-- The loop of MMCS over `l1 ++ l2` is the loop over `l1` followed by the loop
over `l2` from the state, the violators and after the sets of the first. -/
theorem MMCSAlgorithm.test_vertices_append (T : Fin nv → bitset H.num_edges)
    (recurse : List (Fin nv) → MMCSFrame nv H.num_edges →
      Run (MMCSFrame nv H.num_edges × List (bitset nv)))
    (path : List (Fin nv)) (l2 : List (Fin nv)) :
    ∀ (l1 : List (Fin nv)) (fr : MMCSFrame nv H.num_edges) (violators : bitset nv),
      MMCSAlgorithm.test_vertices cutoff_size spawn H T recurse path (l1 ++ l2) fr violators
        = (MMCSAlgorithm.test_vertices cutoff_size spawn H T recurse path l1 fr violators).bind
          fun r =>
            (MMCSAlgorithm.test_vertices cutoff_size spawn H T recurse path l2 r.1 r.2.1).bind
              fun t => Run.ok (t.1, t.2.1, r.2.2 ++ t.2.2) := by
  intro l1
  induction l1 with
  | nil =>
    intro fr violators
    simp only [List.nil_append, MMCSAlgorithm.test_vertices, Run.ok_bind]
    exact (Run.bind_ok_id _).symm
  | cons v rest ih =>
    intro fr violators
    simp only [List.cons_append, MMCSAlgorithm.test_vertices, Run.bind_assoc]
    congr 1
    funext violating
    cases violating with
    | true => simp only [if_true, List.append_eq, ih]
    | false =>
      simp only [Bool.false_eq_true, if_false, Run.bind_assoc]
      congr 1
      funext upd
      congr 1
      funext done
      congr 1
      funext res
      simp only [List.append_eq, ih, Run.bind_assoc]
      congr 1
      funext r
      simp only [Run.ok_bind, Run.bind_assoc, List.append_assoc]

/-- The loop of RS over `l1 ++ l2` is the loop over `l1` followed by the loop
over `l2` from the state and after the sets of the first. -/
theorem RSAlgorithm.search_loop_append (T : Fin nv → bitset H.num_edges)
    (recurse : List (Fin nv) → RSFrame nv H.num_edges → bitset nv →
      Run (RSFrame nv H.num_edges × List (bitset nv)))
    (path : List (Fin nv)) (search_edge : Fin H.num_edges) (passed_down : bitset nv)
    (l2 : List (Fin nv)) :
    ∀ (l1 : List (Fin nv)) (fr : RSFrame nv H.num_edges),
      RSAlgorithm.search_loop cutoff_size spawn H T recurse path search_edge passed_down
          (l1 ++ l2) fr
        = (RSAlgorithm.search_loop cutoff_size spawn H T recurse path search_edge passed_down
            l1 fr).bind
          fun r =>
            (RSAlgorithm.search_loop cutoff_size spawn H T recurse path search_edge
              passed_down l2 r.1).bind
              fun t => Run.ok (t.1, r.2 ++ t.2) := by
  intro l1
  induction l1 with
  | nil =>
    intro fr
    simp only [List.nil_append, RSAlgorithm.search_loop, Run.ok_bind]
    exact (Run.bind_ok_id _).symm
  | cons v rest ih =>
    intro fr
    simp only [List.cons_append, RSAlgorithm.search_loop, Run.bind_assoc]
    congr 1
    funext upd
    by_cases htest : RSAlgorithm.any_edge_critical_after_i search_edge fr.S upd.1 = true
    · simp only [htest, if_true, Run.bind_assoc, List.append_eq, ih]
    · simp only [htest, if_false, Run.bind_assoc, Bool.false_eq_true]
      congr 1
      funext done
      congr 1
      funext res
      simp only [List.append_eq, ih, Run.bind_assoc]
      congr 1
      funext r
      simp only [Run.ok_bind, Run.bind_assoc, List.append_assoc]

/-- Under the test `recursive_call` the loop body of MMCS makes the recursive
call on the new candidate, as a task on a copy or inline. -/
theorem MMCSAlgorithm.process_candidate_of_recursive_call
    (recurse : List (Fin nv) → MMCSFrame nv H.num_edges →
      Run (MMCSFrame nv H.num_edges × List (bitset nv)))
    (path : List (Fin nv)) (fr1 : MMCSFrame nv H.num_edges)
    (h : MMCSAlgorithm.recursive_call cutoff_size fr1) :
    MMCSAlgorithm.process_candidate cutoff_size spawn H recurse path fr1
      = if spawn path = true ∧ 2 < H.num_edges then
          (recurse path fr1).bind fun sub => Run.ok (fr1, sub.2)
        else recurse path fr1 := by
  unfold MMCSAlgorithm.process_candidate
  rw [if_neg h.1, if_pos h.2]

/-- Under the test `recursive_call` the loop body of RS makes the recursive
call on the new candidate, as a task on a copy or inline. -/
theorem RSAlgorithm.rs_process_candidate_of_recursive_call
    (recurse : List (Fin nv) → RSFrame nv H.num_edges → bitset nv →
      Run (RSFrame nv H.num_edges × List (bitset nv)))
    (path : List (Fin nv)) (passed_down : bitset nv) (fr1 : RSFrame nv H.num_edges)
    (h : RSAlgorithm.recursive_call cutoff_size fr1) :
    RSAlgorithm.process_candidate cutoff_size spawn H recurse path passed_down fr1
      = if spawn path = true ∧ 2 < H.num_edges then
          (recurse path fr1 passed_down).bind fun sub => Run.ok (fr1, sub.2)
        else recurse path fr1 passed_down := by
  unfold RSAlgorithm.process_candidate
  rw [if_neg h.1, if_pos h.2]

end Loops

/-! ### Towards the scenarios and the invariants -/

section MoreLemmas

variable {nv : Nat}

/-- Under every scheduling MMCS enqueues the sets of the sequential search, each once. -/
theorem MMCSAlgorithm.mmcs_perm_sequential (cutoff_size : Nat) (spawn : List (Fin nv) → Bool)
    (H : Hypergraph nv) (h1 : H.edges ≠ []) (hnv : 0 < nv) :
    ∃ R R0, MMCSAlgorithm.transversal cutoff_size spawn H = .ok R ∧
      MMCSAlgorithm.transversal cutoff_size sequential H = .ok R0 ∧ R.edges.Perm R0.edges := by
  obtain ⟨R, hR, hnd, hchar⟩ := MMCSAlgorithm.mmcs_transversal_spec cutoff_size spawn H h1 hnv
  obtain ⟨R0, hR0, hnd0, hchar0⟩ :=
    MMCSAlgorithm.mmcs_transversal_spec cutoff_size sequential H h1 hnv
  exact ⟨R, R0, hR, hR0,
    (List.perm_ext_iff_of_nodup hnd hnd0).mpr fun S => by rw [hchar S, hchar0 S]⟩

/-- Under every scheduling RS enqueues the sets of the sequential search, each once. -/
theorem RSAlgorithm.rs_perm_sequential (cutoff_size : Nat) (spawn : List (Fin nv) → Bool)
    (H : Hypergraph nv) (h1 : H.edges ≠ []) :
    ∃ R R0, RSAlgorithm.transversal cutoff_size spawn H = .ok R ∧
      RSAlgorithm.transversal cutoff_size sequential H = .ok R0 ∧ R.edges.Perm R0.edges := by
  obtain ⟨R, hR, hnd, hchar⟩ := RSAlgorithm.rs_transversal_spec cutoff_size spawn H h1
  obtain ⟨R0, hR0, hnd0, hchar0⟩ := RSAlgorithm.rs_transversal_spec cutoff_size sequential H h1
  exact ⟨R, R0, hR, hR0,
    (List.perm_ext_iff_of_nodup hnd hnd0).mpr fun S => by rw [hchar S, hchar0 S]⟩

theorem bookkeeping_correct_iff (H : Hypergraph nv) (S : bitset nv)
    (crit : Fin nv → bitset H.num_edges) (uncov : bitset H.num_edges) :
    bookkeeping_correct H S crit uncov ↔ crit = crit_of H S ∧ uncov = uncov_of H S := by
  constructor
  · rintro ⟨h1, h2, h3⟩
    constructor
    · funext v
      by_cases hv : v ∈ S
      · ext i
        rw [h2 v hv i]
        simp [crit_of]
      · rw [h3 v hv, crit_of_eq_empty_of_not_mem H hv]
    · ext i
      rw [h1 i]
      simp [uncov_of]
  · rintro ⟨rfl, rfl⟩
    exact ⟨fun i => by simp [uncov_of], fun v _ i => by simp [crit_of],
      fun v hv => crit_of_eq_empty_of_not_mem H hv⟩

theorem transpose_unique (H : Hypergraph nv) (T : Fin nv → bitset H.num_edges)
    (hT : ∀ v i, i ∈ T v ↔ v ∈ H.edge i) : T = H.transpose := by
  funext v
  ext i
  rw [hT v i, mem_transpose]

/-- The family of the sets `crit[v]` at the bookkeeping values of `S`. -/
theorem crit_of_family (H : Hypergraph nv) (S : bitset nv) :
    (∀ v ∈ S, ∀ w ∈ S, v ≠ w → Disjoint (crit_of H S v) (crit_of H S w)) ∧
    S.biUnion (crit_of H S) = Finset.univ.filter (fun i => (H.edge i ∩ S).card = 1) ∧
    S.biUnion (crit_of H S) ⊆ Finset.univ \ uncov_of H S := by
  refine ⟨fun v _ w _ hvw => crit_of_disjoint H hvw, ?_, ?_⟩
  · ext i
    simp only [Finset.mem_biUnion, Finset.mem_filter, Finset.mem_univ, true_and,
      Finset.card_eq_one]
    constructor
    · rintro ⟨v, -, hv⟩
      exact ⟨v, by simpa [crit_of] using hv⟩
    · rintro ⟨a, ha⟩
      have : a ∈ H.edge i ∩ S := by rw [ha]; exact Finset.mem_singleton_self a
      exact ⟨a, (Finset.mem_inter.mp this).2, by simpa [crit_of] using ha⟩
  · intro i hi
    obtain ⟨v, -, hv⟩ := Finset.mem_biUnion.mp hi
    rw [Finset.mem_sdiff]
    refine ⟨Finset.mem_univ i, fun hu => ?_⟩
    have := crit_of_inter_uncov_of H S v
    rw [Finset.eq_empty_iff_forall_not_mem] at this
    exact this i (Finset.mem_inter.mpr ⟨hu, hv⟩)

/-- A frame for which the loop body makes the recursive call passes the input
specification of the callee. -/
theorem MMCSAlgorithm.input_specification_of_recursive_call {ne : Nat} (cutoff_size : Nat)
    (fr1 : MMCSFrame nv ne) (h : MMCSAlgorithm.recursive_call cutoff_size fr1) :
    MMCSAlgorithm.input_specification cutoff_size fr1 = true := by
  rw [MMCSAlgorithm.input_specification_iff]
  obtain ⟨h1, h2, h3⟩ := h
  refine ⟨Finset.nonempty_iff_ne_empty.mpr fun hu => h1 ⟨hu, ?_⟩, Finset.card_pos.mp h2, h3⟩
  rcases h3 with h3 | h3
  · exact Or.inl h3
  · exact Or.inr (le_of_lt h3)

end MoreLemmas

/-! ### Some reachable calls -/

section Examples

set_option maxRecDepth 100000

/-- In the MMCS search of `fork`, the branch of vertex 1 of the root call makes
a call with `S = {1}` and `CAND = {2, 3}`. -/
theorem fork_entered_mmcs :
    MMCSAlgorithm.entered 0 sequential fork 2 [1]
      ⟨{1}, {2, 3}, crit_of fork {1}, uncov_of fork {1}⟩ := by
  refine @MMCSAlgorithm.entered.call _ _ _ _ _ _ _ {0, 1} _ _
    MMCSAlgorithm.entered.root ?_ ?_
  · exact ⟨by decide, by decide, [], [0], ⟨∅, {2, 3}, fun _ => ∅, Finset.univ⟩, ∅, [],
      by decide, by decide, by decide, by decide⟩
  · unfold MMCSAlgorithm.recursive_call
    decide

/-- In the MMCS search of `fork`, the branch of vertex 0 of the root call comes
after that of vertex 1, which has returned 1 to `CAND`. -/
theorem fork_branch_mmcs :
    MMCSAlgorithm.branch 0 sequential fork 2 [] ⟨∅, Finset.univ, fun _ => ∅, Finset.univ⟩
      {0, 1} 0 ⟨{0}, {1, 2, 3}, crit_of fork {0}, uncov_of fork {0}⟩ :=
  ⟨by decide, by decide, [1], [], ⟨∅, {1, 2, 3}, fun _ => ∅, Finset.univ⟩, ∅, [{1, 2}],
    by decide, by decide, by decide, by decide⟩

/-- In the MMCS search of `overlap`, a call is made with `S = {0, 1}`. -/
theorem overlap_entered_mmcs :
    MMCSAlgorithm.entered 0 sequential overlap 2 [1, 0]
      ⟨{0, 1}, {2}, crit_of overlap {0, 1}, uncov_of overlap {0, 1}⟩ := by
  have h1 : MMCSAlgorithm.entered 0 sequential overlap 3 [0]
      ⟨{0}, {1, 2}, crit_of overlap {0}, uncov_of overlap {0}⟩ := by
    refine @MMCSAlgorithm.entered.call _ _ _ _ _ _ _ {0} _ _
      MMCSAlgorithm.entered.root ?_ ?_
    · exact ⟨by decide, by decide, [], [], ⟨∅, {1, 2}, fun _ => ∅, Finset.univ⟩, ∅, [],
        by decide, by decide, by decide, by decide⟩
    · unfold MMCSAlgorithm.recursive_call
      decide
  refine @MMCSAlgorithm.entered.call _ _ _ _ _ _ _ {1} _ _ h1 ?_ ?_
  · exact ⟨by decide, by decide, [], [],
      ⟨{0}, {2}, crit_of overlap {0}, uncov_of overlap {0}⟩, ∅, [],
      by decide, by decide, by decide, by decide⟩
  · unfold MMCSAlgorithm.recursive_call
    decide

/-- In the RS search of `overlap`, a call is made with `S = {0, 1}`. -/
theorem overlap_entered_rs :
    RSAlgorithm.entered 0 sequential overlap 2 [1, 0]
      ⟨{0, 1}, crit_of overlap {0, 1}, uncov_of overlap {0, 1}⟩ ∅ := by
  have h1 : RSAlgorithm.entered 0 sequential overlap 3 [0]
      ⟨{0}, crit_of overlap {0}, uncov_of overlap {0}⟩ ∅ := by
    refine @RSAlgorithm.entered.call _ _ _ _ _ _ _ _ ⟨0, by decide⟩ _ _ _
      RSAlgorithm.entered.root ?_ ?_
    · exact ⟨by decide, by decide, (∅, [0]), [], [], ⟨∅, fun _ => ∅, Finset.univ⟩, [],
        by decide, by decide, by decide, by decide, by decide, by decide⟩
    · unfold RSAlgorithm.recursive_call
      decide
  refine @RSAlgorithm.entered.call _ _ _ _ _ _ _ _ ⟨1, by decide⟩ _ _ _ h1 ?_ ?_
  · exact ⟨by decide, by decide, (∅, [1]), [], [],
      ⟨{0}, crit_of overlap {0}, uncov_of overlap {0}⟩, [],
      by decide, by decide, by decide, by decide, by decide, by decide⟩
  · unfold RSAlgorithm.recursive_call
    decide

theorem chain_mmcs_sequential :
    MMCSAlgorithm.transversal 0 sequential chain = .ok ⟨[{1, 3}, {1, 2}, {0, 2}]⟩ := by
  decide

theorem chain_rs_sequential :
    RSAlgorithm.transversal 0 sequential chain = .ok ⟨[{1, 3}, {1, 2}, {0, 2}]⟩ := by
  decide

theorem disjoint_pair_mmcs_sequential :
    MMCSAlgorithm.transversal 0 sequential disjoint_pair
      = .ok ⟨[{1, 3}, {1, 2}, {0, 3}, {0, 2}]⟩ := by
  decide

theorem disjoint_pair_rs_sequential :
    RSAlgorithm.transversal 0 sequential disjoint_pair
      = .ok ⟨[{1, 3}, {1, 2}, {0, 3}, {0, 2}]⟩ := by
  decide

theorem disjoint_pair_mmcs_cutoff :
    MMCSAlgorithm.transversal 1 sequential disjoint_pair = .ok ⟨[]⟩ := by
  decide

theorem disjoint_pair_rs_cutoff :
    RSAlgorithm.transversal 1 sequential disjoint_pair = .ok ⟨[]⟩ := by
  decide

end Examples

section Claims2

variable {nv : Nat}

set_option maxRecDepth 100000

/-- C11. Chain scenario: on the hypergraph {{0,1},{1,2},{2,3}} with 4 vertices
and without cutoff, MMCS and RS, under every scheduling of the recursive calls,
return the three edges {1,2}, {0,2}, {1,3}, each once, in some order. -/
theorem C11_chain_scenario (spawn : List (Fin 4) → Bool) :
    (∃ R, MMCSAlgorithm.transversal 0 spawn chain = .ok R ∧
      R.edges.Perm [{1, 2}, {0, 2}, {1, 3}]) ∧
    (∃ R, RSAlgorithm.transversal 0 spawn chain = .ok R ∧
      R.edges.Perm [{1, 2}, {0, 2}, {1, 3}]) := by
  have hp : List.Perm ([{1, 3}, {1, 2}, {0, 2}] : List (bitset 4)) [{1, 2}, {0, 2}, {1, 3}] :=
    (List.perm_ext_iff_of_nodup (by decide) (by decide)).mpr (by decide)
  constructor
  · obtain ⟨R, R0, hR, hR0, hperm⟩ :=
      MMCSAlgorithm.mmcs_perm_sequential 0 spawn chain (by decide) (by decide)
    rw [chain_mmcs_sequential] at hR0
    cases hR0
    exact ⟨R, hR, hperm.trans hp⟩
  · obtain ⟨R, R0, hR, hR0, hperm⟩ := RSAlgorithm.rs_perm_sequential 0 spawn chain (by decide)
    rw [chain_rs_sequential] at hR0
    cases hR0
    exact ⟨R, hR, hperm.trans hp⟩

/-- C12. Cutoff scenario: on the hypergraph {{0,1},{2,3}} with 4 vertices, MMCS
and RS with cutoff 1 return a hypergraph without edges, and without cutoff they
return the four edges {0,2}, {0,3}, {1,2}, {1,3}, each once (under every
scheduling of the recursive calls). -/
theorem C12_cutoff_scenario (spawn : List (Fin 4) → Bool) :
    (∃ R, MMCSAlgorithm.transversal 1 spawn disjoint_pair = .ok R ∧ R.edges = []) ∧
    (∃ R, RSAlgorithm.transversal 1 spawn disjoint_pair = .ok R ∧ R.edges = []) ∧
    (∃ R, MMCSAlgorithm.transversal 0 spawn disjoint_pair = .ok R ∧
      R.edges.Perm [{0, 2}, {0, 3}, {1, 2}, {1, 3}]) ∧
    (∃ R, RSAlgorithm.transversal 0 spawn disjoint_pair = .ok R ∧
      R.edges.Perm [{0, 2}, {0, 3}, {1, 2}, {1, 3}]) := by
  have hp : List.Perm ([{1, 3}, {1, 2}, {0, 3}, {0, 2}] : List (bitset 4))
      [{0, 2}, {0, 3}, {1, 2}, {1, 3}] :=
    (List.perm_ext_iff_of_nodup (by decide) (by decide)).mpr (by decide)
  refine ⟨?_, ?_, ?_, ?_⟩
  · obtain ⟨R, R0, hR, hR0, hperm⟩ :=
      MMCSAlgorithm.mmcs_perm_sequential 1 spawn disjoint_pair (by decide) (by decide)
    rw [disjoint_pair_mmcs_cutoff] at hR0
    cases hR0
    exact ⟨R, hR, List.perm_nil.mp hperm⟩
  · obtain ⟨R, R0, hR, hR0, hperm⟩ :=
      RSAlgorithm.rs_perm_sequential 1 spawn disjoint_pair (by decide)
    rw [disjoint_pair_rs_cutoff] at hR0
    cases hR0
    exact ⟨R, hR, List.perm_nil.mp hperm⟩
  · obtain ⟨R, R0, hR, hR0, hperm⟩ :=
      MMCSAlgorithm.mmcs_perm_sequential 0 spawn disjoint_pair (by decide) (by decide)
    rw [disjoint_pair_mmcs_sequential] at hR0
    cases hR0
    exact ⟨R, hR, hperm.trans hp⟩
  · obtain ⟨R, R0, hR, hR0, hperm⟩ :=
      RSAlgorithm.rs_perm_sequential 0 spawn disjoint_pair (by decide)
    rw [disjoint_pair_rs_sequential] at hR0
    cases hR0
    exact ⟨R, hR, hperm.trans hp⟩

/-- C13. Postcondition of `update_crit_and_uncov`: when `v` is not in `S` and
`crit[v]` is empty, the call succeeds with `crit[v] = T[v] ∩ uncov_old`,
`uncov = uncov_old \ T[v]`, `crit[w] = crit_old[w] \ T[v]` for `w` in `S`,
`crit[u]` unchanged outside `S ∪ {v}`, and a `critmark` whose keys are the
members of `S`, with `critmark[w] = crit_old[w] ∩ T[v]`. -/
theorem C13_update_postcondition (H : Hypergraph nv) (crit : Fin nv → bitset H.num_edges)
    (uncov : bitset H.num_edges) (T : Fin nv → bitset H.num_edges) (S : bitset nv)
    (v : Fin nv) (hv : v ∉ S) (hc : crit v = ∅) :
    ∃ crit1 uncov1 critmark,
      update_crit_and_uncov H crit uncov T S v = .ok (crit1, uncov1, critmark) ∧
      crit1 v = T v ∩ uncov ∧ uncov1 = uncov \ T v ∧
      (∀ w ∈ S, crit1 w = crit w \ T v) ∧
      (∀ u, u ∉ S → u ≠ v → crit1 u = crit u) ∧
      (∀ w, (critmark w).isSome = true ↔ w ∈ S) ∧
      (∀ w ∈ S, critmark w = some (crit w ∩ T v)) := by
  refine ⟨_, _, _, update_crit_and_uncov_eq H crit uncov T S v hv hc, ?_, rfl, ?_, ?_, ?_, ?_⟩
  · simp
  · intro w hw
    have hwv : w ≠ v := fun h => hv (h ▸ hw)
    simp [hw, hwv]
  · intro u hu huv
    simp [hu, huv]
  · intro w
    by_cases hw : w ∈ S <;> simp [hw]
  · intro w hw
    simp [hw]

theorem C13_update_postcondition_witness :
    ((1 : Fin 4) ∉ ({0} : bitset 4) ∧ crit_of chain {0} 1 = ∅) ∧
    ∃ crit1 uncov1 critmark,
      update_crit_and_uncov chain (crit_of chain {0}) (uncov_of chain {0}) chain.transpose
          {0} 1 = .ok (crit1, uncov1, critmark) ∧
      crit1 1 = chain.transpose 1 ∩ uncov_of chain {0} ∧
      uncov1 = uncov_of chain {0} \ chain.transpose 1 ∧
      (∀ w ∈ ({0} : bitset 4), crit1 w = crit_of chain {0} w \ chain.transpose 1) ∧
      (∀ u, u ∉ ({0} : bitset 4) → u ≠ 1 → crit1 u = crit_of chain {0} u) ∧
      (∀ w, (critmark w).isSome = true ↔ w ∈ ({0} : bitset 4)) ∧
      (∀ w ∈ ({0} : bitset 4), critmark w = some (crit_of chain {0} w ∩ chain.transpose 1)) :=
  ⟨⟨by decide, by decide⟩,
    C13_update_postcondition chain (crit_of chain {0}) (uncov_of chain {0}) chain.transpose
      {0} 1 (by decide) (by decide)⟩

/-- C14. The update realises the transition from `S` to `S ∪ {v}`: when `T` is
the transpose of `H`, `v` is not in `S`, and `crit` and `uncov` are correct for
`S`, the call succeeds and the new `crit` and `uncov` are correct for
`S ∪ {v}`. -/
theorem C14_update_keeps_bookkeeping_correct (H : Hypergraph nv)
    (crit : Fin nv → bitset H.num_edges) (uncov : bitset H.num_edges)
    (T : Fin nv → bitset H.num_edges) (S : bitset nv) (v : Fin nv)
    (hT : ∀ u i, i ∈ T u ↔ u ∈ H.edge i) (hv : v ∉ S)
    (hcorrect : bookkeeping_correct H S crit uncov) :
    ∃ crit1 uncov1 critmark,
      update_crit_and_uncov H crit uncov T S v = .ok (crit1, uncov1, critmark) ∧
      bookkeeping_correct H (insert v S) crit1 uncov1 := by
  obtain ⟨rfl, rfl⟩ := (bookkeeping_correct_iff H S crit uncov).mp hcorrect
  rw [transpose_unique H T hT]
  obtain ⟨critmark, hupd, -⟩ := update_crit_and_uncov_correct H S v hv
  exact ⟨_, _, critmark, hupd, (bookkeeping_correct_iff H _ _ _).mpr ⟨rfl, rfl⟩⟩

theorem C14_update_keeps_bookkeeping_correct_witness :
    ((∀ u i, i ∈ chain.transpose u ↔ u ∈ chain.edge i) ∧ (1 : Fin 4) ∉ ({0} : bitset 4) ∧
      bookkeeping_correct chain {0} (crit_of chain {0}) (uncov_of chain {0})) ∧
    ∃ crit1 uncov1 critmark,
      update_crit_and_uncov chain (crit_of chain {0}) (uncov_of chain {0}) chain.transpose
          {0} 1 = .ok (crit1, uncov1, critmark) ∧
      bookkeeping_correct chain (insert 1 {0}) crit1 uncov1 :=
  ⟨⟨fun _ _ => mem_transpose chain, by decide,
      (bookkeeping_correct_iff chain _ _ _).mpr ⟨rfl, rfl⟩⟩,
    C14_update_keeps_bookkeeping_correct chain (crit_of chain {0}) (uncov_of chain {0})
      chain.transpose {0} 1 (fun _ _ => mem_transpose chain) (by decide)
      ((bookkeeping_correct_iff chain _ _ _).mpr ⟨rfl, rfl⟩)⟩

/-- C15. Meaning of `vertex_would_violate`: when `T` is the transpose of `H`,
`v` is not in `S`, and `crit` and `uncov` are correct for `S`, the test and the
update both succeed, and the test answers true exactly when some `w` in `S` has
`crit[w] ⊆ T[v] \ uncov`, exactly when some `w` in `S` has `crit[w]` empty
after the update, exactly when some `w` in `S` is the only vertex of `S ∪ {v}`
in no edge of `H`. -/
theorem C15_vertex_would_violate_meaning (H : Hypergraph nv)
    (crit : Fin nv → bitset H.num_edges) (uncov : bitset H.num_edges)
    (T : Fin nv → bitset H.num_edges) (S : bitset nv) (v : Fin nv)
    (hT : ∀ u i, i ∈ T u ↔ u ∈ H.edge i) (hv : v ∉ S)
    (hcorrect : bookkeeping_correct H S crit uncov) :
    ∃ answer crit1 uncov1 critmark,
      vertex_would_violate H crit uncov T S v = .ok answer ∧
      update_crit_and_uncov H crit uncov T S v = .ok (crit1, uncov1, critmark) ∧
      (answer = true ↔ ∃ w ∈ S, crit w ⊆ T v \ uncov) ∧
      (answer = true ↔ ∃ w ∈ S, crit1 w = ∅) ∧
      (answer = true ↔ ∃ w ∈ S, ∀ e ∈ H.edges, e ∩ insert v S ≠ {w}) ∧
      (answer = true → ¬ H.MinHit (insert v S)) := by
  obtain ⟨rfl, rfl⟩ := (bookkeeping_correct_iff H S crit uncov).mp hcorrect
  rw [transpose_unique H T hT]
  obtain ⟨critmark, hupd, -⟩ := update_crit_and_uncov_correct H S v hv
  have h1 := vertex_would_violate_eq H (crit_of H S) (uncov_of H S) H.transpose S v hv
    (crit_of_eq_empty_of_not_mem H hv)
  have h2 := vertex_would_violate_correct H S v hv
  rw [h1] at h2
  have h3 := Run.ok.inj h2
  refine ⟨_, _, _, critmark, h1, hupd, by simp, ?_, ?_, ?_⟩
  · rw [h3]
    simp
  · rw [h3]
    simp only [decide_eq_true_eq]
    refine exists_congr fun w => and_congr_right fun _ => ?_
    rw [← Finset.not_nonempty_iff_eq_empty, crit_of_nonempty_iff]
    push_neg
    rfl
  · rw [h3]
    simp only [decide_eq_true_eq]
    rintro ⟨w, hw, hcw⟩ hM
    have := ((MinHit_iff H).mp hM).2 w (Finset.mem_insert_of_mem hw)
    rw [hcw] at this
    exact Finset.not_nonempty_empty this

theorem C15_vertex_would_violate_meaning_witness :
    ((∀ u i, i ∈ chain.transpose u ↔ u ∈ chain.edge i) ∧ (1 : Fin 4) ∉ ({0} : bitset 4) ∧
      bookkeeping_correct chain {0} (crit_of chain {0}) (uncov_of chain {0})) ∧
    ∃ answer crit1 uncov1 critmark,
      vertex_would_violate chain (crit_of chain {0}) (uncov_of chain {0}) chain.transpose
          {0} 1 = .ok answer ∧
      update_crit_and_uncov chain (crit_of chain {0}) (uncov_of chain {0}) chain.transpose
          {0} 1 = .ok (crit1, uncov1, critmark) ∧
      (answer = true ↔
        ∃ w ∈ ({0} : bitset 4), crit_of chain {0} w ⊆ chain.transpose 1 \ uncov_of chain {0}) ∧
      (answer = true ↔ ∃ w ∈ ({0} : bitset 4), crit1 w = ∅) ∧
      (answer = true ↔
        ∃ w ∈ ({0} : bitset 4), ∀ e ∈ chain.edges, e ∩ insert 1 {0} ≠ {w}) ∧
      (answer = true → ¬ chain.MinHit (insert 1 {0})) :=
  ⟨⟨fun _ _ => mem_transpose chain, by decide,
      (bookkeeping_correct_iff chain _ _ _).mpr ⟨rfl, rfl⟩⟩,
    C15_vertex_would_violate_meaning chain (crit_of chain {0}) (uncov_of chain {0})
      chain.transpose {0} 1 (fun _ _ => mem_transpose chain) (by decide)
      ((bookkeeping_correct_iff chain _ _ _).mpr ⟨rfl, rfl⟩)⟩

/-- C16. Postcondition of `restore_crit_and_uncov`: when `v` is not in `S` and
`uncov ∩ crit[v]` is empty, the call succeeds (also when keys are missing in
`critmark`) with `uncov = uncov_old ∪ crit_old[v]`, `crit[v] = ∅`,
`crit[w] = crit_old[w] ∪ critmark[w]` for the `w` in `S` that are keys of
`critmark`, `crit[w]` unchanged for the `w` in `S` that are not, and `crit[u]`
unchanged outside `S ∪ {v}`. -/
theorem C16_restore_postcondition {ne : Nat} (crit : Fin nv → bitset ne) (uncov : bitset ne)
    (S : bitset nv) (critmark : hsetmap nv ne) (v : Fin nv) (hv : v ∉ S)
    (hd : uncov ∩ crit v = ∅) :
    ∃ crit1 uncov1,
      restore_crit_and_uncov crit uncov S critmark v = .ok (crit1, uncov1) ∧
      uncov1 = uncov ∪ crit v ∧ crit1 v = ∅ ∧
      (∀ w ∈ S, ∀ marked, critmark w = some marked → crit1 w = crit w ∪ marked) ∧
      (∀ w ∈ S, critmark w = none → crit1 w = crit w) ∧
      (∀ u, u ∉ S → u ≠ v → crit1 u = crit u) := by
  refine ⟨_, _, restore_crit_and_uncov_eq crit uncov S critmark v hv hd, rfl, ?_, ?_, ?_, ?_⟩
  · simp [hv]
  · intro w hw marked hm
    simp [hw, hm]
  · intro w hw hm
    simp [hw, hm]
  · intro u hu huv
    simp [hu, huv]

theorem C16_restore_postcondition_witness :
    ((1 : Fin 4) ∉ ({0} : bitset 4) ∧
      uncov_of chain {0, 1} ∩ crit_of chain {0, 1} 1 = ∅) ∧
    ∃ crit1 uncov1,
      restore_crit_and_uncov (crit_of chain {0, 1}) (uncov_of chain {0, 1}) {0}
          (fun _ => none) 1 = .ok (crit1, uncov1) ∧
      uncov1 = uncov_of chain {0, 1} ∪ crit_of chain {0, 1} 1 ∧ crit1 1 = ∅ ∧
      (∀ w ∈ ({0} : bitset 4), ∀ marked, (fun _ => none : hsetmap 4 chain.num_edges) w
        = some marked → crit1 w = crit_of chain {0, 1} w ∪ marked) ∧
      (∀ w ∈ ({0} : bitset 4), (fun _ => none : hsetmap 4 chain.num_edges) w = none →
        crit1 w = crit_of chain {0, 1} w) ∧
      (∀ u, u ∉ ({0} : bitset 4) → u ≠ 1 → crit1 u = crit_of chain {0, 1} u) :=
  ⟨⟨by decide, by decide⟩,
    C16_restore_postcondition (crit_of chain {0, 1}) (uncov_of chain {0, 1}) {0}
      (fun _ => none) 1 (by decide) (by decide)⟩

end Claims2

section Claims3

variable {nv : Nat}

set_option maxRecDepth 100000

/-- C17. Bookkeeping invariants 1 and 2: for a hypergraph with at least one
edge, every cutoff and every scheduling, at the entry of every call of
`extend_or_confirm_set` reachable from the root call, in MMCS and in RS,
`uncov` holds the edges that `S` does not meet, `crit[v]` holds the edges whose
only vertex in `S` is `v` for `v` in `S`, and `crit[v]` is empty for `v`
outside `S`. -/
theorem C17_bookkeeping_invariants (H : Hypergraph nv) (_h1 : H.edges ≠ [])
    (cutoff_size : Nat) (spawn : List (Fin nv) → Bool) :
    (∀ fuel path fr, MMCSAlgorithm.entered cutoff_size spawn H fuel path fr →
      bookkeeping_correct H fr.S fr.crit fr.uncov) ∧
    (∀ fuel path fr violating_vertices,
      RSAlgorithm.entered cutoff_size spawn H fuel path fr violating_vertices →
      bookkeeping_correct H fr.S fr.crit fr.uncov) := by
  constructor
  · intro fuel path fr h
    obtain ⟨h1, h2, -, -⟩ := MMCSAlgorithm.entered_spec cutoff_size spawn H h
    exact (bookkeeping_correct_iff H _ _ _).mpr ⟨h1, h2⟩
  · intro fuel path fr vv h
    obtain ⟨h1, h2, -, -, -⟩ := RSAlgorithm.rs_entered_spec cutoff_size spawn H h
    exact (bookkeeping_correct_iff H _ _ _).mpr ⟨h1, h2⟩

theorem C17_bookkeeping_invariants_witness :
    (overlap.edges ≠ [] ∧
      MMCSAlgorithm.entered 0 sequential overlap 2 [1, 0]
        ⟨{0, 1}, {2}, crit_of overlap {0, 1}, uncov_of overlap {0, 1}⟩ ∧
      RSAlgorithm.entered 0 sequential overlap 2 [1, 0]
        ⟨{0, 1}, crit_of overlap {0, 1}, uncov_of overlap {0, 1}⟩ ∅) ∧
    bookkeeping_correct overlap {0, 1} (crit_of overlap {0, 1}) (uncov_of overlap {0, 1}) :=
  ⟨⟨by decide, overlap_entered_mmcs, overlap_entered_rs⟩,
    (C17_bookkeeping_invariants overlap (by decide) 0 sequential).1 _ _ _
      overlap_entered_mmcs⟩

/-- C18, as the code has it. At the entry of every call of
`extend_or_confirm_set` reachable from the root call, in MMCS and in RS, the
sets `crit[v]` for `v` in `S` are pairwise disjoint and their union is the set
of the edges that contain exactly one vertex of `S`; this union lies in
`E \ uncov`, which also holds the edges with two or more vertices of `S`. -/
theorem C18_crit_family (H : Hypergraph nv) (_h1 : H.edges ≠ [])
    (cutoff_size : Nat) (spawn : List (Fin nv) → Bool) :
    (∀ fuel path fr, MMCSAlgorithm.entered cutoff_size spawn H fuel path fr →
      (∀ v ∈ fr.S, ∀ w ∈ fr.S, v ≠ w → Disjoint (fr.crit v) (fr.crit w)) ∧
      fr.S.biUnion fr.crit = Finset.univ.filter (fun i => (H.edge i ∩ fr.S).card = 1) ∧
      fr.S.biUnion fr.crit ⊆ Finset.univ \ fr.uncov) ∧
    (∀ fuel path fr violating_vertices,
      RSAlgorithm.entered cutoff_size spawn H fuel path fr violating_vertices →
      (∀ v ∈ fr.S, ∀ w ∈ fr.S, v ≠ w → Disjoint (fr.crit v) (fr.crit w)) ∧
      fr.S.biUnion fr.crit = Finset.univ.filter (fun i => (H.edge i ∩ fr.S).card = 1) ∧
      fr.S.biUnion fr.crit ⊆ Finset.univ \ fr.uncov) := by
  constructor
  · intro fuel path fr h
    obtain ⟨h1, h2, -, -⟩ := MMCSAlgorithm.entered_spec cutoff_size spawn H h
    rw [h1, h2]
    exact crit_of_family H fr.S
  · intro fuel path fr vv h
    obtain ⟨h1, h2, -, -, -⟩ := RSAlgorithm.rs_entered_spec cutoff_size spawn H h
    rw [h1, h2]
    exact crit_of_family H fr.S

theorem C18_crit_family_witness :
    (overlap.edges ≠ [] ∧
      RSAlgorithm.entered 0 sequential overlap 2 [1, 0]
        ⟨{0, 1}, crit_of overlap {0, 1}, uncov_of overlap {0, 1}⟩ ∅) ∧
    ((∀ v ∈ ({0, 1} : bitset 3), ∀ w ∈ ({0, 1} : bitset 3), v ≠ w →
        Disjoint (crit_of overlap {0, 1} v) (crit_of overlap {0, 1} w)) ∧
      ({0, 1} : bitset 3).biUnion (crit_of overlap {0, 1})
        = Finset.univ.filter (fun i => (overlap.edge i ∩ {0, 1}).card = 1) ∧
      ({0, 1} : bitset 3).biUnion (crit_of overlap {0, 1})
        ⊆ Finset.univ \ uncov_of overlap {0, 1}) :=
  ⟨⟨by decide, overlap_entered_rs⟩,
    (C18_crit_family overlap (by decide) 0 sequential).2 _ _ _ _ overlap_entered_rs⟩

/-- C18, as the claim has it, fails: in the search of {{0},{1},{2},{0,1}} both
engines make a call with `S = {0, 1}`, where the edge {0,1} is neither in
`uncov` nor in a `crit[v]`, so the union of the `crit[v]` is not `E \ uncov`. -/
theorem C18_union_is_not_complement_of_uncov :
    overlap.edges ≠ [] ∧
    (∃ fuel path fr, MMCSAlgorithm.entered 0 sequential overlap fuel path fr ∧
      fr.S.biUnion fr.crit ≠ Finset.univ \ fr.uncov) ∧
    (∃ fuel path fr violating_vertices,
      RSAlgorithm.entered 0 sequential overlap fuel path fr violating_vertices ∧
      fr.S.biUnion fr.crit ≠ Finset.univ \ fr.uncov) :=
  ⟨by decide, ⟨_, _, _, overlap_entered_mmcs, by decide⟩,
    ⟨_, _, _, _, overlap_entered_rs, by decide⟩⟩

/-- C19, as the code has it. For a hypergraph with at least one edge and at
least one vertex, a call of `MMCSAlgorithm::extend_or_confirm_set` reachable
from the root call returns with its frame state unchanged, and the sets it
enqueues are exactly the minimal hitting sets that contain `S`, lie in
`S ∪ CAND` (with `S` and `CAND` as passed in) and are admitted by the cutoff. -/
theorem C19_candidate_invariant (H : Hypergraph nv) (h1 : H.edges ≠ []) (hnv : 0 < nv)
    (cutoff_size : Nat) (spawn : List (Fin nv) → Bool) (fuel : Nat) (path : List (Fin nv))
    (fr : MMCSFrame nv H.num_edges)
    (h : MMCSAlgorithm.entered cutoff_size spawn H fuel path fr) :
    ∃ out, MMCSAlgorithm.extend_or_confirm_set cutoff_size spawn H H.transpose fuel path fr
        = .ok (fr, out) ∧
      ∀ M, M ∈ out ↔
        (H.MinHit M ∧ fr.S ⊆ M ∧ M ⊆ fr.S ∪ fr.CAND ∧ within_cutoff cutoff_size M) := by
  have hin : MMCSAlgorithm.input_specification cutoff_size fr = true := by
    cases h with
    | root =>
      rw [MMCSAlgorithm.input_specification_iff]
      refine ⟨⟨⟨0, List.length_pos.mpr h1⟩, Finset.mem_univ _⟩,
        ⟨⟨0, hnv⟩, Finset.mem_univ _⟩, ?_⟩
      simp only [Finset.card_empty]
      omega
    | call _ _ hrc => exact MMCSAlgorithm.input_specification_of_recursive_call _ _ hrc
  obtain ⟨hcrit, huncov, hirr, hfuel⟩ := MMCSAlgorithm.entered_spec cutoff_size spawn H h
  obtain ⟨S, CAND, crit, uncov⟩ := fr
  simp only at hcrit huncov hirr hfuel
  subst hcrit huncov
  rw [MMCSAlgorithm.input_specification_iff] at hin
  obtain ⟨out, heq, -, hchar⟩ := MMCSAlgorithm.mmcs_frame_spec cutoff_size spawn H fuel path
    S CAND hirr hin.1 hin.2.1 hin.2.2 hfuel
  exact ⟨out, heq, hchar⟩

theorem C19_candidate_invariant_witness :
    (fork.edges ≠ [] ∧ 0 < 4 ∧
      MMCSAlgorithm.entered 0 sequential fork 2 [1]
        ⟨{1}, {2, 3}, crit_of fork {1}, uncov_of fork {1}⟩) ∧
    ∃ out, MMCSAlgorithm.extend_or_confirm_set 0 sequential fork fork.transpose 2 [1]
          ⟨{1}, {2, 3}, crit_of fork {1}, uncov_of fork {1}⟩
        = .ok (⟨{1}, {2, 3}, crit_of fork {1}, uncov_of fork {1}⟩, out) ∧
      ∀ M, M ∈ out ↔
        (fork.MinHit M ∧ {1} ⊆ M ∧ M ⊆ {1} ∪ {2, 3} ∧ within_cutoff 0 M) :=
  ⟨⟨by decide, by decide, fork_entered_mmcs⟩,
    C19_candidate_invariant fork (by decide) (by decide) 0 sequential 2 [1] _
      fork_entered_mmcs⟩

/-- C19, as the claim has it, fails: in the MMCS search of {{0,1},{0,2},{1,3}}
the call made with `S = {1}` has `CAND = {2, 3}`, and {0, 1} is a minimal
hitting set that contains `S` and is not a subset of `S ∪ CAND`. -/
theorem C19_minimal_hitting_set_outside_candidates :
    fork.edges ≠ [] ∧
    ∃ fuel path fr, MMCSAlgorithm.entered 0 sequential fork fuel path fr ∧
      ∃ M, (fork.hits M ∧ ∀ S', S' ⊂ M → ¬ fork.hits S') ∧ fr.S ⊆ M ∧ ¬ M ⊆ fr.S ∪ fr.CAND :=
  ⟨by decide, _, _, _, fork_entered_mmcs, {0, 1},
    (MinHit_iff_hits_critically fork).mpr (by unfold Hypergraph.hits_critically; decide),
    by decide, by decide⟩

/-- C20, as the code has it. In every MMCS frame reachable from the root, with
selected edge `e`, the branch of a vertex `v` has `v` in `C = CAND ∩ e`, and
every set enqueued inside the branch (by the emission or the recursion that
follows `S := S ∪ {v}`) is a hitting set that has `v` as its smallest-index
vertex of `e`: it contains `v` and no vertex of `e` whose index is smaller. -/
theorem C20_branch_commitment (H : Hypergraph nv) (cutoff_size : Nat)
    (spawn : List (Fin nv) → Bool) (fuel : Nat) (path : List (Fin nv))
    (fr : MMCSFrame nv H.num_edges) (e : bitset nv) (v : Fin nv)
    (fr1 : MMCSFrame nv H.num_edges)
    (h : MMCSAlgorithm.entered cutoff_size spawn H (fuel + 1) path fr)
    (hb : MMCSAlgorithm.branch cutoff_size spawn H fuel path fr e v fr1) :
    v ∈ fr.CAND ∩ e ∧
    ∃ out, MMCSAlgorithm.process_candidate cutoff_size spawn H
          (MMCSAlgorithm.extend_or_confirm_set cutoff_size spawn H H.transpose fuel)
          (v :: path) fr1 = .ok (fr1, out) ∧
      ∀ M ∈ out, H.hits M ∧ v ∈ M ∧ ∀ u ∈ e, u ∈ M → v ≤ u := by
  obtain ⟨hcrit, huncov, -, hfuel⟩ := MMCSAlgorithm.entered_spec cutoff_size spawn H h
  obtain ⟨S, CAND, crit, uncov⟩ := fr
  simp only at hcrit huncov hfuel
  subst hcrit huncov
  obtain ⟨j, CAND1, hj, hej, hvC, hve, hvS, hnviol, hcut, hfr1, -, hlarger⟩ :=
    MMCSAlgorithm.branch_spec cutoff_size spawn H fuel path S CAND e v fr1 hfuel hb
  subst hfr1
  have hvne : (H.transpose v ∩ uncov_of H S).Nonempty :=
    ⟨j, Finset.mem_inter.mpr ⟨(mem_transpose H).mpr (hej ▸ hve), hj⟩⟩
  have hlt := uncov_of_insert_card_lt H hvne
  have hcut1 : cutoff_size = 0 ∨ (insert v S).card ≤ cutoff_size := by
    rw [Finset.card_insert_of_not_mem hvS]
    omega
  obtain ⟨out, heq, -, hchar⟩ := MMCSAlgorithm.mmcs_process_candidate_spec cutoff_size spawn H
    (MMCSAlgorithm.extend_or_confirm_set cutoff_size spawn H H.transpose fuel) fuel
    (MMCSAlgorithm.mmcs_frame_spec cutoff_size spawn H fuel) (v :: path) (insert v S) CAND1
    (irredundant_insert H hvS hnviol hvne) hcut1 (by omega)
  refine ⟨Finset.mem_inter.mpr ⟨hvC, hve⟩, out, heq, fun M hM => ?_⟩
  obtain ⟨hmin, hsub, hsup, -⟩ := (hchar M).mp hM
  refine ⟨hmin.1, hsub (Finset.mem_insert_self v S), fun u hue huM => ?_⟩
  rcases Finset.mem_union.mp (hsup huM) with hu | hu
  · rcases Finset.mem_insert.mp hu with hu | hu
    · exact le_of_eq hu.symm
    · exact absurd hu ((mem_uncov_of H).mp hj u (hej ▸ hue))
  · exact le_of_lt (hlarger u hu hue)

theorem C20_branch_commitment_witness :
    (MMCSAlgorithm.entered 0 sequential fork (2 + 1) []
        ⟨∅, Finset.univ, fun _ => ∅, Finset.univ⟩ ∧
      MMCSAlgorithm.branch 0 sequential fork 2 [] ⟨∅, Finset.univ, fun _ => ∅, Finset.univ⟩
        {0, 1} 0 ⟨{0}, {1, 2, 3}, crit_of fork {0}, uncov_of fork {0}⟩) ∧
    ((0 : Fin 4) ∈ (Finset.univ : bitset 4) ∩ {0, 1} ∧
    ∃ out, MMCSAlgorithm.process_candidate 0 sequential fork
          (MMCSAlgorithm.extend_or_confirm_set 0 sequential fork fork.transpose 2)
          [0] ⟨{0}, {1, 2, 3}, crit_of fork {0}, uncov_of fork {0}⟩
        = .ok (⟨{0}, {1, 2, 3}, crit_of fork {0}, uncov_of fork {0}⟩, out) ∧
      ∀ M ∈ out, fork.hits M ∧ 0 ∈ M ∧ ∀ u ∈ ({0, 1} : bitset 4), u ∈ M → 0 ≤ u) :=
  ⟨⟨MMCSAlgorithm.entered.root, fork_branch_mmcs⟩,
    C20_branch_commitment fork 0 sequential 2 [] _ {0, 1} 0 _ MMCSAlgorithm.entered.root
      fork_branch_mmcs⟩

/-- C20, as the claim has it, fails: in the MMCS search of {{0,1},{0,2},{1,3}}
the root frame selects `e = {0, 1}`, and the branch of vertex 0 enqueues
{0, 1}, which contains the vertex 1 of `e`, of larger index than 0. -/
theorem C20_branch_holds_larger_vertex :
    MMCSAlgorithm.entered 0 sequential fork (2 + 1) []
      ⟨∅, Finset.univ, fun _ => ∅, Finset.univ⟩ ∧
    MMCSAlgorithm.branch 0 sequential fork 2 [] ⟨∅, Finset.univ, fun _ => ∅, Finset.univ⟩
      {0, 1} 0 ⟨{0}, {1, 2, 3}, crit_of fork {0}, uncov_of fork {0}⟩ ∧
    MMCSAlgorithm.process_candidate 0 sequential fork
        (MMCSAlgorithm.extend_or_confirm_set 0 sequential fork fork.transpose 2)
        [0] ⟨{0}, {1, 2, 3}, crit_of fork {0}, uncov_of fork {0}⟩
      = .ok (⟨{0}, {1, 2, 3}, crit_of fork {0}, uncov_of fork {0}⟩, [{0, 3}, {0, 1}]) ∧
    ∃ M ∈ ([{0, 3}, {0, 1}] : List (bitset 4)), ∃ u ∈ ({0, 1} : bitset 4),
      u ∈ M ∧ (0 : Fin 4) < u :=
  ⟨MMCSAlgorithm.entered.root, fork_branch_mmcs, by decide,
    {0, 1}, by decide, 1, by decide, by decide, by decide⟩

end Claims3

/-! ### The edge selection of MMCS -/

section Selection

variable {nv : Nat} (H : Hypergraph nv)

/-- The scan of the M+U selection over an ascending list of indices, started
with the edge of index `j0` that is not after them, ends with the edge of the
first index that minimises the size of the intersection with `CAND`. -/
theorem MMCSAlgorithm.select_edge_scan (CAND : bitset nv) :
    ∀ (l : List (Fin H.num_edges)) (j0 : Fin H.num_edges), l.Pairwise (· < ·) →
      (∀ i ∈ l, j0 ≤ i) →
      ∃ j, l.foldl
          (fun e search_edge =>
            if (H.edge search_edge ∩ CAND).card < (e ∩ CAND).card then H.edge search_edge
            else e)
          (H.edge j0) = H.edge j ∧
        (j = j0 ∨ j ∈ l) ∧
        (j ≠ j0 → (H.edge j ∩ CAND).card < (H.edge j0 ∩ CAND).card) ∧
        (H.edge j ∩ CAND).card ≤ (H.edge j0 ∩ CAND).card ∧
        (∀ i ∈ l, (H.edge j ∩ CAND).card ≤ (H.edge i ∩ CAND).card) ∧
        (∀ i, (i = j0 ∨ i ∈ l) → i < j →
          (H.edge j ∩ CAND).card < (H.edge i ∩ CAND).card) := by
  intro l
  induction l with
  | nil =>
    intro j0 _ _
    refine ⟨j0, rfl, Or.inl rfl, fun h => absurd rfl h, le_refl _, fun i hi => ?_,
      fun i hi hlt => ?_⟩
    · exact absurd hi (List.not_mem_nil i)
    · rcases hi with hi | hi
      · rw [hi] at hlt
        exact absurd hlt (lt_irrefl _)
      · exact absurd hi (List.not_mem_nil i)
  | cons a l ih =>
    intro j0 hsort hle
    rw [List.pairwise_cons] at hsort
    rw [List.foldl_cons]
    have ha : j0 ≤ a := hle a (List.mem_cons_self a l)
    by_cases hlt : (H.edge a ∩ CAND).card < (H.edge j0 ∩ CAND).card
    · rw [if_pos hlt]
      obtain ⟨j, hfold, hmem, hne, hle0, hmin, hfirst⟩ :=
        ih a hsort.2 (fun i hi => le_of_lt (hsort.1 i hi))
      have hja : a ≤ j := by
        rcases hmem with h | h
        · exact le_of_eq h.symm
        · exact le_of_lt (hsort.1 j h)
      refine ⟨j, hfold, ?_, fun _ => lt_of_le_of_lt hle0 hlt, le_of_lt (lt_of_le_of_lt hle0 hlt),
        fun i hi => ?_, fun i hi hij => ?_⟩
      · rcases hmem with h | h
        · exact Or.inr (h ▸ List.mem_cons_self a l)
        · exact Or.inr (List.mem_cons_of_mem a h)
      · rcases List.mem_cons.mp hi with h | h
        · rw [h]
          exact hle0
        · exact hmin i h
      · rcases hi with h | h
        · rw [h]
          exact lt_of_le_of_lt hle0 hlt
        · rcases List.mem_cons.mp h with h | h
          · exact hfirst i (Or.inl h) hij
          · exact hfirst i (Or.inr h) hij
    · rw [if_neg hlt]
      obtain ⟨j, hfold, hmem, hne, hle0, hmin, hfirst⟩ :=
        ih j0 hsort.2 (fun i hi => hle i (List.mem_cons_of_mem a hi))
      refine ⟨j, hfold, ?_, hne, hle0, fun i hi => ?_, fun i hi hij => ?_⟩
      · rcases hmem with h | h
        · exact Or.inl h
        · exact Or.inr (List.mem_cons_of_mem a h)
      · rcases List.mem_cons.mp hi with h | h
        · rw [h]
          exact le_trans hle0 (not_lt.mp hlt)
        · exact hmin i h
      · rcases hi with h | h
        · exact hfirst i (Or.inl h) hij
        · rcases List.mem_cons.mp h with h | h
          · rw [h]
            by_cases hj : j = j0
            · rw [hj, h] at hij
              exact absurd hij (not_lt.mpr ha)
            · exact lt_of_lt_of_le (hne hj) (not_lt.mp hlt)
          · exact hfirst i (Or.inr h) hij

/-- The edge that the M+U selection chooses: the edge of the smallest index of
`uncov` among those whose edge has a smallest intersection with `CAND`. -/
theorem MMCSAlgorithm.select_edge_first_minimum (CAND : bitset nv)
    (uncov : bitset H.num_edges) (first : Fin H.num_edges)
    (hf : find_first uncov = some first) :
    ∃ j ∈ uncov,
      (∀ i ∈ uncov, (H.edge j ∩ CAND).card ≤ (H.edge i ∩ CAND).card) ∧
      (∀ i ∈ uncov, (H.edge i ∩ CAND).card = (H.edge j ∩ CAND).card → j ≤ i) ∧
      MMCSAlgorithm.select_edge H CAND uncov first = H.edge j := by
  have hmin := find_first_eq_some.mp hf
  obtain ⟨j, hfold, hmem, -, -, hle, hfirst⟩ :=
    MMCSAlgorithm.select_edge_scan H CAND (members uncov) first (members_sorted uncov)
      (fun i hi => hmin.2 i ((mem_members uncov i).mp hi))
  have hj : j ∈ uncov := by
    rcases hmem with h | h
    · rw [h]
      exact hmin.1
    · exact (mem_members uncov j).mp h
  refine ⟨j, hj, fun i hi => hle i ((mem_members uncov i).mpr hi), fun i hi heq => ?_, hfold⟩
  by_contra hlt
  have := hfirst i (Or.inr ((mem_members uncov i).mpr hi)) (not_le.mp hlt)
  omega

end Selection

/-! ### The iterations of the loops -/

section MMCSIterations

variable {nv : Nat} (cutoff_size : Nat) (spawn : List (Fin nv) → Bool) (H : Hypergraph nv)

/-- The sets `CAND` and `violators` after the loop of MMCS: the violating
vertices of the list have joined `violators`, the others have joined `CAND`. -/
theorem MMCSAlgorithm.test_vertices_violators
    (recurse : List (Fin nv) → MMCSFrame nv H.num_edges →
      Run (MMCSFrame nv H.num_edges × List (bitset nv)))
    (fuel : Nat) (hrec : MMCSAlgorithm.call_contract cutoff_size H recurse fuel)
    (S : bitset nv) (hcut : cutoff_size = 0 ∨ S.card < cutoff_size)
    (hfuel : (uncov_of H S).card ≤ fuel + 1) (path : List (Fin nv)) :
    ∀ (l : List (Fin nv)) (CANDc violators : bitset nv),
      (∀ v ∈ l, v ∉ S ∧ (H.transpose v ∩ uncov_of H S).Nonempty) →
      ∃ CAND' violators' out,
        MMCSAlgorithm.test_vertices cutoff_size spawn H H.transpose recurse path l
            ⟨S, CANDc, crit_of H S, uncov_of H S⟩ violators
          = .ok (⟨S, CAND', crit_of H S, uncov_of H S⟩, violators', out) ∧
        (∀ u, u ∈ violators' ↔ u ∈ violators ∨ (u ∈ l ∧ violating H S u)) ∧
        (∀ u, u ∈ CAND' ↔ u ∈ CANDc ∨ (u ∈ l ∧ ¬ violating H S u)) := by
  intro l
  induction l with
  | nil =>
    intro CANDc violators _
    exact ⟨CANDc, violators, [], rfl, by simp, by simp⟩
  | cons v rest ih =>
    intro CANDc violators hl
    obtain ⟨hvS, hvne⟩ := hl v (List.mem_cons_self v rest)
    have hl' : ∀ u ∈ rest, u ∉ S ∧ (H.transpose u ∩ uncov_of H S).Nonempty :=
      fun u hu => hl u (List.mem_cons_of_mem v hu)
    unfold MMCSAlgorithm.test_vertices
    simp only
    rw [vertex_would_violate_correct H S v hvS, Run.ok_bind]
    by_cases hviol : ∃ w ∈ S, crit_of H (insert v S) w = ∅
    · rw [if_pos (by simpa using hviol)]
      obtain ⟨CAND', violators', out, heq, hvio, hcand⟩ := ih CANDc (insert v violators) hl'
      refine ⟨CAND', violators', out, heq, fun u => ?_, fun u => ?_⟩
      · rw [hvio u, Finset.mem_insert, List.mem_cons]
        constructor
        · rintro ((h | h) | h)
          · exact Or.inr ⟨Or.inl h, h ▸ hviol⟩
          · exact Or.inl h
          · exact Or.inr ⟨Or.inr h.1, h.2⟩
        · rintro (h | ⟨h | h, h2⟩)
          · exact Or.inl (Or.inr h)
          · exact Or.inl (Or.inl h)
          · exact Or.inr ⟨h, h2⟩
      · rw [hcand u, List.mem_cons]
        constructor
        · rintro (h | h)
          · exact Or.inl h
          · exact Or.inr ⟨Or.inr h.1, h.2⟩
        · rintro (h | ⟨h | h, h2⟩)
          · exact Or.inl h
          · exact absurd (h ▸ hviol) h2
          · exact Or.inr ⟨h, h2⟩
    · rw [if_neg (by simpa using hviol)]
      obtain ⟨critmark, hupd, hres⟩ := update_crit_and_uncov_correct H S v hvS
      rw [hupd, Run.ok_bind]
      simp only
      have hS1 := irredundant_insert H hvS hviol hvne
      have hlt := uncov_of_insert_card_lt H hvne
      have hcut1 : cutoff_size = 0 ∨ (insert v S).card ≤ cutoff_size := by
        rw [Finset.card_insert_of_not_mem hvS]
        omega
      obtain ⟨outv, heqv, -, -⟩ := MMCSAlgorithm.mmcs_process_candidate_spec cutoff_size
        spawn H recurse fuel hrec (v :: path) (insert v S) CANDc hS1 hcut1 (by omega)
      rw [heqv, Run.ok_bind]
      simp only [Finset.erase_insert hvS]
      rw [hres, Run.ok_bind]
      simp only
      obtain ⟨CAND', violators', outr, heqr, hvio, hcand⟩ := ih (insert v CANDc) violators hl'
      rw [heqr, Run.ok_bind]
      refine ⟨CAND', violators', outv ++ outr, rfl, fun u => ?_, fun u => ?_⟩
      · rw [hvio u, List.mem_cons]
        constructor
        · rintro (h | h)
          · exact Or.inl h
          · exact Or.inr ⟨Or.inr h.1, h.2⟩
        · rintro (h | ⟨h | h, h2⟩)
          · exact Or.inl h
          · exact absurd h2 (h ▸ hviol)
          · exact Or.inr ⟨h, h2⟩
      · rw [hcand u, Finset.mem_insert, List.mem_cons]
        constructor
        · rintro ((h | h) | h)
          · exact Or.inr ⟨Or.inl h, h ▸ hviol⟩
          · exact Or.inl h
          · exact Or.inr ⟨Or.inr h.1, h.2⟩
        · rintro (h | ⟨h | h, h2⟩)
          · exact Or.inl (Or.inr h)
          · exact Or.inl (Or.inl h)
          · exact Or.inr ⟨h, h2⟩

end MMCSIterations

section MMCSCalls

variable {nv : Nat} (cutoff_size : Nat) (spawn : List (Fin nv) → Bool) (H : Hypergraph nv)

/-- What an iteration of the loop of a frame with correct bookkeeping looks
like: the loop state is that of the frame, with the vertices tested so far
shared between `CAND` and `violators`. -/
theorem MMCSAlgorithm.iteration_spec (fuel : Nat) (path : List (Fin nv)) (S CAND : bitset nv)
    (e : bitset nv) (v : Fin nv) (mid : MMCSFrame nv H.num_edges) (violators : bitset nv)
    (hfuel : (uncov_of H S).card ≤ fuel + 1)
    (hi : MMCSAlgorithm.iteration cutoff_size spawn H fuel path
      ⟨S, CAND, crit_of H S, uncov_of H S⟩ e v mid violators) :
    ∃ j, j ∈ uncov_of H S ∧ e = H.edge j ∧ v ∈ CAND ∧ v ∈ e ∧ v ∉ S ∧
      mid.S = S ∧ mid.crit = crit_of H S ∧ mid.uncov = uncov_of H S ∧
      (∀ u ∈ violators, u ∈ CAND ∧ u ∈ e ∧ violating H S u) ∧
      (∀ u ∈ mid.CAND, u ∈ CAND ∧ (u ∈ e → ¬ violating H S u)) := by
  obtain ⟨hin, hsel, pre, post, out, hC, hrun⟩ := hi
  rw [MMCSAlgorithm.input_specification_iff] at hin
  obtain ⟨-, -, hcut⟩ := hin
  simp only at hcut hsel hC hrun
  obtain ⟨first, hfirst, hsel⟩ := Option.map_eq_some'.mp hsel
  obtain ⟨j, hj, hej⟩ := MMCSAlgorithm.select_edge_spec H CAND (uncov_of H S) first
    (find_first_eq_some.mp hfirst).1
  rw [hsel] at hej
  have hjS : ∀ x ∈ H.edge j, x ∉ S := (mem_uncov_of H).mp hj
  have hmemC : ∀ u, u ∈ pre ++ v :: post → u ∈ CAND ∧ u ∈ e := by
    intro u hu
    rw [← hC, List.mem_reverse, mem_members, Finset.mem_inter] at hu
    exact hu
  have hvC := hmemC v (by simp)
  have hvS : v ∉ S := hjS v (hej ▸ hvC.2)
  have hpre : ∀ u ∈ pre, u ∉ S ∧ (H.transpose u ∩ uncov_of H S).Nonempty := by
    intro u hu
    have huC := hmemC u (List.mem_append_left _ hu)
    refine ⟨hjS u (hej ▸ huC.2), ⟨j, ?_⟩⟩
    rw [Finset.mem_inter, mem_transpose]
    exact ⟨hej ▸ huC.2, hj⟩
  obtain ⟨CAND1, violators1, out1, heq, hvio, hcand⟩ :=
    MMCSAlgorithm.test_vertices_violators cutoff_size spawn H
      (MMCSAlgorithm.extend_or_confirm_set cutoff_size spawn H H.transpose fuel) fuel
      (MMCSAlgorithm.mmcs_frame_spec cutoff_size spawn H fuel)
      S hcut hfuel path pre (CAND \ e) ∅ hpre
  rw [heq] at hrun
  have hr := Prod.mk.inj (Run.ok.inj hrun)
  have hmid := hr.1
  have hviolators := (Prod.mk.inj hr.2).1
  subst hmid hviolators
  refine ⟨j, hj, hej, hvC.1, hvC.2, hvS, rfl, rfl, rfl, fun u hu => ?_, fun u hu => ?_⟩
  · rcases (hvio u).mp hu with h | h
    · exact absurd h (Finset.not_mem_empty u)
    · have := hmemC u (List.mem_append_left _ h.1)
      exact ⟨this.1, this.2, h.2⟩
  · rcases (hcand u).mp hu with h | h
    · rw [Finset.mem_sdiff] at h
      exact ⟨h.1, fun he => absurd he h.2⟩
    · exact ⟨(hmemC u (List.mem_append_left _ h.1)).1, fun _ => h.2⟩

/-- On a hypergraph with an edge and a vertex, every reachable call of MMCS
passes the input specification of `extend_or_confirm_set`. -/
theorem MMCSAlgorithm.entered_input_specification (h1 : H.edges ≠ []) (hnv : 0 < nv)
    {fuel : Nat} {path : List (Fin nv)} {fr : MMCSFrame nv H.num_edges}
    (h : MMCSAlgorithm.entered cutoff_size spawn H fuel path fr) :
    MMCSAlgorithm.input_specification cutoff_size fr = true := by
  cases h with
  | root =>
    rw [MMCSAlgorithm.input_specification_iff]
    refine ⟨⟨⟨0, List.length_pos.mpr h1⟩, Finset.mem_univ _⟩,
      ⟨⟨0, hnv⟩, Finset.mem_univ _⟩, ?_⟩
    simp only [Finset.card_empty]
    omega
  | call _ _ hrc => exact MMCSAlgorithm.input_specification_of_recursive_call _ _ hrc

/-- A call that fails its input specification does not return. -/
theorem MMCSAlgorithm.assertion_failed_of_input_specification
    (T : Fin nv → bitset H.num_edges) (fuel : Nat) (path : List (Fin nv))
    (fr : MMCSFrame nv H.num_edges)
    (h : MMCSAlgorithm.input_specification cutoff_size fr = false) :
    MMCSAlgorithm.extend_or_confirm_set cutoff_size spawn H T fuel path fr
      = .assertion_failed := by
  cases fuel with
  | zero => simp [MMCSAlgorithm.extend_or_confirm_set, h]
  | succ fuel => simp [MMCSAlgorithm.extend_or_confirm_set, h]

/-- A reachable call of MMCS that passes its input specification returns, with
the frame state of its entry. -/
theorem MMCSAlgorithm.entered_returns {fuel : Nat} {path : List (Fin nv)}
    {fr : MMCSFrame nv H.num_edges}
    (h : MMCSAlgorithm.entered cutoff_size spawn H fuel path fr)
    (hin : MMCSAlgorithm.input_specification cutoff_size fr = true) :
    ∃ out, MMCSAlgorithm.extend_or_confirm_set cutoff_size spawn H H.transpose fuel path fr
      = .ok (fr, out) := by
  obtain ⟨hcrit, huncov, hirr, hfuel⟩ := MMCSAlgorithm.entered_spec cutoff_size spawn H h
  obtain ⟨S, CAND, crit, uncov⟩ := fr
  simp only at hcrit huncov hirr hfuel
  subst hcrit huncov
  rw [MMCSAlgorithm.input_specification_iff] at hin
  obtain ⟨out, heq, -, -⟩ := MMCSAlgorithm.mmcs_frame_spec cutoff_size spawn H fuel path
    S CAND hirr hin.1 hin.2.1 hin.2.2 hfuel
  exact ⟨out, heq⟩

/-- The calls made by reachable calls of MMCS are reachable; their `S` contains
that of the caller, and their `CAND` lies in that of the caller. -/
theorem MMCSAlgorithm.entered_of_calls
    {a b : Nat × List (Fin nv) × MMCSFrame nv H.num_edges}
    (hab : Relation.ReflTransGen (MMCSAlgorithm.calls cutoff_size spawn H) a b)
    (ha : MMCSAlgorithm.entered cutoff_size spawn H a.1 a.2.1 a.2.2) :
    MMCSAlgorithm.entered cutoff_size spawn H b.1 b.2.1 b.2.2 ∧ a.2.2.S ⊆ b.2.2.S ∧
      b.2.2.CAND ⊆ a.2.2.CAND := by
  induction hab with
  | refl => exact ⟨ha, Finset.Subset.refl _, Finset.Subset.refl _⟩
  | @tail b c _ hbc ih =>
    obtain ⟨hb, hS, hC⟩ := ih
    obtain ⟨fb, pb, frb⟩ := b
    obtain ⟨fc, pc, frc⟩ := c
    obtain ⟨e, v, hfuel, hpath, hbr, hrc⟩ := hbc
    simp only at hfuel hpath hbr hrc hb hS hC ⊢
    subst hfuel hpath
    have hc := MMCSAlgorithm.entered.call hb hbr hrc
    obtain ⟨hcrit, huncov, -, hfl⟩ := MMCSAlgorithm.entered_spec cutoff_size spawn H hb
    obtain ⟨S, CAND, crit, uncov⟩ := frb
    simp only at hcrit huncov hfl hS hC
    subst hcrit huncov
    obtain ⟨j, CAND1, -, -, -, -, -, -, -, hfr1, hsub, -⟩ :=
      MMCSAlgorithm.branch_spec cutoff_size spawn H fc pb S CAND e v frc hfl hbr
    subst hfr1
    exact ⟨hc, hS.trans (Finset.subset_insert v S), hsub.trans hC⟩

end MMCSCalls

section Violation

variable {nv : Nat} (H : Hypergraph nv)

/-- A violating vertex stays violating when the set grows. -/
theorem violating.mono_subset {S X : bitset nv} {u : Fin nv} (h : violating H S u)
    (hsub : S ⊆ X) : violating H X u := by
  obtain ⟨w, hw, hc⟩ := h
  refine ⟨w, hsub hw, ?_⟩
  rw [← Finset.subset_empty, ← hc]
  exact crit_of_antitone H (Finset.insert_subset_insert u hsub) (Finset.mem_insert_of_mem hw)

/-- A vertex that is violating for a set without redundant vertex is outside
the set, and the test `vertex_would_violate` rejects it at the bookkeeping
values of the set. -/
theorem violating.rejected {S : bitset nv} {u : Fin nv} (h : violating H S u)
    (hS : irredundant H S) :
    u ∉ S ∧ vertex_would_violate H (crit_of H S) (uncov_of H S) H.transpose S u = .ok true := by
  have huS : u ∉ S := by
    intro hu
    obtain ⟨w, hw, hc⟩ := h
    rw [Finset.insert_eq_of_mem hu] at hc
    have := hS w hw
    rw [hc] at this
    exact Finset.not_nonempty_empty this
  refine ⟨huS, ?_⟩
  rw [vertex_would_violate_correct H S u huS]
  congr 1
  exact decide_eq_true h

end Violation

section RSCalls

variable {nv : Nat} (cutoff_size : Nat) (spawn : List (Fin nv) → Bool) (H : Hypergraph nv)

/-- What an iteration of the loop of a frame with correct bookkeeping looks
like: the loop state is that of the frame, and the vertex is a vertex of the
search edge that is not violating. -/
theorem RSAlgorithm.rs_iteration_spec (fuel : Nat) (path : List (Fin nv))
    (S violating_vertices : bitset nv) (search_edge : Fin H.num_edges) (v : Fin nv)
    (mid : RSFrame nv H.num_edges) (passed_down : bitset nv)
    (hfuel : (uncov_of H S).card ≤ fuel + 1)
    (hvv : ∀ u ∈ violating_vertices, violating H S u)
    (hi : RSAlgorithm.iteration cutoff_size spawn H fuel path ⟨S, crit_of H S, uncov_of H S⟩
      violating_vertices search_edge v mid passed_down) :
    find_first (uncov_of H S) = some search_edge ∧ v ∈ H.edge search_edge ∧ v ∉ S ∧
      v ∉ violating_vertices ∧ ¬ violating H S v ∧
      mid = ⟨S, crit_of H S, uncov_of H S⟩ ∧ violating_vertices ⊆ passed_down ∧
      (∀ u ∈ passed_down, violating H S u) := by
  obtain ⟨hin, hse, part, pre, post, out, hstore, hpd, hidx, hrun⟩ := hi
  rw [RSAlgorithm.rs_input_specification_iff] at hin
  obtain ⟨-, hcut⟩ := hin
  simp only at hcut hse hstore hrun
  have hmin := find_first_eq_some.mp hse
  have heS : ∀ x ∈ H.edge search_edge, x ∉ S := (mem_uncov_of H).mp hmin.1
  obtain ⟨nvv, idx, heqs, hndi, hmemi, hnvv⟩ := RSAlgorithm.store_indices_spec H S
    violating_vertices (members (H.edge search_edge)) ∅ [] (members_nodup _)
    (fun u hu => heS u ((mem_members _ u).mp hu)) (fun u _ => List.not_mem_nil u)
    List.nodup_nil (fun u hu => absurd hu (Finset.not_mem_empty u))
  rw [heqs] at hstore
  have hpart := Run.ok.inj hstore
  subst hpart
  simp only at hpd hidx
  have hmem : ∀ u, u ∈ pre ++ v :: post →
      u ∈ H.edge search_edge ∧ u ∉ violating_vertices ∧ ¬ violating H S u := by
    intro u hu
    rw [← hidx, hmemi u, mem_members] at hu
    simpa using hu
  have hpdv : ∀ u ∈ passed_down, violating H S u := by
    intro u hu
    rw [hpd] at hu
    rcases Finset.mem_union.mp hu with h | h
    · exact hvv u h
    · exact hnvv u h
  rw [hidx] at hndi
  obtain ⟨out1, heq, -, -⟩ := RSAlgorithm.search_loop_spec cutoff_size spawn H
    (RSAlgorithm.extend_or_confirm_set cutoff_size spawn H H.transpose fuel) fuel
    (RSAlgorithm.rs_frame_spec cutoff_size spawn H fuel) S hcut hfuel path search_edge hse
    passed_down hpdv pre (List.Nodup.of_append_left hndi)
    (fun u hu => ⟨(hmem u (List.mem_append_left _ hu)).1,
      (hmem u (List.mem_append_left _ hu)).2.2⟩)
  rw [heq] at hrun
  have hmid := (Prod.mk.inj (Run.ok.inj hrun)).1
  have hv := hmem v (by simp)
  refine ⟨hse, hv.1, heS v hv.1, hv.2.1, hv.2.2, hmid.symm, ?_, hpdv⟩
  rw [hpd]
  exact Finset.subset_union_left

/-- On a hypergraph with an edge, every reachable call of RS passes the input
specification of `extend_or_confirm_set`. -/
theorem RSAlgorithm.rs_entered_input_specification (h1 : H.edges ≠ [])
    {fuel : Nat} {path : List (Fin nv)} {fr : RSFrame nv H.num_edges}
    {violating_vertices : bitset nv}
    (h : RSAlgorithm.entered cutoff_size spawn H fuel path fr violating_vertices) :
    RSAlgorithm.input_specification cutoff_size fr = true := by
  rw [RSAlgorithm.rs_input_specification_iff]
  cases h with
  | root =>
    refine ⟨⟨⟨0, List.length_pos.mpr h1⟩, Finset.mem_univ _⟩, ?_⟩
    simp only [Finset.card_empty]
    omega
  | call _ _ hrc => exact ⟨Finset.nonempty_iff_ne_empty.mpr hrc.1, hrc.2⟩

/-- A call that fails its input specification does not return. -/
theorem RSAlgorithm.rs_assertion_failed_of_input_specification
    (T : Fin nv → bitset H.num_edges) (fuel : Nat) (path : List (Fin nv))
    (fr : RSFrame nv H.num_edges) (violating_vertices : bitset nv)
    (h : RSAlgorithm.input_specification cutoff_size fr = false) :
    RSAlgorithm.extend_or_confirm_set cutoff_size spawn H T fuel path fr violating_vertices
      = .assertion_failed := by
  cases fuel with
  | zero => simp [RSAlgorithm.extend_or_confirm_set, h]
  | succ fuel => simp [RSAlgorithm.extend_or_confirm_set, h]

/-- A reachable call of RS that passes its input specification returns, with
the frame state of its entry. -/
theorem RSAlgorithm.rs_entered_returns {fuel : Nat} {path : List (Fin nv)}
    {fr : RSFrame nv H.num_edges} {violating_vertices : bitset nv}
    (h : RSAlgorithm.entered cutoff_size spawn H fuel path fr violating_vertices)
    (hin : RSAlgorithm.input_specification cutoff_size fr = true) :
    ∃ out, RSAlgorithm.extend_or_confirm_set cutoff_size spawn H H.transpose fuel path fr
      violating_vertices = .ok (fr, out) := by
  obtain ⟨hcrit, huncov, hirr, hfuel, hvv⟩ := RSAlgorithm.rs_entered_spec cutoff_size spawn H h
  obtain ⟨S, crit, uncov⟩ := fr
  simp only at hcrit huncov hirr hfuel hvv
  subst hcrit huncov
  rw [RSAlgorithm.rs_input_specification_iff] at hin
  obtain ⟨out, heq, -, -⟩ := RSAlgorithm.rs_frame_spec cutoff_size spawn H fuel path
    S violating_vertices hirr hin.1 hin.2 hfuel hvv
  exact ⟨out, heq⟩

/-- The calls made by reachable calls of RS are reachable; their `S` contains
that of the caller, and so does their set `violating_vertices`. -/
theorem RSAlgorithm.rs_entered_of_calls
    {a b : Nat × List (Fin nv) × RSFrame nv H.num_edges × bitset nv}
    (hab : Relation.ReflTransGen (RSAlgorithm.calls cutoff_size spawn H) a b)
    (ha : RSAlgorithm.entered cutoff_size spawn H a.1 a.2.1 a.2.2.1 a.2.2.2) :
    RSAlgorithm.entered cutoff_size spawn H b.1 b.2.1 b.2.2.1 b.2.2.2 ∧
      a.2.2.1.S ⊆ b.2.2.1.S ∧ a.2.2.2 ⊆ b.2.2.2 := by
  induction hab with
  | refl => exact ⟨ha, Finset.Subset.refl _, Finset.Subset.refl _⟩
  | @tail b c _ hbc ih =>
    obtain ⟨hb, hS, hV⟩ := ih
    obtain ⟨fb, pb, frb, vvb⟩ := b
    obtain ⟨fc, pc, frc, vvc⟩ := c
    obtain ⟨search_edge, v, hfuel, hpath, hbr, hrc⟩ := hbc
    simp only at hfuel hpath hbr hrc hb hS hV ⊢
    subst hfuel hpath
    have hc := RSAlgorithm.entered.call hb hbr hrc
    obtain ⟨hcrit, huncov, -, hfl, hvv⟩ := RSAlgorithm.rs_entered_spec cutoff_size spawn H hb
    obtain ⟨S, crit, uncov⟩ := frb
    simp only at hcrit huncov hfl hS hvv
    subst hcrit huncov
    have hsubV : vvb ⊆ vvc := by
      obtain ⟨-, -, part, -, -, -, -, -, hpd, -⟩ := hbr
      rw [hpd]
      exact Finset.subset_union_left
    obtain ⟨-, -, -, -, -, -, hfr1, -, -⟩ :=
      RSAlgorithm.rs_branch_spec cutoff_size spawn H fc pb S vvb search_edge v frc vvc
        hfl hvv hbr
    subst hfr1
    exact ⟨hc, hS.trans (Finset.subset_insert v S), hV.trans hsubV⟩

end RSCalls

section Depth

variable {nv : Nat} (cutoff_size : Nat) (spawn : List (Fin nv) → Bool) (H : Hypergraph nv)

/-- A set that misses an edge of a hypergraph without empty edge is not the
whole vertex set. -/
theorem card_lt_of_uncov_of_nonempty (h2 : ∀ e ∈ H.edges, e ≠ ∅) {S : bitset nv}
    (hne : (uncov_of H S).Nonempty) : S.card < nv := by
  obtain ⟨i, hi⟩ := hne
  obtain ⟨x, hx⟩ := Finset.nonempty_iff_ne_empty.mpr (h2 (H.edge i) (edge_mem H i))
  have hxS : x ∉ S := (mem_uncov_of H).mp hi x hx
  have hlt : S.card < (Finset.univ : Finset (Fin nv)).card :=
    Finset.card_lt_card (Finset.ssubset_iff.mpr ⟨x, hxS, Finset.subset_univ _⟩)
  rwa [Finset.card_univ, Fintype.card_fin] at hlt

/-- The position of a reachable call of MMCS lists the vertices of its `S`. -/
theorem MMCSAlgorithm.entered_path_length {fuel : Nat} {path : List (Fin nv)}
    {fr : MMCSFrame nv H.num_edges}
    (h : MMCSAlgorithm.entered cutoff_size spawn H fuel path fr) :
    path.length = fr.S.card := by
  induction h with
  | root => rfl
  | call hent hb hrc ih =>
    rename_i fuel path fr e v fr1
    obtain ⟨hcrit, huncov, -, hfuel⟩ := MMCSAlgorithm.entered_spec cutoff_size spawn H hent
    obtain ⟨S, CAND, crit, uncov⟩ := fr
    simp only at hcrit huncov hfuel ih
    subst hcrit huncov
    obtain ⟨j, CAND1, -, -, -, -, hvS, -, -, hfr1, -, -⟩ :=
      MMCSAlgorithm.branch_spec cutoff_size spawn H fuel path S CAND e v fr1 hfuel hb
    subst hfr1
    show (v :: path).length = (insert v S).card
    rw [Finset.card_insert_of_not_mem hvS, List.length_cons, ih]

/-- The position of a reachable call of RS lists the vertices of its `S`. -/
theorem RSAlgorithm.rs_entered_path_length {fuel : Nat} {path : List (Fin nv)}
    {fr : RSFrame nv H.num_edges} {violating_vertices : bitset nv}
    (h : RSAlgorithm.entered cutoff_size spawn H fuel path fr violating_vertices) :
    path.length = fr.S.card := by
  induction h with
  | root => rfl
  | call hent hb hrc ih =>
    rename_i fuel path fr vv search_edge v fr1 pd
    obtain ⟨hcrit, huncov, -, hfuel, hvv⟩ :=
      RSAlgorithm.rs_entered_spec cutoff_size spawn H hent
    obtain ⟨S, crit, uncov⟩ := fr
    simp only at hcrit huncov hfuel hvv ih
    subst hcrit huncov
    obtain ⟨-, -, hvS, -, -, -, hfr1, -, -⟩ :=
      RSAlgorithm.rs_branch_spec cutoff_size spawn H fuel path S vv search_edge v fr1 pd
        hfuel hvv hb
    subst hfr1
    show (v :: path).length = (insert v S).card
    rw [Finset.card_insert_of_not_mem hvS, List.length_cons, ih]

/-- The new candidate of a branch of a reachable call of MMCS: `S` with one
more vertex and fewer uncovered edges; its processing returns with the state
unchanged, in which no uncovered edge is critical for the new vertex. -/
theorem MMCSAlgorithm.branch_done {fuel : Nat} {path : List (Fin nv)}
    {fr : MMCSFrame nv H.num_edges} {e : bitset nv} {v : Fin nv}
    {fr1 : MMCSFrame nv H.num_edges}
    (h : MMCSAlgorithm.entered cutoff_size spawn H (fuel + 1) path fr)
    (hb : MMCSAlgorithm.branch cutoff_size spawn H fuel path fr e v fr1) :
    fr1.S = insert v fr.S ∧ v ∉ fr.S ∧ fr1.uncov ⊂ fr.uncov ∧
      fr1.uncov ∩ fr1.crit v = ∅ ∧
      ∃ out, MMCSAlgorithm.process_candidate cutoff_size spawn H
        (MMCSAlgorithm.extend_or_confirm_set cutoff_size spawn H H.transpose fuel)
        (v :: path) fr1 = .ok (fr1, out) := by
  obtain ⟨hcrit, huncov, -, hfuel⟩ := MMCSAlgorithm.entered_spec cutoff_size spawn H h
  obtain ⟨S, CAND, crit, uncov⟩ := fr
  simp only at hcrit huncov hfuel
  subst hcrit huncov
  obtain ⟨j, CAND1, hj, hej, hvC, hve, hvS, hnviol, hcut, hfr1, -, -⟩ :=
    MMCSAlgorithm.branch_spec cutoff_size spawn H fuel path S CAND e v fr1 hfuel hb
  subst hfr1
  have hvne : (H.transpose v ∩ uncov_of H S).Nonempty :=
    ⟨j, Finset.mem_inter.mpr ⟨(mem_transpose H).mpr (hej ▸ hve), hj⟩⟩
  have hlt := uncov_of_insert_card_lt H hvne
  have hcut1 : cutoff_size = 0 ∨ (insert v S).card ≤ cutoff_size := by
    rw [Finset.card_insert_of_not_mem hvS]
    omega
  obtain ⟨out, heq, -, -⟩ := MMCSAlgorithm.mmcs_process_candidate_spec cutoff_size spawn H
    (MMCSAlgorithm.extend_or_confirm_set cutoff_size spawn H H.transpose fuel) fuel
    (MMCSAlgorithm.mmcs_frame_spec cutoff_size spawn H fuel) (v :: path) (insert v S) CAND1
    (irredundant_insert H hvS hnviol hvne) hcut1 (by omega)
  refine ⟨rfl, hvS, ?_, crit_of_inter_uncov_of H (insert v S) v, out, heq⟩
  show uncov_of H (insert v S) ⊂ uncov_of H S
  rw [Finset.ssubset_iff_of_subset (uncov_of_insert_subset H S v)]
  refine ⟨j, hj, ?_⟩
  rw [uncov_of_insert, Finset.mem_sdiff]
  exact fun hh => hh.2 ((mem_transpose H).mpr (hej ▸ hve))

/-- The new candidate of a branch of a reachable call of RS: `S` with one more
vertex and fewer uncovered edges; its processing returns with the state
unchanged, in which no uncovered edge is critical for the new vertex. -/
theorem RSAlgorithm.rs_branch_done {fuel : Nat} {path : List (Fin nv)}
    {fr : RSFrame nv H.num_edges} {violating_vertices : bitset nv}
    {search_edge : Fin H.num_edges} {v : Fin nv} {fr1 : RSFrame nv H.num_edges}
    {passed_down : bitset nv}
    (h : RSAlgorithm.entered cutoff_size spawn H (fuel + 1) path fr violating_vertices)
    (hb : RSAlgorithm.branch cutoff_size spawn H fuel path fr violating_vertices search_edge v
      fr1 passed_down) :
    fr1.S = insert v fr.S ∧ v ∉ fr.S ∧ fr1.uncov ⊂ fr.uncov ∧
      fr1.uncov ∩ fr1.crit v = ∅ ∧
      ∃ out, RSAlgorithm.process_candidate cutoff_size spawn H
        (RSAlgorithm.extend_or_confirm_set cutoff_size spawn H H.transpose fuel)
        (v :: path) passed_down fr1 = .ok (fr1, out) := by
  obtain ⟨hcrit, huncov, -, hfuel, hvv⟩ := RSAlgorithm.rs_entered_spec cutoff_size spawn H h
  obtain ⟨S, crit, uncov⟩ := fr
  simp only at hcrit huncov hfuel hvv
  subst hcrit huncov
  obtain ⟨hse, hve, hvS, -, hnviol, hcut, hfr1, hpd, -⟩ :=
    RSAlgorithm.rs_branch_spec cutoff_size spawn H fuel path S violating_vertices search_edge v
      fr1 passed_down hfuel hvv hb
  subst hfr1
  have hj := (find_first_eq_some.mp hse).1
  have hvne : (H.transpose v ∩ uncov_of H S).Nonempty :=
    ⟨search_edge, Finset.mem_inter.mpr ⟨(mem_transpose H).mpr hve, hj⟩⟩
  have hlt := uncov_of_insert_card_lt H hvne
  have hcut1 : cutoff_size = 0 ∨ (insert v S).card ≤ cutoff_size := by
    rw [Finset.card_insert_of_not_mem hvS]
    omega
  obtain ⟨out, heq, -, -⟩ := RSAlgorithm.rs_process_candidate_spec cutoff_size spawn H
    (RSAlgorithm.extend_or_confirm_set cutoff_size spawn H H.transpose fuel) fuel
    (RSAlgorithm.rs_frame_spec cutoff_size spawn H fuel) (v :: path) passed_down (insert v S)
    (irredundant_insert H hvS hnviol hvne) hcut1 (by omega)
    (fun u hu => violating.mono H (hpd u hu))
  refine ⟨rfl, hvS, ?_, crit_of_inter_uncov_of H (insert v S) v, out, heq⟩
  show uncov_of H (insert v S) ⊂ uncov_of H S
  rw [Finset.ssubset_iff_of_subset (uncov_of_insert_subset H S v)]
  refine ⟨search_edge, hj, ?_⟩
  rw [uncov_of_insert, Finset.mem_sdiff]
  exact fun hh => hh.2 ((mem_transpose H).mpr hve)

end Depth

section Examples2

set_option maxRecDepth 100000

/-- In the MMCS search of `fork`, the iteration for vertex 0 in the root call
comes after that of vertex 1, which has returned 1 to `CAND`. -/
theorem fork_iteration_mmcs :
    MMCSAlgorithm.iteration 0 sequential fork 2 [] ⟨∅, Finset.univ, fun _ => ∅, Finset.univ⟩
      {0, 1} 0 ⟨∅, {1, 2, 3}, fun _ => ∅, Finset.univ⟩ ∅ :=
  ⟨by decide, by decide, [1], [], [{1, 2}], by decide, by decide⟩

/-- In the RS search of `overlap`, the branch of vertex 0 of the root call. -/
theorem overlap_branch_rs :
    RSAlgorithm.branch 0 sequential overlap 3 [] ⟨∅, fun _ => ∅, Finset.univ⟩ ∅
      ⟨0, by decide⟩ 0 ⟨{0}, crit_of overlap {0}, uncov_of overlap {0}⟩ ∅ :=
  ⟨by decide, by decide, (∅, [0]), [], [], ⟨∅, fun _ => ∅, Finset.univ⟩, [],
    by decide, by decide, by decide, by decide, by decide, by decide⟩

/-- In the RS search of `overlap`, the iteration for vertex 0 in the root call. -/
theorem overlap_iteration_rs :
    RSAlgorithm.iteration 0 sequential overlap 3 [] ⟨∅, fun _ => ∅, Finset.univ⟩ ∅
      ⟨0, by decide⟩ 0 ⟨∅, fun _ => ∅, Finset.univ⟩ ∅ :=
  ⟨by decide, by decide, (∅, [0]), [], [], [], by decide, by decide, by decide, by decide⟩

end Examples2

section Examples3

set_option maxRecDepth 100000

/-- In the MMCS search of `wedge`, the branch of vertex 1 of the root call
makes a call with `S = {1}` and `CAND = {0, 2}`. -/
theorem wedge_entered_mmcs :
    MMCSAlgorithm.entered 0 sequential wedge (0 + 1) [1]
      ⟨{1}, {0, 2}, crit_of wedge {1}, uncov_of wedge {1}⟩ := by
  refine @MMCSAlgorithm.entered.call _ _ _ _ _ _ _ {1, 2} _ _
    MMCSAlgorithm.entered.root ?_ ?_
  · exact ⟨by decide, by decide, [2], [], ⟨∅, {0, 2}, fun _ => ∅, Finset.univ⟩, ∅, [{2}],
      by decide, by decide, by decide, by decide⟩
  · unfold MMCSAlgorithm.recursive_call
    decide

/-- In that call, the iteration for vertex 0 comes after that of vertex 2,
which is violating and has joined `violators`. -/
theorem wedge_iteration_mmcs :
    MMCSAlgorithm.iteration 0 sequential wedge 0 [1]
      ⟨{1}, {0, 2}, crit_of wedge {1}, uncov_of wedge {1}⟩
      {0, 2} 0 ⟨{1}, ∅, crit_of wedge {1}, uncov_of wedge {1}⟩ {2} :=
  ⟨by decide, by decide, [2], [], [], by decide, by decide⟩

end Examples3

section Claims4

variable {nv : Nat}

set_option maxRecDepth 100000

/-- C21. MMCS edge selection (M+U rule): for every `H`, `CAND` and non-empty
`uncov`, the edge that `MMCSAlgorithm::extend_or_confirm_set` chooses is `H[j]`
for the smallest index `j` of `uncov` at which the size of `H[j] ∩ CAND` is the
minimum over `uncov`; a call that passes its input specification then runs its
loop over the vertices of `C = CAND ∩ e`, in descending order, with `CAND \ e`
as `CAND`. -/
theorem C21_edge_selection (H : Hypergraph nv) (cutoff_size : Nat)
    (spawn : List (Fin nv) → Bool) (T : Fin nv → bitset H.num_edges) (fuel : Nat)
    (path : List (Fin nv)) (fr : MMCSFrame nv H.num_edges) (hne : fr.uncov.Nonempty) :
    ∃ j ∈ fr.uncov,
      (∀ i ∈ fr.uncov, (H.edge j ∩ fr.CAND).card ≤ (H.edge i ∩ fr.CAND).card) ∧
      (∀ i ∈ fr.uncov, (H.edge i ∩ fr.CAND).card = (H.edge j ∩ fr.CAND).card → j ≤ i) ∧
      (find_first fr.uncov).map (MMCSAlgorithm.select_edge H fr.CAND fr.uncov)
        = some (H.edge j) ∧
      (MMCSAlgorithm.input_specification cutoff_size fr = true →
        MMCSAlgorithm.extend_or_confirm_set cutoff_size spawn H T (fuel + 1) path fr
          = (MMCSAlgorithm.test_vertices cutoff_size spawn H T
              (MMCSAlgorithm.extend_or_confirm_set cutoff_size spawn H T fuel) path
              (members (fr.CAND ∩ H.edge j)).reverse
              ⟨fr.S, fr.CAND \ H.edge j, fr.crit, fr.uncov⟩ ∅).bind
            fun r => Run.ok (⟨r.1.S, r.1.CAND ∪ r.2.1, r.1.crit, r.1.uncov⟩, r.2.2)) := by
  obtain ⟨first, hfirst⟩ := find_first_isSome hne
  obtain ⟨j, hj, hmin, hsmallest, hsel⟩ :=
    MMCSAlgorithm.select_edge_first_minimum H fr.CAND fr.uncov first hfirst
  refine ⟨j, hj, hmin, hsmallest, ?_, fun hin => ?_⟩
  · rw [hfirst, Option.map_some', hsel]
  · unfold MMCSAlgorithm.extend_or_confirm_set
    simp only [hin, hfirst, hsel, not_true_eq_false, if_false]

theorem C21_edge_selection_witness :
    (Finset.univ : bitset fork.num_edges).Nonempty ∧
    ∃ j ∈ (Finset.univ : bitset fork.num_edges),
      (∀ i ∈ (Finset.univ : bitset fork.num_edges),
        (fork.edge j ∩ Finset.univ).card ≤ (fork.edge i ∩ Finset.univ).card) ∧
      (∀ i ∈ (Finset.univ : bitset fork.num_edges),
        (fork.edge i ∩ Finset.univ).card = (fork.edge j ∩ Finset.univ).card → j ≤ i) ∧
      (find_first (Finset.univ : bitset fork.num_edges)).map
          (MMCSAlgorithm.select_edge fork Finset.univ Finset.univ)
        = some (fork.edge j) ∧
      (MMCSAlgorithm.input_specification 0
          (⟨∅, Finset.univ, fun _ => ∅, Finset.univ⟩ : MMCSFrame 4 fork.num_edges) = true →
        MMCSAlgorithm.extend_or_confirm_set 0 sequential fork fork.transpose (2 + 1) []
            ⟨∅, Finset.univ, fun _ => ∅, Finset.univ⟩
          = (MMCSAlgorithm.test_vertices 0 sequential fork fork.transpose
              (MMCSAlgorithm.extend_or_confirm_set 0 sequential fork fork.transpose 2) []
              (members (Finset.univ ∩ fork.edge j)).reverse
              ⟨∅, Finset.univ \ fork.edge j, fun _ => ∅, Finset.univ⟩ ∅).bind
            fun r => Run.ok (⟨r.1.S, r.1.CAND ∪ r.2.1, r.1.crit, r.1.uncov⟩, r.2.2)) :=
  ⟨by decide,
    C21_edge_selection fork 0 sequential fork.transpose 2 []
      ⟨∅, Finset.univ, fun _ => ∅, Finset.univ⟩ (by decide)⟩

end Claims4

section Claims5

variable {nv : Nat}

set_option maxRecDepth 100000

/-- C22. A frame restores its caller's state: for every call of
`extend_or_confirm_set` reachable from the root call, in MMCS and in RS and
under every scheduling (inline recursion included), the call returns when its
input specification holds, and whenever it returns, `S`, `crit` and `uncov`,
and for MMCS also `CAND`, have the values they had at the entry of the call. -/
theorem C22_frame_restores_state (H : Hypergraph nv) (cutoff_size : Nat)
    (spawn : List (Fin nv) → Bool) :
    (∀ fuel path fr, MMCSAlgorithm.entered cutoff_size spawn H fuel path fr →
      (MMCSAlgorithm.input_specification cutoff_size fr = true →
        ∃ out, MMCSAlgorithm.extend_or_confirm_set cutoff_size spawn H H.transpose fuel path fr
          = .ok (fr, out)) ∧
      ∀ st out, MMCSAlgorithm.extend_or_confirm_set cutoff_size spawn H H.transpose fuel path fr
          = .ok (st, out) →
        st.S = fr.S ∧ st.CAND = fr.CAND ∧ st.crit = fr.crit ∧ st.uncov = fr.uncov) ∧
    (∀ fuel path fr violating_vertices,
      RSAlgorithm.entered cutoff_size spawn H fuel path fr violating_vertices →
      (RSAlgorithm.input_specification cutoff_size fr = true →
        ∃ out, RSAlgorithm.extend_or_confirm_set cutoff_size spawn H H.transpose fuel path fr
          violating_vertices = .ok (fr, out)) ∧
      ∀ st out, RSAlgorithm.extend_or_confirm_set cutoff_size spawn H H.transpose fuel path fr
          violating_vertices = .ok (st, out) →
        st.S = fr.S ∧ st.crit = fr.crit ∧ st.uncov = fr.uncov) := by
  constructor
  · intro fuel path fr h
    refine ⟨MMCSAlgorithm.entered_returns cutoff_size spawn H h, fun st out heq => ?_⟩
    cases hin : MMCSAlgorithm.input_specification cutoff_size fr with
    | false =>
      rw [MMCSAlgorithm.assertion_failed_of_input_specification cutoff_size spawn H _ _ _ _ hin]
        at heq
      cases heq
    | true =>
      obtain ⟨out1, h1⟩ := MMCSAlgorithm.entered_returns cutoff_size spawn H h hin
      rw [h1] at heq
      have hst := (Prod.mk.inj (Run.ok.inj heq)).1
      rw [← hst]
      exact ⟨rfl, rfl, rfl, rfl⟩
  · intro fuel path fr vv h
    refine ⟨RSAlgorithm.rs_entered_returns cutoff_size spawn H h, fun st out heq => ?_⟩
    cases hin : RSAlgorithm.input_specification cutoff_size fr with
    | false =>
      rw [RSAlgorithm.rs_assertion_failed_of_input_specification cutoff_size spawn H _ _ _ _ _
        hin] at heq
      cases heq
    | true =>
      obtain ⟨out1, h1⟩ := RSAlgorithm.rs_entered_returns cutoff_size spawn H h hin
      rw [h1] at heq
      have hst := (Prod.mk.inj (Run.ok.inj heq)).1
      rw [← hst]
      exact ⟨rfl, rfl, rfl⟩

theorem C22_frame_restores_state_witness :
    (MMCSAlgorithm.entered 0 sequential fork 2 [1]
        ⟨{1}, {2, 3}, crit_of fork {1}, uncov_of fork {1}⟩ ∧
      MMCSAlgorithm.input_specification 0
        (⟨{1}, {2, 3}, crit_of fork {1}, uncov_of fork {1}⟩ : MMCSFrame 4 fork.num_edges)
        = true) ∧
    ∃ out, MMCSAlgorithm.extend_or_confirm_set 0 sequential fork fork.transpose 2 [1]
        ⟨{1}, {2, 3}, crit_of fork {1}, uncov_of fork {1}⟩
      = .ok (⟨{1}, {2, 3}, crit_of fork {1}, uncov_of fork {1}⟩, out) :=
  ⟨⟨fork_entered_mmcs, by decide⟩,
    ((C22_frame_restores_state fork 0 sequential).1 _ _ _ fork_entered_mmcs).1 (by decide)⟩

/-- C23. No assertion can fail on legal input: for a hypergraph with at least
one edge and no empty edge, every cutoff and every scheduling, the runs of MMCS
and RS complete, and every call they make satisfies the asserted preconditions
of the callee: `extend_or_confirm_set` is entered with `uncov` non-empty,
(MMCS) `CAND` non-empty, and `|S| < cutoff_size` when `cutoff_size > 0`;
`vertex_would_violate` and `update_crit_and_uncov` are called with `v` outside
`S` and `crit[v]` empty; `restore_crit_and_uncov` is called with `v` outside
`S` and `uncov ∩ crit[v] = ∅`. -/
theorem C23_no_assertion_fails (H : Hypergraph nv) (h1 : H.edges ≠ [])
    (h2 : ∀ e ∈ H.edges, e ≠ ∅) (cutoff_size : Nat) (spawn : List (Fin nv) → Bool) :
    ((∃ R, MMCSAlgorithm.transversal cutoff_size spawn H = .ok R) ∧
      (∀ fuel path fr, MMCSAlgorithm.entered cutoff_size spawn H fuel path fr →
        fr.uncov.Nonempty ∧ fr.CAND.Nonempty ∧ (0 < cutoff_size → fr.S.card < cutoff_size)) ∧
      (∀ fuel path fr e v mid violators,
        MMCSAlgorithm.entered cutoff_size spawn H (fuel + 1) path fr →
        MMCSAlgorithm.iteration cutoff_size spawn H fuel path fr e v mid violators →
        v ∉ mid.S ∧ mid.crit v = ∅) ∧
      (∀ fuel path fr e v fr1 done,
        MMCSAlgorithm.entered cutoff_size spawn H (fuel + 1) path fr →
        MMCSAlgorithm.branch cutoff_size spawn H fuel path fr e v fr1 →
        MMCSAlgorithm.process_candidate cutoff_size spawn H
          (MMCSAlgorithm.extend_or_confirm_set cutoff_size spawn H H.transpose fuel)
          (v :: path) fr1 = .ok done →
        v ∉ done.1.S.erase v ∧ done.1.uncov ∩ done.1.crit v = ∅)) ∧
    ((∃ R, RSAlgorithm.transversal cutoff_size spawn H = .ok R) ∧
      (∀ fuel path fr violating_vertices,
        RSAlgorithm.entered cutoff_size spawn H fuel path fr violating_vertices →
        fr.uncov.Nonempty ∧ (0 < cutoff_size → fr.S.card < cutoff_size)) ∧
      (∀ fuel path fr violating_vertices search_edge v,
        RSAlgorithm.entered cutoff_size spawn H fuel path fr violating_vertices →
        find_first fr.uncov = some search_edge → v ∈ H.edge search_edge →
        v ∉ fr.S ∧ fr.crit v = ∅) ∧
      (∀ fuel path fr violating_vertices search_edge v mid passed_down,
        RSAlgorithm.entered cutoff_size spawn H (fuel + 1) path fr violating_vertices →
        RSAlgorithm.iteration cutoff_size spawn H fuel path fr violating_vertices search_edge v
          mid passed_down →
        v ∉ mid.S ∧ mid.crit v = ∅ ∧
        ∀ upd, update_crit_and_uncov H mid.crit mid.uncov H.transpose mid.S v = .ok upd →
          upd.2.1 ∩ upd.1 v = ∅) ∧
      (∀ fuel path fr violating_vertices search_edge v fr1 passed_down done,
        RSAlgorithm.entered cutoff_size spawn H (fuel + 1) path fr violating_vertices →
        RSAlgorithm.branch cutoff_size spawn H fuel path fr violating_vertices search_edge v
          fr1 passed_down →
        RSAlgorithm.process_candidate cutoff_size spawn H
          (RSAlgorithm.extend_or_confirm_set cutoff_size spawn H H.transpose fuel)
          (v :: path) passed_down fr1 = .ok done →
        v ∉ done.1.S.erase v ∧ done.1.uncov ∩ done.1.crit v = ∅)) := by
  have hnv : 0 < nv := pos_of_nonempty_edge H h1 h2
  refine ⟨⟨?_, ?_, ?_, ?_⟩, ⟨?_, ?_, ?_, ?_, ?_⟩⟩
  · obtain ⟨R, hR, -, -⟩ := MMCSAlgorithm.mmcs_transversal_spec cutoff_size spawn H h1 hnv
    exact ⟨R, hR⟩
  · intro fuel path fr h
    have hin := MMCSAlgorithm.entered_input_specification cutoff_size spawn H h1 hnv h
    rw [MMCSAlgorithm.input_specification_iff] at hin
    refine ⟨hin.1, hin.2.1, fun hpos => ?_⟩
    rcases hin.2.2 with h0 | hlt
    · omega
    · exact hlt
  · intro fuel path fr e v mid violators h hi
    obtain ⟨hcrit, huncov, -, hfuel⟩ := MMCSAlgorithm.entered_spec cutoff_size spawn H h
    obtain ⟨S, CAND, crit, uncov⟩ := fr
    simp only at hcrit huncov hfuel
    subst hcrit huncov
    obtain ⟨j, -, -, -, -, hvS, hmS, hmc, -, -, -⟩ :=
      MMCSAlgorithm.iteration_spec cutoff_size spawn H fuel path S CAND e v mid violators
        hfuel hi
    rw [hmS, hmc]
    exact ⟨hvS, crit_of_eq_empty_of_not_mem H hvS⟩
  · intro fuel path fr e v fr1 done h hb hdone
    obtain ⟨-, -, -, hdisj, out, hpc⟩ := MMCSAlgorithm.branch_done cutoff_size spawn H h hb
    rw [hpc] at hdone
    have hd := Run.ok.inj hdone
    rw [← hd]
    exact ⟨Finset.not_mem_erase v _, hdisj⟩
  · obtain ⟨R, hR, -, -⟩ := RSAlgorithm.rs_transversal_spec cutoff_size spawn H h1
    exact ⟨R, hR⟩
  · intro fuel path fr vv h
    have hin := RSAlgorithm.rs_entered_input_specification cutoff_size spawn H h1 h
    rw [RSAlgorithm.rs_input_specification_iff] at hin
    refine ⟨hin.1, fun hpos => ?_⟩
    rcases hin.2 with h0 | hlt
    · omega
    · exact hlt
  · intro fuel path fr vv search_edge v h hse hv
    obtain ⟨hcrit, huncov, -, -, -⟩ := RSAlgorithm.rs_entered_spec cutoff_size spawn H h
    rw [huncov] at hse
    have hvS : v ∉ fr.S := (mem_uncov_of H).mp (find_first_eq_some.mp hse).1 v hv
    rw [hcrit]
    exact ⟨hvS, crit_of_eq_empty_of_not_mem H hvS⟩
  · intro fuel path fr vv search_edge v mid passed_down h hi
    obtain ⟨hcrit, huncov, -, hfuel, hvv⟩ := RSAlgorithm.rs_entered_spec cutoff_size spawn H h
    obtain ⟨S, crit, uncov⟩ := fr
    simp only at hcrit huncov hfuel hvv
    subst hcrit huncov
    obtain ⟨-, -, hvS, -, -, hmid, -, -⟩ :=
      RSAlgorithm.rs_iteration_spec cutoff_size spawn H fuel path S vv search_edge v mid
        passed_down hfuel hvv hi
    subst hmid
    refine ⟨hvS, crit_of_eq_empty_of_not_mem H hvS, fun upd hupd => ?_⟩
    obtain ⟨critmark, hu, -⟩ := update_crit_and_uncov_correct H S v hvS
    simp only at hupd
    rw [hu] at hupd
    have := Run.ok.inj hupd
    rw [← this]
    exact crit_of_inter_uncov_of H (insert v S) v
  · intro fuel path fr vv search_edge v fr1 passed_down done h hb hdone
    obtain ⟨-, -, -, hdisj, out, hpc⟩ := RSAlgorithm.rs_branch_done cutoff_size spawn H h hb
    rw [hpc] at hdone
    have hd := Run.ok.inj hdone
    rw [← hd]
    exact ⟨Finset.not_mem_erase v _, hdisj⟩

theorem C23_no_assertion_fails_witness :
    (wedge.edges ≠ [] ∧ (∀ e ∈ wedge.edges, e ≠ ∅) ∧
      MMCSAlgorithm.entered 0 sequential wedge (0 + 1) [1]
        ⟨{1}, {0, 2}, crit_of wedge {1}, uncov_of wedge {1}⟩ ∧
      MMCSAlgorithm.iteration 0 sequential wedge 0 [1]
        ⟨{1}, {0, 2}, crit_of wedge {1}, uncov_of wedge {1}⟩
        {0, 2} 0 ⟨{1}, ∅, crit_of wedge {1}, uncov_of wedge {1}⟩ {2}) ∧
    ((0 : Fin 3) ∉ ({1} : bitset 3) ∧ crit_of wedge {1} 0 = ∅) :=
  ⟨⟨by decide, by decide, wedge_entered_mmcs, wedge_iteration_mmcs⟩,
    (C23_no_assertion_fails wedge (by decide) (by decide) 0 sequential).1.2.2.1 _ _ _ _ _ _ _
      wedge_entered_mmcs wedge_iteration_mmcs⟩

/-- C24. Bounded recursion: for a hypergraph with at least one edge and no
empty edge, every cutoff and every scheduling, in MMCS and in RS, each
recursive call of `extend_or_confirm_set` is made with `|S|` exactly one larger
and `uncov` strictly smaller than at the entry of the calling frame; the search
terminates; and the number of nested frames at a reachable call, which is one
more than the length of its position, never exceeds the number of vertices, nor
`cutoff_size` when `cutoff_size > 0`. -/
theorem C24_bounded_recursion (H : Hypergraph nv) (h1 : H.edges ≠ [])
    (h2 : ∀ e ∈ H.edges, e ≠ ∅) (cutoff_size : Nat) (spawn : List (Fin nv) → Bool) :
    ((∀ fuel path fr e v fr1,
        MMCSAlgorithm.entered cutoff_size spawn H (fuel + 1) path fr →
        MMCSAlgorithm.branch cutoff_size spawn H fuel path fr e v fr1 →
        MMCSAlgorithm.recursive_call cutoff_size fr1 →
        fr1.S.card = fr.S.card + 1 ∧ fr1.uncov ⊂ fr.uncov) ∧
      (∃ R, MMCSAlgorithm.transversal cutoff_size spawn H = .ok R) ∧
      (∀ fuel path fr, MMCSAlgorithm.entered cutoff_size spawn H fuel path fr →
        path.length + 1 ≤ nv ∧ (0 < cutoff_size → path.length + 1 ≤ cutoff_size))) ∧
    ((∀ fuel path fr violating_vertices search_edge v fr1 passed_down,
        RSAlgorithm.entered cutoff_size spawn H (fuel + 1) path fr violating_vertices →
        RSAlgorithm.branch cutoff_size spawn H fuel path fr violating_vertices search_edge v
          fr1 passed_down →
        RSAlgorithm.recursive_call cutoff_size fr1 →
        fr1.S.card = fr.S.card + 1 ∧ fr1.uncov ⊂ fr.uncov) ∧
      (∃ R, RSAlgorithm.transversal cutoff_size spawn H = .ok R) ∧
      (∀ fuel path fr violating_vertices,
        RSAlgorithm.entered cutoff_size spawn H fuel path fr violating_vertices →
        path.length + 1 ≤ nv ∧ (0 < cutoff_size → path.length + 1 ≤ cutoff_size))) := by
  have hnv : 0 < nv := pos_of_nonempty_edge H h1 h2
  refine ⟨⟨?_, ?_, ?_⟩, ⟨?_, ?_, ?_⟩⟩
  · intro fuel path fr e v fr1 h hb _
    obtain ⟨hS, hvS, hsub, -, -⟩ := MMCSAlgorithm.branch_done cutoff_size spawn H h hb
    rw [hS, Finset.card_insert_of_not_mem hvS]
    exact ⟨rfl, hsub⟩
  · obtain ⟨R, hR, -, -⟩ := MMCSAlgorithm.mmcs_transversal_spec cutoff_size spawn H h1 hnv
    exact ⟨R, hR⟩
  · intro fuel path fr h
    have hin := MMCSAlgorithm.entered_input_specification cutoff_size spawn H h1 hnv h
    rw [MMCSAlgorithm.input_specification_iff] at hin
    obtain ⟨-, huncov, -, -⟩ := MMCSAlgorithm.entered_spec cutoff_size spawn H h
    have hne := hin.1
    rw [huncov] at hne
    have hlt := card_lt_of_uncov_of_nonempty H h2 hne
    rw [MMCSAlgorithm.entered_path_length cutoff_size spawn H h]
    refine ⟨hlt, fun hpos => ?_⟩
    rcases hin.2.2 with h0 | hc
    · omega
    · exact hc
  · intro fuel path fr vv search_edge v fr1 passed_down h hb _
    obtain ⟨hS, hvS, hsub, -, -⟩ := RSAlgorithm.rs_branch_done cutoff_size spawn H h hb
    rw [hS, Finset.card_insert_of_not_mem hvS]
    exact ⟨rfl, hsub⟩
  · obtain ⟨R, hR, -, -⟩ := RSAlgorithm.rs_transversal_spec cutoff_size spawn H h1
    exact ⟨R, hR⟩
  · intro fuel path fr vv h
    have hin := RSAlgorithm.rs_entered_input_specification cutoff_size spawn H h1 h
    rw [RSAlgorithm.rs_input_specification_iff] at hin
    obtain ⟨-, huncov, -, -, -⟩ := RSAlgorithm.rs_entered_spec cutoff_size spawn H h
    have hne := hin.1
    rw [huncov] at hne
    have hlt := card_lt_of_uncov_of_nonempty H h2 hne
    rw [RSAlgorithm.rs_entered_path_length cutoff_size spawn H h]
    refine ⟨hlt, fun hpos => ?_⟩
    rcases hin.2 with h0 | hc
    · omega
    · exact hc

theorem C24_bounded_recursion_witness :
    (overlap.edges ≠ [] ∧ (∀ e ∈ overlap.edges, e ≠ ∅) ∧
      RSAlgorithm.entered 0 sequential overlap (3 + 1) [] ⟨∅, fun _ => ∅, Finset.univ⟩ ∅ ∧
      RSAlgorithm.branch 0 sequential overlap 3 [] ⟨∅, fun _ => ∅, Finset.univ⟩ ∅
        ⟨0, by decide⟩ 0 ⟨{0}, crit_of overlap {0}, uncov_of overlap {0}⟩ ∅ ∧
      RSAlgorithm.recursive_call 0
        (⟨{0}, crit_of overlap {0}, uncov_of overlap {0}⟩ : RSFrame 3 overlap.num_edges)) ∧
    (({0} : bitset 3).card = (∅ : bitset 3).card + 1 ∧
      uncov_of overlap {0} ⊂ Finset.univ) :=
  ⟨⟨by decide, by decide, RSAlgorithm.entered.root, overlap_branch_rs,
      by unfold RSAlgorithm.recursive_call; decide⟩,
    (C24_bounded_recursion overlap (by decide) (by decide) 0 sequential).2.1 _ _ _ _ _ _ _ _
      RSAlgorithm.entered.root overlap_branch_rs (by unfold RSAlgorithm.recursive_call; decide)⟩

end Claims5

section Claims6

variable {nv : Nat}

set_option maxRecDepth 100000

/-- C25. RS critical-edge test: `any_edge_critical_after_i(i, S, crit)` is true
exactly when some `w` in `S` has `first(crit[w]) >= i`, where the first element
of an empty `crit[w]` is the sentinel, greater than every edge index.  In the
loop of RS, for a candidate `v` outside `S` with `crit[v]` empty, the update
succeeds; when the test is true after it, the restore gives back `crit` and
`uncov` and the loop goes on with the next vertex from the unchanged state
(`v` is not added to `S`, nothing is enqueued, no recursive call is made); when
the test is false, `v` is added to `S` and the new candidate is processed. -/
theorem C25_critical_edge_test (H : Hypergraph nv) (cutoff_size : Nat)
    (spawn : List (Fin nv) → Bool) (T : Fin nv → bitset H.num_edges)
    (recurse : List (Fin nv) → RSFrame nv H.num_edges → bitset nv →
      Run (RSFrame nv H.num_edges × List (bitset nv)))
    (path : List (Fin nv)) (search_edge : Fin H.num_edges) (passed_down : bitset nv)
    (i : Fin H.num_edges) (S : bitset nv) (crit : Fin nv → bitset H.num_edges)
    (v : Fin nv) (rest : List (Fin nv)) (fr : RSFrame nv H.num_edges)
    (hv : v ∉ fr.S) (hc : fr.crit v = ∅) :
    (RSAlgorithm.any_edge_critical_after_i i S crit = true ↔
      ∃ w ∈ S, find_first (crit w) = none ∨ ∃ j, find_first (crit w) = some j ∧ i ≤ j) ∧
    ∃ upd, update_crit_and_uncov H fr.crit fr.uncov T fr.S v = .ok upd ∧
      (RSAlgorithm.any_edge_critical_after_i search_edge fr.S upd.1 = true →
        restore_crit_and_uncov upd.1 upd.2.1 fr.S upd.2.2 v = .ok (fr.crit, fr.uncov) ∧
        RSAlgorithm.search_loop cutoff_size spawn H T recurse path search_edge passed_down
            (v :: rest) fr
          = RSAlgorithm.search_loop cutoff_size spawn H T recurse path search_edge passed_down
            rest fr) ∧
      (RSAlgorithm.any_edge_critical_after_i search_edge fr.S upd.1 = false →
        RSAlgorithm.search_loop cutoff_size spawn H T recurse path search_edge passed_down
            (v :: rest) fr
          = (RSAlgorithm.process_candidate cutoff_size spawn H recurse (v :: path) passed_down
              ⟨insert v fr.S, upd.1, upd.2.1⟩).bind fun done =>
            (restore_crit_and_uncov done.1.crit done.1.uncov (done.1.S.erase v) upd.2.2 v).bind
              fun res =>
            (RSAlgorithm.search_loop cutoff_size spawn H T recurse path search_edge passed_down
              rest ⟨done.1.S.erase v, res.1, res.2⟩).bind fun tail =>
            Run.ok (tail.1, done.2 ++ tail.2)) := by
  constructor
  · unfold RSAlgorithm.any_edge_critical_after_i
    rw [List.any_eq_true]
    constructor
    · rintro ⟨w, hw, h⟩
      refine ⟨w, (mem_members S w).mp hw, ?_⟩
      cases hf : find_first (crit w) with
      | none => exact Or.inl rfl
      | some j =>
        rw [hf] at h
        exact Or.inr ⟨j, rfl, of_decide_eq_true h⟩
    · rintro ⟨w, hw, h⟩
      refine ⟨w, (mem_members S w).mpr hw, ?_⟩
      rcases h with h | ⟨j, h, hij⟩
      · rw [h]
      · rw [h]
        exact decide_eq_true hij
  · obtain ⟨upd, hupd, hres⟩ := update_then_restore H fr.crit fr.uncov T fr.S v hv hc
    refine ⟨upd, hupd, fun htest => ⟨hres, ?_⟩, fun htest => ?_⟩
    · rw [RSAlgorithm.search_loop, hupd, Run.ok_bind]
      simp only [htest, if_true]
      rw [hres, Run.ok_bind]
    · rw [RSAlgorithm.search_loop, hupd, Run.ok_bind]
      simp only [htest, Bool.false_eq_true, if_false]

theorem C25_critical_edge_test_witness :
    ((2 : Fin 4) ∉ ({1} : bitset 4) ∧ crit_of chain {1} 2 = ∅) ∧
    ((RSAlgorithm.any_edge_critical_after_i (⟨2, by decide⟩ : Fin chain.num_edges) {1}
        (crit_of chain {1}) = true ↔
      ∃ w ∈ ({1} : bitset 4), find_first (crit_of chain {1} w) = none ∨
        ∃ j, find_first (crit_of chain {1} w) = some j ∧
          (⟨2, by decide⟩ : Fin chain.num_edges) ≤ j) ∧
    ∃ upd, update_crit_and_uncov chain (crit_of chain {1}) (uncov_of chain {1})
        chain.transpose {1} 2 = .ok upd ∧
      (RSAlgorithm.any_edge_critical_after_i ⟨2, by decide⟩ {1} upd.1 = true →
        restore_crit_and_uncov upd.1 upd.2.1 {1} upd.2.2 2
          = .ok (crit_of chain {1}, uncov_of chain {1}) ∧
        RSAlgorithm.search_loop 0 sequential chain chain.transpose
            (RSAlgorithm.extend_or_confirm_set 0 sequential chain chain.transpose 1)
            [1] ⟨2, by decide⟩ ∅ (2 :: []) ⟨{1}, crit_of chain {1}, uncov_of chain {1}⟩
          = RSAlgorithm.search_loop 0 sequential chain chain.transpose
            (RSAlgorithm.extend_or_confirm_set 0 sequential chain chain.transpose 1)
            [1] ⟨2, by decide⟩ ∅ [] ⟨{1}, crit_of chain {1}, uncov_of chain {1}⟩) ∧
      (RSAlgorithm.any_edge_critical_after_i ⟨2, by decide⟩ {1} upd.1 = false →
        RSAlgorithm.search_loop 0 sequential chain chain.transpose
            (RSAlgorithm.extend_or_confirm_set 0 sequential chain chain.transpose 1)
            [1] ⟨2, by decide⟩ ∅ (2 :: []) ⟨{1}, crit_of chain {1}, uncov_of chain {1}⟩
          = (RSAlgorithm.process_candidate 0 sequential chain
              (RSAlgorithm.extend_or_confirm_set 0 sequential chain chain.transpose 1)
              (2 :: [1]) ∅ ⟨insert 2 {1}, upd.1, upd.2.1⟩).bind fun done =>
            (restore_crit_and_uncov done.1.crit done.1.uncov (done.1.S.erase 2) upd.2.2 2).bind
              fun res =>
            (RSAlgorithm.search_loop 0 sequential chain chain.transpose
              (RSAlgorithm.extend_or_confirm_set 0 sequential chain chain.transpose 1)
              [1] ⟨2, by decide⟩ ∅ [] ⟨done.1.S.erase 2, res.1, res.2⟩).bind fun tail =>
            Run.ok (tail.1, done.2 ++ tail.2))) :=
  ⟨⟨by decide, by decide⟩,
    C25_critical_edge_test chain 0 sequential chain.transpose
      (RSAlgorithm.extend_or_confirm_set 0 sequential chain chain.transpose 1)
      [1] ⟨2, by decide⟩ ∅ ⟨2, by decide⟩ {1} (crit_of chain {1}) 2 []
      ⟨{1}, crit_of chain {1}, uncov_of chain {1}⟩ (by decide) (by decide)⟩

end Claims6

section Claims7

variable {nv : Nat}

set_option maxRecDepth 100000

/-- C26. Violation is monotone along the search.  When `T` is the transpose of
`H`, `crit` and `uncov` are correct for `S`, `u` and `v` are distinct vertices
outside `S`, and `vertex_would_violate(crit, uncov, H, T, S, u)` is true, then
`update_crit_and_uncov(..., v)` succeeds, leaves a state that is correct for
`S ∪ {v}`, and in it `vertex_would_violate(..., S ∪ {v}, u)` is true again.
Hence, under every cutoff and scheduling: in RS, a vertex of the set
`violating_vertices` of a reachable call is rejected by the test in the state
of that call and of every call that descends from it; in MMCS, a vertex that
the loop of a reachable call has put into `violators` is withheld from `CAND`
and is rejected by the test in the state of that call and of every call that
descends from it. -/
theorem C26_violation_monotone (H : Hypergraph nv) :
    (∀ (crit : Fin nv → bitset H.num_edges) (uncov : bitset H.num_edges)
        (T : Fin nv → bitset H.num_edges) (S : bitset nv) (u v : Fin nv),
      (∀ x i, i ∈ T x ↔ x ∈ H.edge i) → bookkeeping_correct H S crit uncov →
      u ≠ v → u ∉ S → v ∉ S →
      vertex_would_violate H crit uncov T S u = .ok true →
      ∃ crit1 uncov1 critmark,
        update_crit_and_uncov H crit uncov T S v = .ok (crit1, uncov1, critmark) ∧
        bookkeeping_correct H (insert v S) crit1 uncov1 ∧
        vertex_would_violate H crit1 uncov1 T (insert v S) u = .ok true) ∧
    (∀ (cutoff_size : Nat) (spawn : List (Fin nv) → Bool) fuel path fr violating_vertices,
      RSAlgorithm.entered cutoff_size spawn H fuel path fr violating_vertices →
      ∀ u ∈ violating_vertices, ∀ b,
        Relation.ReflTransGen (RSAlgorithm.calls cutoff_size spawn H)
          (fuel, path, fr, violating_vertices) b →
        vertex_would_violate H b.2.2.1.crit b.2.2.1.uncov H.transpose b.2.2.1.S u
          = .ok true) ∧
    (∀ (cutoff_size : Nat) (spawn : List (Fin nv) → Bool) fuel path fr e v mid violators,
      MMCSAlgorithm.entered cutoff_size spawn H (fuel + 1) path fr →
      MMCSAlgorithm.iteration cutoff_size spawn H fuel path fr e v mid violators →
      ∀ u ∈ violators, u ∉ mid.CAND ∧ ∀ b,
        Relation.ReflTransGen (MMCSAlgorithm.calls cutoff_size spawn H)
          (fuel + 1, path, fr) b →
        vertex_would_violate H b.2.2.crit b.2.2.uncov H.transpose b.2.2.S u = .ok true) := by
  refine ⟨?_, ?_, ?_⟩
  · intro crit uncov T S u v hT hcorrect huv hu hv hviol
    obtain ⟨rfl, rfl⟩ := (bookkeeping_correct_iff H S crit uncov).mp hcorrect
    rw [transpose_unique H T hT] at hviol ⊢
    obtain ⟨critmark, hupd, -⟩ := update_crit_and_uncov_correct H S v hv
    refine ⟨_, _, critmark, hupd, (bookkeeping_correct_iff H _ _ _).mpr ⟨rfl, rfl⟩, ?_⟩
    rw [vertex_would_violate_correct H S u hu] at hviol
    have hvio : violating H S u := by
      have := Run.ok.inj hviol
      simpa [violating] using this
    have huS : u ∉ insert v S := by
      rw [Finset.mem_insert, not_or]
      exact ⟨huv, hu⟩
    rw [vertex_would_violate_correct H (insert v S) u huS]
    congr 1
    have hmono : ∃ w ∈ insert v S, crit_of H (insert u (insert v S)) w = ∅ :=
      violating.mono H hvio
    exact decide_eq_true hmono
  · intro cutoff_size spawn fuel path fr vv h u hu b hab
    obtain ⟨hb, -, hsub⟩ := RSAlgorithm.rs_entered_of_calls cutoff_size spawn H hab h
    obtain ⟨hcrit, huncov, hirr, -, hvv⟩ := RSAlgorithm.rs_entered_spec cutoff_size spawn H hb
    rw [hcrit, huncov]
    exact (violating.rejected H (hvv u (hsub hu)) hirr).2
  · intro cutoff_size spawn fuel path fr e v mid violators h hi u hu
    obtain ⟨hcrit, huncov, -, hfuel⟩ := MMCSAlgorithm.entered_spec cutoff_size spawn H h
    obtain ⟨S, CAND, crit, uncov⟩ := fr
    simp only at hcrit huncov hfuel
    subst hcrit huncov
    obtain ⟨j, -, -, -, -, -, -, -, -, hvio, hcand⟩ :=
      MMCSAlgorithm.iteration_spec cutoff_size spawn H fuel path S CAND e v mid violators
        hfuel hi
    obtain ⟨-, hue, huv⟩ := hvio u hu
    refine ⟨fun hmem => (hcand u hmem).2 hue huv, fun b hab => ?_⟩
    obtain ⟨hb, hsub, -⟩ := MMCSAlgorithm.entered_of_calls cutoff_size spawn H hab h
    obtain ⟨hcrit, huncov, hirr, -⟩ := MMCSAlgorithm.entered_spec cutoff_size spawn H hb
    rw [hcrit, huncov]
    exact (violating.rejected H (violating.mono_subset H huv hsub) hirr).2

theorem C26_violation_monotone_witness :
    (((∀ x i, i ∈ chain.transpose x ↔ x ∈ chain.edge i) ∧
        bookkeeping_correct chain {0} (crit_of chain {0}) (uncov_of chain {0}) ∧
        (1 : Fin 4) ≠ 3 ∧ (1 : Fin 4) ∉ ({0} : bitset 4) ∧ (3 : Fin 4) ∉ ({0} : bitset 4) ∧
        vertex_would_violate chain (crit_of chain {0}) (uncov_of chain {0}) chain.transpose
          {0} 1 = .ok true) ∧
      ∃ crit1 uncov1 critmark,
        update_crit_and_uncov chain (crit_of chain {0}) (uncov_of chain {0}) chain.transpose
            {0} 3 = .ok (crit1, uncov1, critmark) ∧
        bookkeeping_correct chain (insert 3 {0}) crit1 uncov1 ∧
        vertex_would_violate chain crit1 uncov1 chain.transpose (insert 3 {0}) 1 = .ok true) ∧
    ((MMCSAlgorithm.entered 0 sequential wedge (0 + 1) [1]
          ⟨{1}, {0, 2}, crit_of wedge {1}, uncov_of wedge {1}⟩ ∧
        MMCSAlgorithm.iteration 0 sequential wedge 0 [1]
          ⟨{1}, {0, 2}, crit_of wedge {1}, uncov_of wedge {1}⟩
          {0, 2} 0 ⟨{1}, ∅, crit_of wedge {1}, uncov_of wedge {1}⟩ {2} ∧
        (2 : Fin 3) ∈ ({2} : bitset 3)) ∧
      ((2 : Fin 3) ∉ (∅ : bitset 3) ∧ ∀ b,
        Relation.ReflTransGen (MMCSAlgorithm.calls 0 sequential wedge)
          (0 + 1, [1], ⟨{1}, {0, 2}, crit_of wedge {1}, uncov_of wedge {1}⟩) b →
        vertex_would_violate wedge b.2.2.crit b.2.2.uncov wedge.transpose b.2.2.S 2
          = .ok true)) :=
  ⟨⟨⟨fun _ _ => mem_transpose chain, (bookkeeping_correct_iff chain _ _ _).mpr ⟨rfl, rfl⟩,
        by decide, by decide, by decide, by decide⟩,
      (C26_violation_monotone chain).1 (crit_of chain {0}) (uncov_of chain {0}) chain.transpose
        {0} 1 3 (fun _ _ => mem_transpose chain)
        ((bookkeeping_correct_iff chain _ _ _).mpr ⟨rfl, rfl⟩)
        (by decide) (by decide) (by decide) (by decide)⟩,
    ⟨⟨wedge_entered_mmcs, wedge_iteration_mmcs, by decide⟩,
      (C26_violation_monotone wedge).2.2 0 sequential _ _ _ _ _ _ _ wedge_entered_mmcs
        wedge_iteration_mmcs 2 (by decide)⟩⟩

end Claims7

end agdmhs
